import Mathlib

set_option linter.unusedVariables false

/-
  A shallow embedding of Chris Lomont's TinyGarbageCollector (src/GC.h):
  a fixed-pool boundary-tag allocator (`Allocator`) plus a compacting,
  reference-counted garbage collector (`GarbageCollector`) layered above it.

  The pool is modelled byte-for-byte as a `List Nat` (each entry one byte).
  `Size` (uint32_t) values are stored little-endian via `read32`/`write32`,
  mirroring the in-memory layout the C++ code manipulates through `Chunk*`.
  Pointers into the pool are modelled as byte offsets from the pool base
  (`Option Nat`, `none` = nullptr).  Loops of the C++ code that walk chunk
  chains or circular free lists are modelled with explicit fuel; on states
  where the C++ would loop forever or dereference garbage the model returns
  a default / `none`.  Statistics counters (uint32_t in C++) are modelled as
  `Nat`; the operations below only subtract where the source subtracts, and
  in well-formed states those subtractions never underflow.
-/

namespace TinyGC

/-! ### Byte-level memory primitives -/

/-- Read one byte of the pool; out-of-range reads give 0. -/
def getByte (m : List Nat) (i : Nat) : Nat := m.getD i 0

/-- Write one byte of the pool; out-of-range writes are dropped. -/
def setByte (m : List Nat) (i v : Nat) : List Nat := m.set i v

/-- Little-endian read of a 32-bit `Size` word at byte offset `i`. -/
def read32 (m : List Nat) (i : Nat) : Nat :=
  getByte m i + 256 * getByte m (i+1) + 256^2 * getByte m (i+2) + 256^3 * getByte m (i+3)

/-- Little-endian write of a 32-bit `Size` word at byte offset `i`. -/
def write32 (m : List Nat) (i v : Nat) : List Nat :=
  setByte (setByte (setByte (setByte m i (v % 256)) (i+1) (v / 256 % 256))
    (i+2) (v / 256^2 % 256)) (i+3) (v / 256^3 % 256)

/-- `memmove(dst, src, n)`: all source bytes are read from the original
memory, as memmove guarantees for overlapping regions. -/
def memmove (m : List Nat) (dst src : Nat) : Nat → List Nat
  | 0 => m
  | n+1 => setByte (memmove m dst src n) (dst + n) (getByte m (src + n))

/-! ### Chunk header accessors (struct Chunk)

A chunk at byte offset `c` stores its size word at `c` (low bit =
`isPrevUsed`), and, when free, `nextOffset` at `c+4`, `prevOffset` at `c+8`
and a footer copy of the size in the last 4 bytes of the chunk. -/

/-- `Chunk::GetSize`: size word with the low `isPrevUsed` bit masked off. -/
def GetSize (m : List Nat) (c : Nat) : Nat := 2 * (read32 m c / 2)

/-- `Chunk::IsPrevUsed`: low bit of the size word. -/
def IsPrevUsed (m : List Nat) (c : Nat) : Bool := read32 m c % 2 == 1

/-- `Chunk::SetSize`: store a size, preserving the `isPrevUsed` bit. -/
def SetSize (m : List Nat) (c sz : Nat) : List Nat :=
  write32 m c (2 * (sz / 2) + (if IsPrevUsed m c then 1 else 0))

/-- `Chunk::SetPrevUsed`: set/clear the low bit of the size word. -/
def SetPrevUsed (m : List Nat) (c : Nat) (b : Bool) : List Nat :=
  write32 m c (2 * (read32 m c / 2) + (if b then 1 else 0))

/-- `nextOffset` field of a free chunk. -/
def nextOffset (m : List Nat) (c : Nat) : Nat := read32 m (c+4)

/-- `prevOffset` field of a free chunk. -/
def prevOffset (m : List Nat) (c : Nat) : Nat := read32 m (c+8)

/-! ### Constants from the source -/

/-- `Allocator::InvalidSize = (Size)(-1)`. -/
def InvalidSize : Nat := 2^32 - 1

/-- `BIN_INDICES = 17`. -/
def BIN_INDICES : Nat := 17

/-- `RoundUp`: round a size up to even. -/
def RoundUp (size : Nat) : Nat := size + size % 2

/-- `sizeof(Size)`, the size-word width `W`, also `userDeltaBytes`. -/
def userDeltaBytes : Nat := 4

/-- `minFreeSize = RoundUp(sizeof(Chunk) + sizeof(Size)) = RoundUp(12 + 4) = 16`. -/
def minFreeSize : Nat := RoundUp (12 + 4)

/-- `FreeChunkBins::GetIndex`: bin index where a given byte size lives. -/
def GetIndex (bytesRequested : Nat) : Nat :=
  if bytesRequested < 33 then (bytesRequested - 1) / 2 else (33 - 1) / 2

/-! ### Allocator state -/

/-- State of `class Allocator`: the raw byte pool, the 17 free-list bin
heads, the out-of-band `finalPrevIsUsed` flag and the statistics. -/
structure AllocState where
  memory : List Nat
  bins : List Nat
  finalPrevIsUsed : Bool
  freeBlocks : Nat
  usedBlocks : Nat
  freeMem : Nat
  usedMem : Nat
  merges : Nat
  allocations : Nat
  frees : Nat
  fails : Nat
deriving DecidableEq, Repr

/-- `NextChunk`: the next physical chunk, `none` past the end of the pool. -/
def NextChunk (s : AllocState) (c : Nat) : Option Nat :=
  let nxt := c + GetSize s.memory c
  if s.memory.length ≤ nxt then none else some nxt

/-- `PrevSize`: footer of the physically preceding (free) chunk. -/
def PrevSize (m : List Nat) (c : Nat) : Nat := read32 m (c - 4)

/-- `PrevChunk`: preceding chunk when the current one has `prevUsed = false`
and is not at offset 0, else `none`. -/
def PrevChunk (s : AllocState) (c : Nat) : Option Nat :=
  if IsPrevUsed s.memory c || c == 0 then none
  else some (c - PrevSize s.memory c)

/-- `WriteHeaderAndFooter`: write the size word, propagate `isUsed` into the
successor's `prevUsed` bit (or `finalPrevIsUsed`), and write the footer when
the chunk is free. -/
def WriteHeaderAndFooter (s : AllocState) (c size : Nat) (isUsed : Bool) : AllocState :=
  let s1 : AllocState := { s with memory := SetSize s.memory c size }
  let s2 : AllocState :=
    match NextChunk s1 c with
    | some nxt => { s1 with memory := SetPrevUsed s1.memory nxt isUsed }
    | none => { s1 with finalPrevIsUsed := isUsed }
  if isUsed then s2
  else { s2 with
    memory := write32 s2.memory (c + GetSize s2.memory c - 4) (GetSize s2.memory c) }

/-- `AddToFreeList`: push a free chunk onto the circular doubly-linked list
of its size bin. -/
def AddToFreeList (s : AllocState) (c : Nat) : AllocState :=
  let offset := c
  let binIndex := GetIndex (GetSize s.memory c)
  let listIndex := s.bins.getD binIndex 0
  if listIndex == InvalidSize then
    -- single node: bins[binIndex] = offset; chunk->prevOffset = chunk->nextOffset = offset
    { s with
      bins := s.bins.set binIndex offset,
      memory := write32 (write32 s.memory (c+4) offset) (c+8) offset }
  else
    -- link in after the bin head
    let nextNode := read32 s.memory (listIndex + 4)
    let m1 := write32 s.memory (c+8) listIndex
    let m2 := write32 m1 (c+4) (read32 m1 (listIndex + 4))
    let m3 := write32 m2 (nextNode + 8) offset
    let m4 := write32 m3 (listIndex + 4) offset
    { s with memory := m4 }

/-- `RemoveFromFreeList`: unlink a chunk from its bin's circular list,
leaving the chunk's own offsets unchanged. -/
def RemoveFromFreeList (s : AllocState) (c : Nat) : AllocState :=
  let offset := c
  let binIndex := GetIndex (GetSize s.memory c)
  let newHead := if nextOffset s.memory c == offset then InvalidSize else nextOffset s.memory c
  let s1 : AllocState :=
    if s.bins.getD binIndex 0 == offset then
      { s with bins := s.bins.set binIndex newHead }
    else s
  let m1 := write32 s1.memory (read32 s1.memory (c+4) + 8) (read32 s1.memory (c+8))
  let m2 := write32 m1 (read32 m1 (c+8) + 4) (read32 m1 (c+4))
  { s1 with memory := m2 }

/-- Inner do-while of `GetFreeOfSize`: scan one circular bin list for the
first chunk of size ≥ `bytesRequested`.  `fuel` bounds the traversal (the
C++ loops forever on a corrupted list). -/
def scanBin (m : List Nat) (bytesRequested start : Nat) : Nat → Nat → Option Nat
  | 0, _ => none
  | fuel+1, cur =>
    if bytesRequested ≤ GetSize m cur then some cur
    else
      let nxt := nextOffset m cur
      if nxt == start then none else scanBin m bytesRequested start fuel nxt

/-- Outer loop of `GetFreeOfSize`: scan bins upward from `binIndex`.  The
first argument counts the bins left to visit (`BIN_INDICES` at the top
call covers `while (binIndex < BIN_INDICES)` from any start). -/
def GetFreeOfSizeLoop (s : AllocState) (bytesRequested : Nat) : Nat → Nat → Option Nat
  | 0, _ => none
  | remaining+1, binIndex =>
    if binIndex < BIN_INDICES then
      let offset := s.bins.getD binIndex 0
      let found : Option Nat :=
        if offset == InvalidSize then none
        else scanBin s.memory bytesRequested offset (s.memory.length + 1) offset
      match found with
      | some c => some c
      | none => GetFreeOfSizeLoop s bytesRequested remaining (binIndex + 1)
    else none

/-- `GetFreeOfSize`: first free chunk with size ≥ `bytesRequested`. -/
def GetFreeOfSize (s : AllocState) (bytesRequested : Nat) : Option Nat :=
  GetFreeOfSizeLoop s bytesRequested BIN_INDICES (GetIndex bytesRequested)

/-- The statistics update `AllocationBytesUsed`; `pos = true` for the
allocation direction (`bytesUsed > 0` in the source). -/
def AllocationBytesUsed (s : AllocState) (pos : Bool) (n : Nat) : AllocState :=
  if pos then
    { s with freeBlocks := s.freeBlocks - 1, usedBlocks := s.usedBlocks + 1,
             freeMem := s.freeMem - n, usedMem := s.usedMem + n }
  else
    { s with freeBlocks := s.freeBlocks + 1, usedBlocks := s.usedBlocks - 1,
             freeMem := s.freeMem + n, usedMem := s.usedMem - n }

/-- `Allocator::AllocPtr`: returns the user pointer (byte offset past the
header) or `none`, together with the updated state.  `byteSizeRequested +
sizeof(Size)` is a `size_t` narrowed back to the 32-bit `Size` at the
`RoundUp(Size)` call, and `RoundUp` itself adds in `u32`, so both steps
wrap mod `2^32`. -/
def AllocPtr (s : AllocState) (byteSizeRequested : Nat) : Option Nat × AllocState :=
  let bytesNeeded0 := RoundUp ((byteSizeRequested + userDeltaBytes) % 2^32) % 2^32
  let bytesNeeded := if bytesNeeded0 < minFreeSize then minFreeSize else bytesNeeded0
  match GetFreeOfSize s bytesNeeded with
  | none => (none, { s with fails := s.fails + 1 })
  | some curFree =>
    let size := GetSize s.memory curFree
    let s1 := RemoveFromFreeList s curFree
    let splitBlock := minFreeSize + bytesNeeded ≤ size
    let bytesUsed := if splitBlock then bytesNeeded else size
    let used := curFree + (size - bytesUsed)
    let s2 := WriteHeaderAndFooter s1 used bytesUsed true
    let s3 := AllocationBytesUsed s2 true bytesUsed
    let s4 :=
      if splitBlock then
        AddToFreeList
          (WriteHeaderAndFooter { s3 with freeBlocks := s3.freeBlocks + 1 }
            curFree (size - bytesUsed) false) curFree
      else s3
    (some (used + userDeltaBytes), { s4 with allocations := s4.allocations + 1 })

/-- `IsNextUsed`: status of the physically following chunk (true when the
current chunk is the last one). -/
def IsNextUsed (s : AllocState) (c : Nat) : Bool :=
  match NextChunk s c with
  | some next1 =>
    match NextChunk s next1 with
    | some next2 => IsPrevUsed s.memory next2
    | none => s.finalPrevIsUsed
  | none => true

/-- `MergeSecondIntoFirst`: coalesce two adjacent free chunks. -/
def MergeSecondIntoFirst (s : AllocState) (prev chunk : Nat) : AllocState :=
  let s1 := RemoveFromFreeList s prev
  let s2 := RemoveFromFreeList s1 chunk
  let s3 := WriteHeaderAndFooter s2 prev (GetSize s2.memory prev + GetSize s2.memory chunk) false
  let s4 := AddToFreeList s3 prev
  { s4 with freeBlocks := s4.freeBlocks - 1, merges := s4.merges + 1 }

/-- `Allocator::FreePtr`: free a user pointer and eagerly coalesce with the
free physical successor and predecessor. -/
def FreePtr (s : AllocState) (userData : Nat) : AllocState :=
  let chunk := userData - userDeltaBytes
  let size := GetSize s.memory chunk
  let s1 := WriteHeaderAndFooter s chunk size false
  let s2 := AddToFreeList s1 chunk
  let s3 := AllocationBytesUsed s2 false size
  let s4 :=
    if !(IsNextUsed s3 chunk) then
      match NextChunk s3 chunk with
      | some nxt => MergeSecondIntoFirst s3 chunk nxt
      | none => s3
    else s3
  let s5 :=
    if !(IsPrevUsed s4.memory chunk) && chunk != 0 then
      MergeSecondIntoFirst s4 (chunk - PrevSize s4.memory chunk) chunk
    else s4
  { s5 with frees := s5.frees + 1 }

/-- The `Allocator(sizeInBytes)` constructor: one free chunk of size
`RoundUp(sizeInBytes - 1)` linked into its bin. -/
def AllocatorInit (sizeInBytes : Nat) : AllocState :=
  let s0 : AllocState :=
    { memory := List.replicate sizeInBytes 0
      bins := List.replicate BIN_INDICES InvalidSize
      finalPrevIsUsed := false
      freeBlocks := 0, usedBlocks := 0, freeMem := 0, usedMem := 0
      merges := 0, allocations := 0, frees := 0, fails := 0 }
  let s1 := WriteHeaderAndFooter s0 0 (RoundUp (sizeInBytes - 1)) false
  -- root->nextOffset = root->prevOffset = 0
  let s2 : AllocState := { s1 with memory := write32 (write32 s1.memory 4 0) 8 0 }
  let s3 : AllocState := { s2 with freeBlocks := 1, freeMem := sizeInBytes }
  AddToFreeList s3 0

/-! ### GarbageCollector state -/

/-- `struct RefHolder`: one handle-table slot. -/
structure RefHolder where
  refCount : Nat
  size : Nat
  pointer : Option Nat
deriving DecidableEq, Repr

/-- `class GarbageCollector : public Allocator`: allocator state plus the
handle table and the GC statistics. -/
structure GCState extends AllocState where
  refs : List RefHolder
  collections : Nat
  swaps : Nat
  bytesMoved : Nat
deriving DecidableEq, Repr

/-- Replace the inherited allocator state. -/
def setAlloc (g : GCState) (a : AllocState) : GCState := { g with toAllocState := a }

/-- `InvalidRef = (Ref)(-1)`. -/
def InvalidRef : Nat := 2^32 - 1

/-- The `GarbageCollector(bytesUsed)` constructor; `refs.resize(100)` fills
the table with default `RefHolder`s. -/
def GCInit (bytesUsed : Nat) : GCState :=
  { toAllocState := AllocatorInit bytesUsed
    refs := List.replicate 100 ⟨0, 0, none⟩
    collections := 0, swaps := 0, bytesMoved := 0 }

/-- The scan loop of `GetFreeRef`: find the first slot with `size == 0` and
fill it; `none` when no slot is free. -/
def GetFreeRefScan (ptr requestedByteSize : Nat) :
    List RefHolder → Option (Nat × List RefHolder)
  | [] => none
  | r :: rest =>
    if r.size == 0 then some (0, ⟨1, requestedByteSize, some ptr⟩ :: rest)
    else
      match GetFreeRefScan ptr requestedByteSize rest with
      | some (i, rest₂) => some (i + 1, r :: rest₂)
      | none => none

/-- `GetFreeRef`: reuse the first free slot, else `push_back` a new one and
return `(Ref)(refs.size() - 1)` (a u32 cast, hence the `% 2^32`). -/
def GetFreeRef (g : GCState) (ptr requestedByteSize : Nat) : Nat × GCState :=
  match GetFreeRefScan ptr requestedByteSize g.refs with
  | some (i, refs₂) => (i, { g with refs := refs₂ })
  | none =>
    (g.refs.length % 2^32, { g with refs := g.refs ++ [⟨1, requestedByteSize, some ptr⟩] })

/-- `GarbageCollector::AllocRef`. -/
def AllocRef (g : GCState) (requestedByteSize : Nat) : Nat × GCState :=
  match AllocPtr g.toAllocState requestedByteSize with
  | (none, a) => (InvalidRef, setAlloc g a)
  | (some ptr, a) =>
    let rg := GetFreeRef (setAlloc g a) ptr requestedByteSize
    if rg.1 == InvalidRef then
      (rg.1, setAlloc rg.2 (FreePtr rg.2.toAllocState ptr))
    else rg

/-- `GarbageCollector::FreeRef`.  `none` models the undefined behavior of an
out-of-range handle or of `FreePtr(nullptr)` on an already-dead slot. -/
def FreeRef (g : GCState) (ref : Nat) : Option GCState :=
  match g.refs.get? ref with
  | none => none
  | some rh =>
    match rh.pointer with
    | none => none
    | some p =>
      some { setAlloc g (FreePtr g.toAllocState p) with
             refs := g.refs.set ref ⟨InvalidRef, 0, none⟩ }

/-- `GarbageCollector::IncrRef`. -/
def IncrRef (g : GCState) (ref : Nat) : Option GCState :=
  match g.refs.get? ref with
  | none => none
  | some rh => some { g with refs := g.refs.set ref ⟨rh.refCount + 1, rh.size, rh.pointer⟩ }

/-- `GarbageCollector::DecrRef`: returns the *alive?* flag and the state. -/
def DecrRef (g : GCState) (ref : Nat) : Option (Bool × GCState) :=
  match g.refs.get? ref with
  | none => none
  | some rh =>
    if 1 < rh.refCount then
      some (true, { g with refs := g.refs.set ref ⟨rh.refCount - 1, rh.size, rh.pointer⟩ })
    else
      match FreeRef g ref with
      | some g₂ => some (false, g₂)
      | none => none

/-- `SizeFromRef`. -/
def SizeFromRef (g : GCState) (ref : Nat) : Nat := (g.refs.getD ref ⟨0, 0, none⟩).size

/-- `PointerFromRef`. -/
def PointerFromRef (g : GCState) (ref : Nat) : Option Nat :=
  (g.refs.getD ref ⟨0, 0, none⟩).pointer

/-- `RefCount`. -/
def RefCount (g : GCState) (ref : Nat) : Nat := (g.refs.getD ref ⟨0, 0, none⟩).refCount

/-- `IsSelfUsed`: a chunk's own used/free status, read from the successor's
`prevUsed` bit (or `finalPrevIsUsed` for the last chunk). -/
def IsSelfUsed (s : AllocState) (c : Nat) : Bool :=
  match NextChunk s c with
  | some next => IsPrevUsed s.memory next
  | none => s.finalPrevIsUsed

/-! ### Compact and its loops -/

/-- Compact phase 1 (stamp): for each live slot `i`, save the first user
word into `backing[i]` and overwrite it with `i`. -/
def CompactStamp : List RefHolder → Nat → List Nat → List Nat → List Nat × List Nat
  | [], _, m, backing => (m, backing)
  | r :: rest, i, m, backing =>
    match r.pointer with
    | some p => CompactStamp rest (i+1) (write32 m p i) (backing.set i (read32 m p))
    | none => CompactStamp rest (i+1) m backing

/-- Compact phase 2 (detach): walk all chunks, unlinking every free one
from its bin and decrementing `freeBlocks`. -/
def CompactDetach : Nat → AllocState → Nat → AllocState
  | 0, s, _ => s
  | fuel+1, s, cur =>
    let s1 :=
      if !(IsSelfUsed s cur) then
        RemoveFromFreeList { s with freeBlocks := s.freeBlocks - 1 } cur
      else s
    match NextChunk s1 cur with
    | some nxt => CompactDetach fuel s1 nxt
    | none => s1

/-- Compact phase 3 (slide): move every used chunk down to `nextWrite`,
counting `bytesMoved` and `swaps` for every used chunk (moved or not).
Returns the state, the final write cursor and the total used size. -/
def CompactSlide : Nat → GCState → Nat → Nat → Nat → GCState × Nat × Nat
  | 0, g, _, nextWrite, usedSize => (g, nextWrite, usedSize)
  | fuel+1, g, cur, nextWrite, usedSize =>
    let nxt := NextChunk g.toAllocState cur
    if IsSelfUsed g.toAllocState cur then
      let size := GetSize g.toAllocState.memory cur
      let a1 :=
        if cur != nextWrite then
          { g.toAllocState with memory := memmove g.toAllocState.memory nextWrite cur size }
        else g.toAllocState
      let a2 := WriteHeaderAndFooter a1 nextWrite size true
      let g1 := { setAlloc g a2 with bytesMoved := g.bytesMoved + size, swaps := g.swaps + 1 }
      match nxt with
      | some n => CompactSlide fuel g1 n (nextWrite + size) (usedSize + size)
      | none => (g1, nextWrite + size, usedSize + size)
    else
      match nxt with
      | some n => CompactSlide fuel g n nextWrite usedSize
      | none => (g, nextWrite, usedSize)

/-- The mark-all-used do-while after the tail phase.  The loop runs until
`cur == freeChunk`; when the walk falls off the end (`cur` becomes null)
while `freeChunk` is non-null the C++ dereferences nullptr — modelled as
`none`. -/
def CompactMark : Nat → AllocState → Nat → Option Nat → Option AllocState
  | 0, _, _, _ => none
  | fuel+1, s, cur, freeChunk =>
    let s1 : AllocState := { s with memory := SetPrevUsed s.memory cur true }
    match NextChunk s1 cur with
    | some n => if some n == freeChunk then some s1 else CompactMark fuel s1 n freeChunk
    | none => if freeChunk == none then some s1 else none

/-- Compact phase 5 (unstamp): for each used chunk read back the stamped
handle id, restore the saved word and point the handle at the chunk's user
area.  Out-of-range ids (possible only for used chunks no live handle
stamped) index `backing`/`refs` out of bounds in the C++ — modelled as
`none`; the nullptr run-off of the do-while is `none` as in the mark loop. -/
def CompactUnstamp : Nat → GCState → List Nat → Nat → Option Nat → Option GCState
  | 0, _, _, _, _ => none
  | fuel+1, g, backing, cur, freeChunk =>
    let step : Option GCState :=
      if IsSelfUsed g.toAllocState cur then
        let p := cur + userDeltaBytes
        let index := read32 g.toAllocState.memory p
        match backing.get? index, g.refs.get? index with
        | some b, some rh =>
          some { setAlloc g { g.toAllocState with memory := write32 g.toAllocState.memory p b } with
                 refs := g.refs.set index ⟨rh.refCount, rh.size, some p⟩ }
        | _, _ => none
      else some g
    match step with
    | none => none
    | some g1 =>
      match NextChunk g1.toAllocState cur with
      | some n =>
        if some n == freeChunk then some g1 else CompactUnstamp fuel g1 backing n freeChunk
      | none => if freeChunk == none then some g1 else none

/-- `GarbageCollector::Compact`: stamp, detach, slide, build the single
trailing free chunk, mark all used, unstamp, bump `collections`. -/
def Compact (g : GCState) : Option GCState :=
  let mb := CompactStamp g.refs 0 g.toAllocState.memory (List.replicate g.refs.length 0)
  let a1 : AllocState := { g.toAllocState with memory := mb.1 }
  let a2 := CompactDetach (a1.memory.length + 1) a1 0
  let slid := CompactSlide (a2.memory.length + 1) (setAlloc g a2) 0 0 0
  let g3 := slid.1
  let nextWrite := slid.2.1
  let usedSize := slid.2.2
  let freeSize := g3.toAllocState.memory.length - usedSize
  let a3 : AllocState := { g3.toAllocState with freeMem := freeSize }
  let afc : AllocState × Option Nat :=
    if 0 < freeSize then
      let b1 : AllocState := { a3 with freeBlocks := a3.freeBlocks + 1 }
      let b2 := WriteHeaderAndFooter b1 nextWrite freeSize false
      let b3 : AllocState := { b2 with memory := SetPrevUsed b2.memory nextWrite true }
      (AddToFreeList b3 nextWrite, some nextWrite)
    else (a3, none)
  match CompactMark (afc.1.memory.length + 1) afc.1 0 afc.2 with
  | none => none
  | some a5 =>
    match CompactUnstamp (a5.memory.length + 1) (setAlloc g3 a5) mb.2 0 afc.2 with
    | none => none
    | some g4 => some { g4 with collections := g4.collections + 1 }

/-! ### Abstractions used to state properties

These do not correspond to source functions; they read the same chunk
headers the source walks (`GetChunkAbsolute(0)` / `NextChunk`, and the
circular `nextOffset` links) and collect the chunks into lists so that
invariants can be stated. -/

/-- The physical chunk walk from offset `c`: the list of `(offset, size)`
pairs obtained exactly as the source's `while (s != nullptr) s = NextChunk(s)`
loops; `none` when the walk does not finish within `fuel`. -/
def chunksFrom (s : AllocState) : Nat → Nat → Option (List (Nat × Nat))
  | 0, _ => none
  | fuel+1, c =>
    match NextChunk s c with
    | some n => (chunksFrom s fuel n).map ((c, GetSize s.memory c) :: ·)
    | none => some [(c, GetSize s.memory c)]

/-- All chunks of the pool, from offset 0. -/
def chunks (s : AllocState) : Option (List (Nat × Nat)) :=
  chunksFrom s (s.memory.length + 1) 0

/-- Traversal of one circular free list from `start`, following
`nextOffset` links; `none` when it does not come back to `start` within
`fuel`. -/
def binListFrom (m : List Nat) (start : Nat) : Nat → Nat → Option (List Nat)
  | 0, _ => none
  | fuel+1, cur =>
    let nxt := nextOffset m cur
    if nxt = start then some [cur]
    else (binListFrom m start fuel nxt).map (cur :: ·)

/-- The chunks linked into bin `b` (empty when the bin head is
`InvalidSize`). -/
def binList (s : AllocState) (b : Nat) : Option (List Nat) :=
  if s.bins.getD b 0 = InvalidSize then some []
  else binListFrom s.memory (s.bins.getD b 0) (s.memory.length + 1) (s.bins.getD b 0)

/-- The chunk walk with `[]` as the diverging default. -/
def chunksD (s : AllocState) : List (Nat × Nat) := (chunks s).getD []

/-- One bin's traversal list with `[]` as the diverging default. -/
def binListD (s : AllocState) (b : Nat) : List Nat := (binList s b).getD []

/-- Sum of the sizes of a chunk list. -/
def sumSizes (l : List (Nat × Nat)) : Nat := (l.map (fun p => p.2)).sum

/-- The free chunks of a walk. -/
def freeChunks (s : AllocState) (l : List (Nat × Nat)) : List (Nat × Nat) :=
  l.filter (fun p => !(IsSelfUsed s p.1))

/-- The used chunks of a walk. -/
def usedChunks (s : AllocState) (l : List (Nat × Nat)) : List (Nat × Nat) :=
  l.filter (fun p => IsSelfUsed s p.1)

/-- Well-formedness of the free-list bins against the walk `l`: every bin
traversal terminates, visits pairwise distinct free chunks of the walk that
belong in that bin, the `prevOffset` back links close the cycle, and every
free chunk of the walk is linked into its bin. -/
def BinsWFx (s : AllocState) (l : List (Nat × Nat)) (ex : List Nat) : Prop :=
  (∀ b, b < BIN_INDICES → (binList s b).isSome) ∧
  (∀ b, b < BIN_INDICES → (binListD s b).Nodup) ∧
  (∀ b, b < BIN_INDICES → ∀ c ∈ binListD s b,
      (c, GetSize s.memory c) ∈ l ∧ IsSelfUsed s c = false ∧
      GetIndex (GetSize s.memory c) = b ∧ c ∉ ex) ∧
  (∀ b, b < BIN_INDICES →
      List.Chain' (fun x y => prevOffset s.memory y = x)
        (binListD s b ++ (binListD s b).take 1)) ∧
  (∀ p ∈ freeChunks s l, p.1 ∈ ex ∨ p.1 ∈ binListD s (GetIndex p.2))

/-- `BinsWFx` with no excepted chunks: the bins invariant proper. -/
def BinsWF (s : AllocState) (l : List (Nat × Nat)) : Prop := BinsWFx s l []

/-- Allocator-level well-formedness: the full structural invariant of the
pool — the chunk walk partitions the (even-sized) pool into chunks of
size ≥ 16, free chunks carry matching footers, no two adjacent chunks are
free, the statistics match the walk, and the bins are well formed. -/
def AllocWF (s : AllocState) : Prop :=
  16 ≤ s.memory.length ∧ s.memory.length % 2 = 0 ∧ s.memory.length < 2^32 ∧
  (∀ b ∈ s.memory, b < 256) ∧
  s.bins.length = BIN_INDICES ∧
  (chunks s).isSome ∧
  (∀ p ∈ chunksD s, 16 ≤ p.2) ∧
  sumSizes (chunksD s) = s.memory.length ∧
  (∀ p ∈ freeChunks s (chunksD s), read32 s.memory (p.1 + p.2 - 4) = p.2) ∧
  List.Chain' (fun p q => IsSelfUsed s p.1 = true ∨ IsSelfUsed s q.1 = true) (chunksD s) ∧
  s.freeBlocks = (freeChunks s (chunksD s)).length ∧
  s.usedBlocks = (usedChunks s (chunksD s)).length ∧
  s.freeMem = sumSizes (freeChunks s (chunksD s)) ∧
  s.usedMem = sumSizes (usedChunks s (chunksD s)) ∧
  BinsWF s (chunksD s)

/-- Handle-table well-formedness against the walk: every live handle points
just past the header of a used chunk with room for the request, live
pointers are pairwise distinct, every used chunk is tracked by a live
handle, and the table is far from the `InvalidRef` cast boundary. -/
def RefsWF (g : GCState) (l : List (Nat × Nat)) : Prop :=
  (∀ r ∈ g.refs, r.pointer.isSome →
      4 ≤ r.pointer.getD 0 ∧
      (r.pointer.getD 0 - 4, GetSize g.toAllocState.memory (r.pointer.getD 0 - 4)) ∈ l ∧
      IsSelfUsed g.toAllocState (r.pointer.getD 0 - 4) = true ∧ r.size ≠ 0 ∧
      r.size + userDeltaBytes ≤ GetSize g.toAllocState.memory (r.pointer.getD 0 - 4)) ∧
  (∀ i, i < g.refs.length → ∀ j, j < g.refs.length →
      (g.refs.getD i ⟨0,0,none⟩).pointer.isSome →
      (g.refs.getD i ⟨0,0,none⟩).pointer = (g.refs.getD j ⟨0,0,none⟩).pointer → i = j) ∧
  (∀ p ∈ usedChunks g.toAllocState l,
      ∃ i, i < g.refs.length ∧ (g.refs.getD i ⟨0,0,none⟩).pointer = some (p.1 + 4)) ∧
  g.refs.length < InvalidRef

/-- Full well-formedness of a collector state. -/
def GCWF (g : GCState) : Prop :=
  AllocWF g.toAllocState ∧ RefsWF g (chunksD g.toAllocState)

instance BinsWFx.dec (s : AllocState) (l : List (Nat × Nat)) (ex : List Nat) :
    Decidable (BinsWFx s l ex) := by
  unfold BinsWFx; infer_instance

instance BinsWF.dec (s : AllocState) (l : List (Nat × Nat)) : Decidable (BinsWF s l) := by
  unfold BinsWF; infer_instance

instance AllocWF.dec (s : AllocState) : Decidable (AllocWF s) := by
  unfold AllocWF; infer_instance

instance RefsWF.dec (g : GCState) (l : List (Nat × Nat)) : Decidable (RefsWF g l) := by
  unfold RefsWF; infer_instance

instance GCWF.dec (g : GCState) : Decidable (GCWF g) := by
  unfold GCWF; infer_instance

/-- The states reachable through the reference-manager API (the interface
clients are to use exclusively): construction with an even pool size
`20 ≤ P < 2^32`, `AllocRef` with a nonzero request, `IncrRef`/`DecrRef`/
`FreeRef` on handles the model accepts, and successful `Compact` calls. -/
inductive ReachableGC : GCState → Prop
  | init (P : Nat) (h20 : 20 ≤ P) (hev : P % 2 = 0) (hlt : P < 2^32) :
      ReachableGC (GCInit P)
  | allocRef (g : GCState) (n : Nat) (hg : ReachableGC g) (hn : 1 ≤ n) :
      ReachableGC (AllocRef g n).2
  | incrRef (g : GCState) (r : Nat) (g₂ : GCState) (hg : ReachableGC g)
      (h : IncrRef g r = some g₂) : ReachableGC g₂
  | decrRef (g : GCState) (r : Nat) (b : Bool) (g₂ : GCState) (hg : ReachableGC g)
      (h : DecrRef g r = some (b, g₂)) : ReachableGC g₂
  | freeRef (g : GCState) (r : Nat) (g₂ : GCState) (hg : ReachableGC g)
      (h : FreeRef g r = some g₂) : ReachableGC g₂
  | compact (g g₂ : GCState) (hg : ReachableGC g) (h : Compact g = some g₂) :
      ReachableGC g₂

/-! ### Byte-level lemmas -/

theorem length_setByte (m : List Nat) (i v : Nat) : (setByte m i v).length = m.length := by
  simp [setByte]

theorem getByte_setByte_self (m : List Nat) (i v : Nat) (h : i < m.length) :
    getByte (setByte m i v) i = v := by
  simp [getByte, setByte, List.getD_eq_getElem?_getD, List.getElem?_set_self h]

theorem getByte_setByte_of_ne (m : List Nat) (i j v : Nat) (h : i ≠ j) :
    getByte (setByte m i v) j = getByte m j := by
  simp [getByte, setByte, List.getD_eq_getElem?_getD, List.getElem?_set_ne h]

theorem length_write32 (m : List Nat) (i v : Nat) : (write32 m i v).length = m.length := by
  simp [write32, length_setByte]

theorem getByte_write32_of_ne (m : List Nat) (i j v : Nat)
    (h : j < i ∨ i + 4 ≤ j) : getByte (write32 m i v) j = getByte m j := by
  unfold write32
  rw [getByte_setByte_of_ne, getByte_setByte_of_ne, getByte_setByte_of_ne,
    getByte_setByte_of_ne] <;> omega

theorem getByte_lt (m : List Nat) (i : Nat) (hb : ∀ b ∈ m, b < 256) :
    getByte m i < 256 := by
  unfold getByte
  rcases h : m[i]? with _ | b
  · simp [List.getD_eq_getElem?_getD, h]
  · have := hb b (List.getElem?_mem h)
    simpa [List.getD_eq_getElem?_getD, h]

theorem mem_setByte (m : List Nat) (i v b : Nat) (hb : ∀ x ∈ m, x < 256) (hv : v < 256)
    (h : b ∈ setByte m i v) : b < 256 := by
  rcases List.mem_or_eq_of_mem_set h with h' | rfl
  · exact hb b h'
  · exact hv

theorem mem_write32 (m : List Nat) (i v b : Nat) (hb : ∀ x ∈ m, x < 256)
    (h : b ∈ write32 m i v) : b < 256 := by
  unfold write32 at h
  refine mem_setByte _ _ _ _ (fun x hx => mem_setByte _ _ _ _
    (fun y hy => mem_setByte _ _ _ _ (fun z hz => mem_setByte _ _ _ _ hb ?_ hz) ?_ hy) ?_ hx) ?_ h
  all_goals exact Nat.mod_lt _ (by norm_num)

/-- Recomposing the four little-endian bytes of `v` gives `v % 2^32`. -/
theorem byte_decomp (v : Nat) :
    v % 256 + 256 * (v / 256 % 256) + 256^2 * (v / 256^2 % 256) + 256^3 * (v / 256^3 % 256)
      = v % 2^32 := by
  omega

theorem read32_write32_self (m : List Nat) (i v : Nat) (h : i + 4 ≤ m.length) :
    read32 (write32 m i v) i = v % 2^32 := by
  have l1 : (setByte m i (v % 256)).length = m.length := length_setByte ..
  have l2 : (setByte (setByte m i (v % 256)) (i+1) (v / 256 % 256)).length = m.length := by
    rw [length_setByte, l1]
  have l3 : (setByte (setByte (setByte m i (v % 256)) (i+1) (v / 256 % 256)) (i+2)
      (v / 256^2 % 256)).length = m.length := by
    rw [length_setByte, l2]
  unfold read32 write32
  rw [getByte_setByte_of_ne _ _ _ _ (by omega), getByte_setByte_of_ne _ _ _ _ (by omega),
    getByte_setByte_of_ne _ _ _ _ (by omega),
    getByte_setByte_self _ _ _ (by omega),
    getByte_setByte_of_ne _ _ _ _ (by omega), getByte_setByte_of_ne _ _ _ _ (by omega),
    getByte_setByte_self _ _ _ (by omega),
    getByte_setByte_of_ne _ _ _ _ (by omega),
    getByte_setByte_self _ _ _ (by omega),
    getByte_setByte_self _ _ _ (by omega)]
  exact byte_decomp v

theorem read32_write32_of_disjoint (m : List Nat) (i j v : Nat)
    (h : j + 4 ≤ i ∨ i + 4 ≤ j) : read32 (write32 m i v) j = read32 m j := by
  unfold read32
  rw [getByte_write32_of_ne _ _ _ _ (by omega), getByte_write32_of_ne _ _ _ _ (by omega),
    getByte_write32_of_ne _ _ _ _ (by omega), getByte_write32_of_ne _ _ _ _ (by omega)]

theorem read32_lt (m : List Nat) (i : Nat) (hb : ∀ b ∈ m, b < 256) :
    read32 m i < 2^32 := by
  have h0 := getByte_lt m i hb
  have h1 := getByte_lt m (i+1) hb
  have h2 := getByte_lt m (i+2) hb
  have h3 := getByte_lt m (i+3) hb
  unfold read32
  omega

theorem getByte_replicate (n i : Nat) : getByte (List.replicate n 0) i = 0 := by
  unfold getByte
  rcases Nat.lt_or_ge i n with h | h
  · simp [List.getD_eq_getElem?_getD, List.getElem?_replicate, h]
  · have hle : (List.replicate n (0:Nat)).length ≤ i := by simpa using h
    simp [List.getD_eq_getElem?_getD, List.getElem?_eq_none hle]

theorem read32_replicate (n i : Nat) : read32 (List.replicate n 0) i = 0 := by
  simp [read32, getByte_replicate]

/-! ### Operation step lemmas -/

theorem GetSize_write32_of_disjoint (m : List Nat) (i v c : Nat)
    (h : c + 4 ≤ i ∨ i + 4 ≤ c) : GetSize (write32 m i v) c = GetSize m c := by
  unfold GetSize
  rw [read32_write32_of_disjoint _ _ _ _ h]

theorem GetIndex_lt (n : Nat) : GetIndex n < 17 := by
  unfold GetIndex; split <;> omega

theorem GetIndex_mono (a b : Nat) (h : a ≤ b) : GetIndex a ≤ GetIndex b := by
  unfold GetIndex; split <;> split <;> omega

theorem WHF_bins (s : AllocState) (c size : Nat) (u : Bool) :
    (WriteHeaderAndFooter s c size u).bins = s.bins := by
  unfold WriteHeaderAndFooter
  dsimp only
  split <;> split <;> rfl

theorem WHF_stats (s : AllocState) (c size : Nat) (u : Bool) :
    (WriteHeaderAndFooter s c size u).freeBlocks = s.freeBlocks ∧
    (WriteHeaderAndFooter s c size u).usedBlocks = s.usedBlocks ∧
    (WriteHeaderAndFooter s c size u).freeMem = s.freeMem ∧
    (WriteHeaderAndFooter s c size u).usedMem = s.usedMem := by
  unfold WriteHeaderAndFooter
  dsimp only
  split <;> split <;> exact ⟨rfl, rfl, rfl, rfl⟩

/-- `WriteHeaderAndFooter` for a free chunk that is physically last. -/
theorem WHF_free_last (s : AllocState) (c size : Nat)
    (h : NextChunk { s with memory := SetSize s.memory c size } c = none) :
    WriteHeaderAndFooter s c size false =
      { s with
        memory := write32 (SetSize s.memory c size)
          (c + GetSize (SetSize s.memory c size) c - 4) (GetSize (SetSize s.memory c size) c),
        finalPrevIsUsed := false } := by
  unfold WriteHeaderAndFooter
  dsimp only
  rw [h]
  rfl

/-- `WriteHeaderAndFooter` for a used chunk that is physically last. -/
theorem WHF_used_last (s : AllocState) (c size : Nat)
    (h : NextChunk { s with memory := SetSize s.memory c size } c = none) :
    WriteHeaderAndFooter s c size true =
      { s with memory := SetSize s.memory c size, finalPrevIsUsed := true } := by
  unfold WriteHeaderAndFooter
  dsimp only
  rw [h]
  rfl

/-- `WriteHeaderAndFooter` for a free chunk with a physical successor. -/
theorem WHF_free_mid (s : AllocState) (c size n : Nat)
    (h : NextChunk { s with memory := SetSize s.memory c size } c = some n) :
    WriteHeaderAndFooter s c size false =
      { s with
        memory :=
          write32 (SetPrevUsed (SetSize s.memory c size) n false)
            (c + GetSize (SetPrevUsed (SetSize s.memory c size) n false) c - 4)
            (GetSize (SetPrevUsed (SetSize s.memory c size) n false) c) } := by
  unfold WriteHeaderAndFooter
  dsimp only
  rw [h]
  rfl

/-- `WriteHeaderAndFooter` for a used chunk with a physical successor. -/
theorem WHF_used_mid (s : AllocState) (c size n : Nat)
    (h : NextChunk { s with memory := SetSize s.memory c size } c = some n) :
    WriteHeaderAndFooter s c size true =
      { s with memory := SetPrevUsed (SetSize s.memory c size) n true } := by
  unfold WriteHeaderAndFooter
  dsimp only
  rw [h]
  rfl

/-- `AddToFreeList` into an empty bin. -/
theorem AddToFreeList_single (s : AllocState) (c : Nat)
    (h : s.bins.getD (GetIndex (GetSize s.memory c)) 0 = InvalidSize) :
    AddToFreeList s c =
      { s with
        bins := s.bins.set (GetIndex (GetSize s.memory c)) c,
        memory := write32 (write32 s.memory (c+4) c) (c+8) c } := by
  unfold AddToFreeList
  dsimp only
  have h' : s.bins[GetIndex (GetSize s.memory c)]?.getD 0 = InvalidSize := by
    simpa [List.getD_eq_getElem?_getD] using h
  rw [if_pos (by simp [h'])]

/-! ### Chunk-walk structure lemmas -/

theorem chunksFrom_mono (s : AllocState) :
    ∀ (fuel c : Nat) (l : List (Nat × Nat)), chunksFrom s fuel c = some l →
    ∀ fuel₂, fuel ≤ fuel₂ → chunksFrom s fuel₂ c = some l := by
  intro fuel
  induction fuel with
  | zero => intro c l h; simp [chunksFrom] at h
  | succ fuel ih =>
    intro c l h fuel₂ hle
    obtain ⟨f₃, rfl⟩ : ∃ f₃, fuel₂ = f₃ + 1 := ⟨fuel₂ - 1, by omega⟩
    unfold chunksFrom at h ⊢
    rcases hn : NextChunk s c with _ | n <;> rw [hn] at h <;> dsimp only at h ⊢
    · exact h
    · obtain ⟨l', hrec, hl⟩ : ∃ a, chunksFrom s fuel n = some a ∧
          (c, GetSize s.memory c) :: a = l := by simpa using h
      rw [ih n l' hrec f₃ (by omega)]
      simpa using hl

theorem chunksFrom_ne_nil (s : AllocState) (fuel c : Nat) (l : List (Nat × Nat))
    (h : chunksFrom s fuel c = some l) : l ≠ [] := by
  cases fuel with
  | zero => simp [chunksFrom] at h
  | succ fuel =>
    unfold chunksFrom at h
    rcases hn : NextChunk s c with _ | n <;> rw [hn] at h <;> dsimp only at h
    · simp only [Option.some.injEq] at h; simp [← h]
    · obtain ⟨l', hrec, hl⟩ : ∃ a, chunksFrom s fuel n = some a ∧
          (c, GetSize s.memory c) :: a = l := by simpa using h
      simp [← hl]

theorem chunksFrom_head (s : AllocState) (fuel c : Nat) (l : List (Nat × Nat))
    (h : chunksFrom s fuel c = some l) : l.head? = some (c, GetSize s.memory c) := by
  cases fuel with
  | zero => simp [chunksFrom] at h
  | succ fuel =>
    unfold chunksFrom at h
    rcases hn : NextChunk s c with _ | n <;> rw [hn] at h <;> dsimp only at h
    · simp only [Option.some.injEq] at h; simp [← h]
    · obtain ⟨l', hrec, hl⟩ : ∃ a, chunksFrom s fuel n = some a ∧
          (c, GetSize s.memory c) :: a = l := by simpa using h
      simp [← hl]

/-- Structure of a successful walk starting inside the pool. -/
theorem chunksFrom_struct (s : AllocState) :
    ∀ (fuel c : Nat) (l : List (Nat × Nat)), c < s.memory.length →
    chunksFrom s fuel c = some l →
    (∀ p ∈ l, p.2 = GetSize s.memory p.1 ∧ p.1 < s.memory.length ∧ c ≤ p.1) ∧
    List.Chain' (fun p q => p.1 + p.2 = q.1) l ∧
    (∀ p, l.getLast? = some p → s.memory.length ≤ p.1 + p.2) ∧
    l.length ≤ fuel := by
  intro fuel
  induction fuel with
  | zero => intro c l hc h; simp [chunksFrom] at h
  | succ fuel ih =>
    intro c l hc h
    unfold chunksFrom at h
    rcases hn : NextChunk s c with _ | n <;> rw [hn] at h <;> dsimp only at h
    · simp only [Option.some.injEq] at h
      subst h
      unfold NextChunk at hn
      dsimp only at hn
      have hend : s.memory.length ≤ c + GetSize s.memory c := by
        by_contra hlt
        rw [if_neg hlt] at hn
        simp at hn
      refine ⟨?_, by simp, ?_, by simp⟩
      · intro p hp
        obtain rfl : p = (c, GetSize s.memory c) := by
          have := List.mem_singleton.1 hp; exact this
        exact ⟨rfl, hc, le_refl _⟩
      · intro p hp
        obtain rfl : (c, GetSize s.memory c) = p := by simpa using hp
        exact hend
    · obtain ⟨l', hrec, hl⟩ : ∃ a, chunksFrom s fuel n = some a ∧
          (c, GetSize s.memory c) :: a = l := by simpa using h
      have hnlt : n < s.memory.length ∧ n = c + GetSize s.memory c := by
        unfold NextChunk at hn
        dsimp only at hn
        by_cases hle : s.memory.length ≤ c + GetSize s.memory c
        · rw [if_pos hle] at hn; simp at hn
        · rw [if_neg hle] at hn
          simp at hn
          omega
      obtain ⟨ih1, ih2, ih3, ih4⟩ := ih n l' hnlt.1 hrec
      subst hl
      refine ⟨?_, ?_, ?_, by simpa using ih4⟩
      · intro p hp
        rcases List.mem_cons.1 hp with rfl | hp'
        · exact ⟨rfl, hc, le_refl _⟩
        · obtain ⟨h1, h2, h3⟩ := ih1 p hp'
          exact ⟨h1, h2, by omega⟩
      · rw [List.chain'_cons']
        refine ⟨?_, ih2⟩
        intro q hq
        have hhead := chunksFrom_head s fuel n l' hrec
        rw [hhead] at hq
        obtain rfl : (n, GetSize s.memory n) = q := by simpa using hq
        exact hnlt.2.symm
      · intro p hp
        have hcc : ((c, GetSize s.memory c) :: l').getLast? = l'.getLast? := by
          rcases hl' : l' with _ | ⟨y, ys⟩
          · exact absurd hl' (chunksFrom_ne_nil s fuel n l' hrec)
          · exact List.getLast?_cons_cons ..
        rw [hcc] at hp
        exact ih3 p hp

/-- A walk only reads the header words of its own chunks (and the pool
length): any state agreeing there produces the same walk. -/
theorem chunksFrom_congr (s s' : AllocState) (hlen : s'.memory.length = s.memory.length) :
    ∀ (fuel c : Nat) (l : List (Nat × Nat)), chunksFrom s fuel c = some l →
    (∀ p ∈ l, GetSize s'.memory p.1 = GetSize s.memory p.1) →
    chunksFrom s' fuel c = some l := by
  intro fuel
  induction fuel with
  | zero => intro c l h hag; simp [chunksFrom] at h
  | succ fuel ih =>
    intro c l h hag
    unfold chunksFrom at h ⊢
    rcases hn : NextChunk s c with _ | n <;> rw [hn] at h <;> dsimp only at h
    · simp only [Option.some.injEq] at h
      subst h
      have hg : GetSize s'.memory c = GetSize s.memory c :=
        hag (c, GetSize s.memory c) (by simp)
      rw [show NextChunk s' c = none from by
        unfold NextChunk at hn ⊢
        dsimp only at hn ⊢
        rw [hg, hlen]
        exact hn]
      dsimp only
      rw [hg]
    · obtain ⟨l', hrec, hl⟩ : ∃ a, chunksFrom s fuel n = some a ∧
          (c, GetSize s.memory c) :: a = l := by simpa using h
      subst hl
      have hg : GetSize s'.memory c = GetSize s.memory c :=
        hag (c, GetSize s.memory c) (by simp)
      rw [show NextChunk s' c = some n from by
        unfold NextChunk at hn ⊢
        dsimp only at hn ⊢
        rw [hg, hlen]
        exact hn]
      dsimp only
      rw [ih n l' hrec (fun p hp => hag p (by simp [hp])), hg]
      rfl

/-- Extract the sub-walk starting at the head of a suffix. -/
theorem chunksFrom_suffix (s : AllocState) :
    ∀ (l1 : List (Nat × Nat)) (fuel c : Nat) (l2 : List (Nat × Nat)),
    chunksFrom s fuel c = some (l1 ++ l2) → l2 ≠ [] →
    ∀ q, l2.head? = some q → chunksFrom s (fuel - l1.length) q.1 = some l2 := by
  intro l1
  induction l1 with
  | nil =>
    intro fuel c l2 h hne q hq
    have := chunksFrom_head s fuel c l2 (by simpa using h)
    rw [this] at hq
    obtain rfl : (c, GetSize s.memory c) = q := by simpa using hq
    simpa using h
  | cons p rest ih =>
    intro fuel c l2 h hne q hq
    cases fuel with
    | zero => simp [chunksFrom] at h
    | succ fuel =>
      unfold chunksFrom at h
      rcases hn : NextChunk s c with _ | n <;> rw [hn] at h <;> dsimp only at h
      · simp only [Option.some.injEq] at h
        have hlen1 : (1:Nat) = ((p :: rest) ++ l2).length := congrArg List.length h
        simp only [List.length_append, List.length_cons] at hlen1
        have : l2.length = 0 := by omega
        exact absurd (List.length_eq_zero.1 this) hne
      · obtain ⟨l', hrec, hl⟩ : ∃ a, chunksFrom s fuel n = some a ∧
            (c, GetSize s.memory c) :: a = (p :: rest) ++ l2 := by simpa using h
        have hl2 : (c, GetSize s.memory c) :: l' = p :: (rest ++ l2) := by simpa using hl
        obtain ⟨-, hl'⟩ := List.cons.inj hl2
        subst hl'
        have hres := ih fuel n l2 hrec hne q hq
        show chunksFrom s (fuel + 1 - (rest.length + 1)) q.1 = some l2
        rw [Nat.succ_sub_succ]
        exact hres

/-- Reconstruct a walk from a chain prefix and a tail walk. -/
theorem chunksFrom_build (s : AllocState) (fuel2 d : Nat) (l2 : List (Nat × Nat))
    (h2 : chunksFrom s fuel2 d = some l2) (hd : d < s.memory.length) :
    ∀ (l1 : List (Nat × Nat)) (c : Nat),
    (∀ p ∈ l1, p.2 = GetSize s.memory p.1) →
    (∀ p ∈ l1, p.1 < s.memory.length) →
    List.Chain' (fun p q => p.1 + p.2 = q.1) (l1 ++ [(d, 0)]) →
    (l1 ++ [(d, 0)]).head?.map Prod.fst = some c →
    chunksFrom s (fuel2 + l1.length) c = some (l1 ++ l2) := by
  intro l1
  induction l1 with
  | nil =>
    intro c hsz hlt hchain hc
    obtain rfl : d = c := by simpa using hc
    simpa using h2
  | cons p rest ih =>
    intro c hsz hlt hchain hc
    obtain rfl : p.1 = c := by simpa using hc
    obtain ⟨q, hq⟩ : ∃ q, (rest ++ [(d, (0:Nat))]).head? = some q := by
      rcases rest with _ | _ <;> simp
    have hpq : p.1 + p.2 = q.1 := by
      have hch := List.chain'_cons'.1 (by simpa using hchain)
      exact hch.1 q hq
    have hqlt : q.1 < s.memory.length := by
      rcases hr : rest with _ | ⟨r, rs⟩
      · rw [hr] at hq
        obtain rfl : (d, (0:Nat)) = q := by simpa using hq
        exact hd
      · rw [hr] at hq
        obtain rfl : r = q := by simpa using hq
        exact hlt r (by simp [hr])
    have hN : NextChunk s p.1 = some q.1 := by
      unfold NextChunk
      dsimp only
      rw [show p.1 + GetSize s.memory p.1 = q.1 from by
        rw [← hsz p (by simp)]; exact hpq]
      rw [if_neg (by omega)]
    have hres := ih q.1 (fun x hx => hsz x (by simp [hx])) (fun x hx => hlt x (by simp [hx]))
      (by
        have := (List.chain'_cons'.1 (by simpa using hchain)).2
        simpa using this)
      (by rw [hq]; rfl)
    show chunksFrom s (fuel2 + rest.length + 1) p.1 = some ((p :: rest) ++ l2)
    unfold chunksFrom
    rw [hN]
    dsimp only
    rw [hres]
    simp [← hsz p (by simp)]

/-! ### Claim C7: the state written by the Allocator constructor -/

/-- C7 counterexample: at pool size `P = 20` (the smallest size the claim
admits, `P ≥ minFreeSize + W = 20`), construction writes the initial free
chunk with size `RoundUp(P − 1) = 20 = P`: the chunk's size is **not**
strictly less than `P`, and no byte is left unaccounted for at the high
end.  The stats themselves are as claimed. -/
theorem C7_counterexample :
    GetSize (AllocatorInit 20).memory 0 = RoundUp (20 - 1) ∧
    RoundUp (20 - 1) = 20 ∧
    ¬ GetSize (AllocatorInit 20).memory 0 < 20 := by decide

/-- C7 (amended): for every even pool size `P ≥ 20` with `P < 2³²` (for odd
`P` the constructor's header write for the nominal next chunk lands past
the end of `memory`, undefined behavior in the C++), construction writes a
single free chunk whose size is `RoundUp(P − 1)`; that size equals `P`, so
the chunk covers the whole pool and no byte is left unaccounted for; and
`finalPrevIsUsed = false`, `freeBlocks = 1`, `usedBlocks = 0`,
`usedMem = 0`, `freeMem = P`. -/
theorem C7_amended (P : Nat) (h20 : 20 ≤ P) (hlt : P < 2^32) (hev : P % 2 = 0) :
    GetSize (AllocatorInit P).memory 0 = RoundUp (P - 1) ∧
    RoundUp (P - 1) = P ∧
    chunks (AllocatorInit P) = some [(0, P)] ∧
    IsSelfUsed (AllocatorInit P) 0 = false ∧
    (AllocatorInit P).finalPrevIsUsed = false ∧
    (AllocatorInit P).freeBlocks = 1 ∧ (AllocatorInit P).usedBlocks = 0 ∧
    (AllocatorInit P).usedMem = 0 ∧ (AllocatorInit P).freeMem = P := by
  have hround : RoundUp (P - 1) = P := by unfold RoundUp; omega
  have hprev : IsPrevUsed (List.replicate P 0) 0 = false := by
    simp [IsPrevUsed, read32_replicate]
  have hsetsize : SetSize (List.replicate P 0) 0 (RoundUp (P - 1))
      = write32 (List.replicate P 0) 0 P := by
    rw [SetSize, hprev, hround]
    congr 1
    simp
    omega
  have hr0 : read32 (write32 (List.replicate P 0) 0 P) 0 = P := by
    rw [read32_write32_self _ _ _ (by simp [length_write32]; omega)]
    exact Nat.mod_eq_of_lt hlt
  have hg0 : GetSize (write32 (List.replicate P 0) 0 P) 0 = P := by
    rw [GetSize, hr0]; omega
  have hlen1 : (write32 (List.replicate P 0) 0 P).length = P := by
    simp [length_write32]
  have hbinlt : GetIndex P < 17 := GetIndex_lt P
  have hSg : GetSize (SetSize (List.replicate P 0) 0 (RoundUp (P - 1))) 0 = P := by
    rw [hsetsize]; exact hg0
  have hSlen : (SetSize (List.replicate P 0) 0 (RoundUp (P - 1))).length = P := by
    rw [hsetsize]; exact hlen1
  unfold AllocatorInit
  dsimp only
  rw [WHF_free_last _ _ _ (by
    dsimp only
    unfold NextChunk
    dsimp only
    rw [hSg, hSlen]
    simp)]
  dsimp only
  rw [hsetsize, hg0]
  have hg3 : GetSize (write32 (write32 (write32 (write32 (List.replicate P 0) 0 P)
      (0 + P - 4) P) 4 0) 8 0) 0 = P := by
    unfold GetSize
    rw [read32_write32_of_disjoint _ _ _ _ (by omega),
        read32_write32_of_disjoint _ _ _ _ (by omega),
        read32_write32_of_disjoint _ _ _ _ (by omega)]
    rw [show read32 (write32 (List.replicate P 0) 0 P) 0 = P from hr0]
    omega
  rw [AddToFreeList_single _ _ (by
    rw [hg3]
    simp only [List.getD_eq_getElem?_getD, BIN_INDICES]
    rw [List.getElem?_replicate]
    simp [hbinlt])]
  dsimp only
  rw [hg3]
  have hgf : GetSize (write32 (write32 (write32 (write32 (write32 (write32
      (List.replicate P 0) 0 P) (0 + P - 4) P) 4 0) 8 0) (0+4) 0) (0+8) 0) 0 = P := by
    unfold GetSize
    rw [read32_write32_of_disjoint _ _ _ _ (by omega),
        read32_write32_of_disjoint _ _ _ _ (by omega),
        read32_write32_of_disjoint _ _ _ _ (by omega),
        read32_write32_of_disjoint _ _ _ _ (by omega),
        read32_write32_of_disjoint _ _ _ _ (by omega)]
    rw [show read32 (write32 (List.replicate P 0) 0 P) 0 = P from hr0]
    omega
  have hlenf : (write32 (write32 (write32 (write32 (write32 (write32
      (List.replicate P 0) 0 P) (0 + P - 4) P) 4 0) 8 0) (0+4) 0) (0+8) 0).length = P := by
    simp [length_write32]
  refine ⟨?_, hround, ?_, ?_, rfl, rfl, rfl, rfl, rfl⟩
  · dsimp only
    rw [hgf, hround]
  · unfold chunks
    dsimp only
    rw [hlenf]
    unfold chunksFrom
    dsimp only
    rw [show NextChunk _ 0 = none from by
      unfold NextChunk
      dsimp only
      rw [hgf, hlenf]
      simp]
    rw [hgf]
  · unfold IsSelfUsed
    dsimp only
    rw [show NextChunk _ 0 = none from by
      unfold NextChunk
      dsimp only
      rw [hgf, hlenf]
      simp]

/-- Witness for `C7_amended` at the concrete pool size 32. -/
theorem C7_amended_witness :
    (20 ≤ 32 ∧ 32 < 2^32 ∧ 32 % 2 = 0) ∧
    (GetSize (AllocatorInit 32).memory 0 = RoundUp (32 - 1) ∧
    RoundUp (32 - 1) = 32 ∧
    chunks (AllocatorInit 32) = some [(0, 32)] ∧
    IsSelfUsed (AllocatorInit 32) 0 = false ∧
    (AllocatorInit 32).finalPrevIsUsed = false ∧
    (AllocatorInit 32).freeBlocks = 1 ∧ (AllocatorInit 32).usedBlocks = 0 ∧
    (AllocatorInit 32).usedMem = 0 ∧ (AllocatorInit 32).freeMem = 32) :=
  ⟨⟨by decide, by decide, by decide⟩, C7_amended 32 (by decide) (by decide) (by decide)⟩

/-! ### The handle table: `GetFreeRef` and `AllocRef` -/

theorem GetFreeRefScan_some (ptr n : Nat) (refs : List RefHolder) (i : Nat)
    (refs₂ : List RefHolder) (h : GetFreeRefScan ptr n refs = some (i, refs₂)) :
    i < refs.length ∧ refs₂ = refs.set i ⟨1, n, some ptr⟩ := by
  induction refs generalizing i refs₂ with
  | nil => simp [GetFreeRefScan] at h
  | cons r rest ih =>
    unfold GetFreeRefScan at h
    by_cases hr : (r.size == 0) = true
    · rw [if_pos hr] at h
      obtain ⟨rfl, rfl⟩ : 0 = i ∧ ⟨1, n, some ptr⟩ :: rest = refs₂ := by
        simpa using h
      exact ⟨by simp, rfl⟩
    · rw [if_neg hr] at h
      rcases hs : GetFreeRefScan ptr n rest with _ | p
      · rw [hs] at h; simp at h
      · rw [hs] at h
        rcases p with ⟨j, rest₂⟩
        obtain ⟨rfl, rfl⟩ : j + 1 = i ∧ r :: rest₂ = refs₂ := by simpa using h
        obtain ⟨hj, hset⟩ := ih j rest₂ hs
        exact ⟨by simpa using hj, by rw [hset]; rfl⟩

/-- `GetFreeRef` always yields a slot: its index is at most the table
length, and — as long as the table is shorter than `InvalidRef` — the
returned handle is valid and its slot holds `{1, n, ptr}`. -/
theorem GetFreeRef_spec (g : GCState) (ptr n : Nat) :
    (GetFreeRef g ptr n).1 ≤ g.refs.length ∧
    (g.refs.length < InvalidRef →
      (GetFreeRef g ptr n).1 ≠ InvalidRef ∧
      (GetFreeRef g ptr n).2.refs.getD (GetFreeRef g ptr n).1 ⟨0,0,none⟩ = ⟨1, n, some ptr⟩ ∧
      (GetFreeRef g ptr n).2.toAllocState = g.toAllocState) := by
  unfold GetFreeRef
  rcases hs : GetFreeRefScan ptr n g.refs with _ | p
  · dsimp only
    constructor
    · have : g.refs.length % 2^32 ≤ g.refs.length := Nat.mod_le _ _
      simpa using this
    · intro hlen
      have hmod : g.refs.length % 2^32 = g.refs.length :=
        Nat.mod_eq_of_lt (by unfold InvalidRef at hlen; omega)
      refine ⟨by rw [hmod]; omega, ?_, rfl⟩
      rw [hmod]
      rw [List.getD_eq_getElem?_getD, List.getElem?_append_right (le_refl _)]
      simp
  · rcases p with ⟨i, refs₂⟩
    obtain ⟨hi, rfl⟩ := GetFreeRefScan_some ptr n g.refs i refs₂ hs
    dsimp only
    refine ⟨le_of_lt hi, fun hlen => ⟨by omega, ?_, rfl⟩⟩
    rw [List.getD_eq_getElem?_getD, List.getElem?_set_self (by simpa using hi)]
    simp

/-! ### Claim C3: `AllocRef` and the 4-byte minimum -/

/-- C3 counterexample: `AllocRef(1)` is neither rejected nor padded.  On a
fresh 32-byte collector it returns handle 0, live with reference count 1
and `requestedSize = 1`, which violates `requestedSize ≥ sizeof(u32) = 4`. -/
theorem C3_counterexample :
    (AllocRef (GCInit 32) 1).1 = 0 ∧
    SizeFromRef (AllocRef (GCInit 32) 1).2 0 = 1 ∧
    PointerFromRef (AllocRef (GCInit 32) 1).2 0 = some 20 ∧
    RefCount (AllocRef (GCInit 32) 1).2 0 = 1 ∧
    ¬ 4 ≤ SizeFromRef (AllocRef (GCInit 32) 1).2 0 := by decide

/-- C3 (amended): `AllocRef` performs no minimum-size check at all:
whenever the underlying `AllocPtr` succeeds, a live handle is issued whose
`requestedSize` is the request stored verbatim — also for requests below
4 bytes.  (The 4 bytes of stamping slack come instead from `AllocPtr`
raising every chunk to `minFreeSize`; see C9.) -/
theorem C3_amended (g : GCState) (n ptr : Nat) (a : AllocState)
    (hlen : g.refs.length < InvalidRef)
    (hp : AllocPtr g.toAllocState n = (some ptr, a)) :
    (AllocRef g n).1 ≠ InvalidRef ∧
    SizeFromRef (AllocRef g n).2 (AllocRef g n).1 = n ∧
    PointerFromRef (AllocRef g n).2 (AllocRef g n).1 = some ptr ∧
    RefCount (AllocRef g n).2 (AllocRef g n).1 = 1 := by
  have hrefs : (setAlloc g a).refs = g.refs := rfl
  have hspec := GetFreeRef_spec (setAlloc g a) ptr n
  rw [hrefs] at hspec
  obtain ⟨hne, hgetd, -⟩ := hspec.2 hlen
  unfold AllocRef
  rw [hp]
  dsimp only
  rw [if_neg (by simpa using hne)]
  rw [List.getD_eq_getElem?_getD] at hgetd
  refine ⟨hne, ?_, ?_, ?_⟩ <;>
    simp [SizeFromRef, PointerFromRef, RefCount, List.getD_eq_getElem?_getD, hgetd]

/-- Witness for `C3_amended`: a fresh 32-byte collector and a 1-byte
request. -/
theorem C3_amended_witness :
    ((GCInit 32).refs.length < InvalidRef ∧
      AllocPtr (GCInit 32).toAllocState 1 = (some 20, (AllocPtr (GCInit 32).toAllocState 1).2)) ∧
    ((AllocRef (GCInit 32) 1).1 ≠ InvalidRef ∧
    SizeFromRef (AllocRef (GCInit 32) 1).2 (AllocRef (GCInit 32) 1).1 = 1 ∧
    PointerFromRef (AllocRef (GCInit 32) 1).2 (AllocRef (GCInit 32) 1).1 = some 20 ∧
    RefCount (AllocRef (GCInit 32) 1).2 (AllocRef (GCInit 32) 1).1 = 1) :=
  ⟨⟨by decide, by decide⟩,
    C3_amended (GCInit 32) 1 20 (AllocPtr (GCInit 32).toAllocState 1).2
      (by decide) (by decide)⟩

/-! ### Claim C10: `AllocRef` fails exactly when `AllocPtr` does -/

/-- C10: `AllocRef(n)` returns `InvalidRef` iff the underlying `AllocPtr`
returned the null sentinel; `GetFreeRef` always yields a valid handle
(as long as the table length is below `InvalidRef`, which any pool small
enough to exist enforces); hence the fallback branch of `AllocRef` that
frees the fresh pointer is never taken, and `AllocRef` is exactly
`GetFreeRef` of the successful allocation. -/
theorem C10_allocref_fails_iff_allocptr (g : GCState) (n : Nat)
    (hlen : g.refs.length < InvalidRef) :
    ((AllocRef g n).1 = InvalidRef ↔ (AllocPtr g.toAllocState n).1 = none) ∧
    (∀ ptr, (GetFreeRef g ptr n).1 ≠ InvalidRef) ∧
    (∀ ptr a, AllocPtr g.toAllocState n = (some ptr, a) →
      AllocRef g n = GetFreeRef (setAlloc g a) ptr n) := by
  refine ⟨?_, fun ptr => ((GetFreeRef_spec g ptr n).2 hlen).1, ?_⟩
  · rcases hp : AllocPtr g.toAllocState n with ⟨op, a⟩
    rcases op with _ | ptr
    · unfold AllocRef
      rw [hp]
      simp
    · have hrefs : (setAlloc g a).refs = g.refs := rfl
      have hspec := GetFreeRef_spec (setAlloc g a) ptr n
      rw [hrefs] at hspec
      obtain ⟨hne, -, -⟩ := hspec.2 hlen
      unfold AllocRef
      rw [hp]
      dsimp only
      rw [if_neg (by simpa using hne)]
      simp [hne]
  · intro ptr a hp
    have hrefs : (setAlloc g a).refs = g.refs := rfl
    have hspec := GetFreeRef_spec (setAlloc g a) ptr n
    rw [hrefs] at hspec
    obtain ⟨hne, -, -⟩ := hspec.2 hlen
    unfold AllocRef
    rw [hp]
    dsimp only
    rw [if_neg (by simpa using hne)]

/-- Witness for `C10_allocref_fails_iff_allocptr` on a fresh 32-byte
collector with a 1-byte request. -/
theorem C10_witness :
    (GCInit 32).refs.length < InvalidRef ∧
    (((AllocRef (GCInit 32) 1).1 = InvalidRef ↔ (AllocPtr (GCInit 32).toAllocState 1).1 = none) ∧
    (∀ ptr, (GetFreeRef (GCInit 32) ptr 1).1 ≠ InvalidRef) ∧
    (∀ ptr a, AllocPtr (GCInit 32).toAllocState 1 = (some ptr, a) →
      AllocRef (GCInit 32) 1 = GetFreeRef (setAlloc (GCInit 32) a) ptr 1)) :=
  ⟨by decide, C10_allocref_fails_iff_allocptr (GCInit 32) 1 (by decide)⟩

/-! ### Claim C5: out-of-memory behavior of `AllocPtr` -/

/-- `scanBin` finds exactly the first chunk of sufficient size on the
circular list it traverses. -/
theorem scanBin_spec (m : List Nat) (req start : Nat) :
    ∀ (fuel cur : Nat) (l : List Nat), binListFrom m start fuel cur = some l →
    (scanBin m req start fuel cur = none ↔ ∀ c ∈ l, GetSize m c < req) ∧
    (∀ c, scanBin m req start fuel cur = some c → c ∈ l ∧ req ≤ GetSize m c) := by
  intro fuel
  induction fuel with
  | zero => intro cur l h; simp [binListFrom] at h
  | succ fuel ih =>
    intro cur l h
    unfold binListFrom at h
    unfold scanBin
    dsimp only at h ⊢
    by_cases hsz : req ≤ GetSize m cur
    · rw [if_pos hsz]
      by_cases hnx : nextOffset m cur = start
      · rw [if_pos hnx] at h
        obtain rfl : [cur] = l := by simpa using h
        constructor
        · simp
          omega
        · intro c hc
          obtain rfl : cur = c := by simpa using hc
          simp [hsz]
      · rw [if_neg hnx] at h
        rcases hb : binListFrom m start fuel (nextOffset m cur) with _ | l'
        · rw [hb] at h; simp at h
        · rw [hb] at h
          obtain rfl : cur :: l' = l := by simpa using h
          constructor
          · simp
            intro habs
            omega
          · intro c hc
            obtain rfl : cur = c := by simpa using hc
            simp [hsz]
    · rw [if_neg hsz]
      by_cases hnx : nextOffset m cur = start
      · rw [if_pos hnx] at h
        rw [if_pos (by simpa using hnx)]
        obtain rfl : [cur] = l := by simpa using h
        constructor
        · simp
          omega
        · intro c hc
          simp at hc
      · rw [if_neg hnx] at h
        rw [if_neg (by simpa using hnx)]
        rcases hb : binListFrom m start fuel (nextOffset m cur) with _ | l'
        · rw [hb] at h; simp at h
        · rw [hb] at h
          obtain rfl : cur :: l' = l := by simpa using h
          obtain ⟨ih1, ih2⟩ := ih (nextOffset m cur) l' hb
          constructor
          · rw [ih1]
            constructor
            · intro hall c hc
              rcases List.mem_cons.1 hc with rfl | hc'
              · omega
              · exact hall c hc'
            · intro hall c hc
              exact hall c (List.mem_cons_of_mem _ hc)
          · intro c hc
            obtain ⟨hmem, hge⟩ := ih2 c hc
            exact ⟨List.mem_cons_of_mem _ hmem, hge⟩

/-- The bin-scanning loop of `GetFreeOfSize` fails exactly when no chunk in
any bin from `binIndex` upward is large enough. -/
theorem GetFreeOfSizeLoop_spec (s : AllocState) (req : Nat) :
    ∀ (remaining binIndex : Nat),
    (∀ b, binIndex ≤ b → b < BIN_INDICES → (binList s b).isSome) →
    (GetFreeOfSizeLoop s req remaining binIndex = none ↔
      ∀ b, binIndex ≤ b → b < BIN_INDICES → b < binIndex + remaining →
        ∀ c ∈ (binList s b).getD [], GetSize s.memory c < req) ∧
    (∀ c, GetFreeOfSizeLoop s req remaining binIndex = some c →
      ∃ b, binIndex ≤ b ∧ b < BIN_INDICES ∧ c ∈ (binList s b).getD [] ∧
        req ≤ GetSize s.memory c) := by
  intro remaining
  induction remaining with
  | zero =>
    intro binIndex hterm
    constructor
    · simp [GetFreeOfSizeLoop]
      intro b hb1 hb2 hb3
      omega
    · intro c hc; simp [GetFreeOfSizeLoop] at hc
  | succ remaining ih =>
    intro binIndex hterm
    unfold GetFreeOfSizeLoop
    by_cases hlt : binIndex < BIN_INDICES
    · rw [if_pos hlt]
      dsimp only
      by_cases hinv : (s.bins.getD binIndex 0 == InvalidSize) = true
      · -- empty bin: binList = some []
        rw [if_pos hinv]
        have hbl : binList s binIndex = some [] := by
          unfold binList
          rw [if_pos (by simpa using hinv)]
        obtain ⟨ih1, ih2⟩ := ih (binIndex + 1) (fun b hb1 hb2 => hterm b (by omega) hb2)
        constructor
        · rw [ih1]
          constructor
          · intro hall b hb1 hb2 hb3
            rcases Nat.eq_or_lt_of_le hb1 with rfl | hgt
            · rw [hbl]; simp
            · exact hall b (by omega) hb2 (by omega)
          · intro hall b hb1 hb2 hb3
            exact hall b (by omega) hb2 (by omega)
        · intro c hc
          obtain ⟨b, hb1, hb2, hmem, hge⟩ := ih2 c hc
          exact ⟨b, by omega, hb2, hmem, hge⟩
      · -- nonempty bin: use scanBin_spec
        rw [if_neg hinv]
        have hne : ¬ s.bins.getD binIndex 0 = InvalidSize := by simpa using hinv
        have hbl : binList s binIndex
            = binListFrom s.memory (s.bins.getD binIndex 0) (s.memory.length + 1)
                (s.bins.getD binIndex 0) := by
          unfold binList
          rw [if_neg hne]
        obtain ⟨l, hl⟩ := Option.isSome_iff_exists.1 (hterm binIndex (le_refl _) hlt)
        have hfrom : binListFrom s.memory (s.bins.getD binIndex 0) (s.memory.length + 1)
            (s.bins.getD binIndex 0) = some l := by rw [← hbl]; exact hl
        obtain ⟨hs1, hs2⟩ := scanBin_spec s.memory req (s.bins.getD binIndex 0)
          (s.memory.length + 1) (s.bins.getD binIndex 0) l hfrom
        rcases hscan : scanBin s.memory req (s.bins.getD binIndex 0) (s.memory.length + 1)
            (s.bins.getD binIndex 0) with _ | c
        · -- scan found nothing in this bin
          obtain ⟨ih1, ih2⟩ := ih (binIndex + 1) (fun b hb1 hb2 => hterm b (by omega) hb2)
          constructor
          · rw [ih1]
            constructor
            · intro hall b hb1 hb2 hb3
              rcases Nat.eq_or_lt_of_le hb1 with rfl | hgt
              · rw [hl]
                simpa using hs1.1 hscan
              · exact hall b (by omega) hb2 (by omega)
            · intro hall b hb1 hb2 hb3
              exact hall b (by omega) hb2 (by omega)
          · intro c hc
            obtain ⟨b, hb1, hb2, hmem, hge⟩ := ih2 c hc
            exact ⟨b, by omega, hb2, hmem, hge⟩
        · -- scan found c
          obtain ⟨hmem, hge⟩ := hs2 c hscan
          constructor
          · constructor
            · intro h; simp at h
            · intro hall
              exfalso
              have := hall binIndex (le_refl _) hlt (by omega) c (by rw [hl]; simpa using hmem)
              omega
          · intro c' hc'
            obtain rfl : c = c' := by simpa using hc'
            exact ⟨binIndex, le_refl _, hlt, by rw [hl]; simpa using hmem, hge⟩
    · rw [if_neg hlt]
      constructor
      · constructor
        · intro h b hb1 hb2; omega
        · intro h; rfl
      · intro c hc; simp at hc

theorem RemoveFromFreeList_fields (s : AllocState) (c : Nat) :
    (RemoveFromFreeList s c).finalPrevIsUsed = s.finalPrevIsUsed ∧
    (RemoveFromFreeList s c).freeBlocks = s.freeBlocks ∧
    (RemoveFromFreeList s c).usedBlocks = s.usedBlocks ∧
    (RemoveFromFreeList s c).freeMem = s.freeMem ∧
    (RemoveFromFreeList s c).usedMem = s.usedMem ∧
    (RemoveFromFreeList s c).merges = s.merges ∧
    (RemoveFromFreeList s c).allocations = s.allocations ∧
    (RemoveFromFreeList s c).frees = s.frees ∧
    (RemoveFromFreeList s c).fails = s.fails := by
  unfold RemoveFromFreeList
  dsimp only
  split <;> exact ⟨rfl, rfl, rfl, rfl, rfl, rfl, rfl, rfl, rfl⟩

theorem AddToFreeList_fields (s : AllocState) (c : Nat) :
    (AddToFreeList s c).finalPrevIsUsed = s.finalPrevIsUsed ∧
    (AddToFreeList s c).freeBlocks = s.freeBlocks ∧
    (AddToFreeList s c).usedBlocks = s.usedBlocks ∧
    (AddToFreeList s c).freeMem = s.freeMem ∧
    (AddToFreeList s c).usedMem = s.usedMem ∧
    (AddToFreeList s c).merges = s.merges ∧
    (AddToFreeList s c).allocations = s.allocations ∧
    (AddToFreeList s c).frees = s.frees ∧
    (AddToFreeList s c).fails = s.fails := by
  unfold AddToFreeList
  dsimp only
  split <;> exact ⟨rfl, rfl, rfl, rfl, rfl, rfl, rfl, rfl, rfl⟩

theorem WHF_fails (s : AllocState) (c size : Nat) (u : Bool) :
    (WriteHeaderAndFooter s c size u).fails = s.fails ∧
    (WriteHeaderAndFooter s c size u).allocations = s.allocations := by
  unfold WriteHeaderAndFooter
  dsimp only
  split <;> split <;> exact ⟨rfl, rfl⟩

/-- `AllocPtr` when the fit search fails. -/
theorem AllocPtr_none (s : AllocState) (n : Nat)
    (h : GetFreeOfSize s (if RoundUp ((n + userDeltaBytes) % 2^32) % 2^32 < minFreeSize then minFreeSize
      else RoundUp ((n + userDeltaBytes) % 2^32) % 2^32) = none) :
    AllocPtr s n = (none, { s with fails := s.fails + 1 }) := by
  unfold AllocPtr
  dsimp only
  rw [h]

/-- `AllocPtr` when the fit search returns `curFree`. -/
theorem AllocPtr_some (s : AllocState) (n curFree : Nat)
    (h : GetFreeOfSize s (if RoundUp ((n + userDeltaBytes) % 2^32) % 2^32 < minFreeSize then minFreeSize
      else RoundUp ((n + userDeltaBytes) % 2^32) % 2^32) = some curFree) :
    AllocPtr s n =
      (let bytesNeeded := if RoundUp ((n + userDeltaBytes) % 2^32) % 2^32 < minFreeSize then minFreeSize
        else RoundUp ((n + userDeltaBytes) % 2^32) % 2^32
      let size := GetSize s.memory curFree
      let s1 := RemoveFromFreeList s curFree
      let splitBlock := minFreeSize + bytesNeeded ≤ size
      let bytesUsed := if splitBlock then bytesNeeded else size
      let used := curFree + (size - bytesUsed)
      let s2 := WriteHeaderAndFooter s1 used bytesUsed true
      let s3 := AllocationBytesUsed s2 true bytesUsed
      let s4 :=
        if splitBlock then
          AddToFreeList
            (WriteHeaderAndFooter { s3 with freeBlocks := s3.freeBlocks + 1 }
              curFree (size - bytesUsed) false) curFree
        else s3
      (some (used + userDeltaBytes), { s4 with allocations := s4.allocations + 1 })) := by
  unfold AllocPtr
  dsimp only
  rw [h]

/-- C5 counterexample: the claim computes
`need = max(roundEven(n + W), minFreeSize)` in unbounded arithmetic, but
the C++ narrows `byteSizeRequested + sizeof(Size)` to the 32-bit `Size` at
the `RoundUp` call.  On a fresh 32-byte pool with `n = 2^32 - 2`, every
binned free chunk is smaller than the unbounded
`need = roundEven(2^32 + 2) = 2^32 + 2`, yet the allocation succeeds
(the wrapped need is `max(roundEven(2), 16) = 16` and the tail split
returns user offset 20), refuting the claimed iff. -/
theorem C5_counterexample :
    (∀ b, b < BIN_INDICES → ∀ c ∈ (binList (AllocatorInit 32) b).getD [],
      GetSize (AllocatorInit 32).memory c
        < max (RoundUp (2^32 - 2 + userDeltaBytes)) minFreeSize) ∧
    (AllocPtr (AllocatorInit 32) (2^32 - 2)).1 = some 20 := by
  constructor
  · decide
  · decide

/-- C5 amended: with the request width accounted for —
`need = max(roundEven((n + W) mod 2^32) mod 2^32, minFreeSize)`, exactly
the `u32` value the source computes — `AllocPtr(n)` returns the null
sentinel and bumps only `fails` **iff** no free chunk in any bin has size
≥ `need`; on success `fails` is untouched (and `allocations` increments).
The model is total, so no exception can be thrown on OOM.  The hypotheses
say the bin lists are finite circular lists and each chunk sits in the bin
`GetIndex` assigns to its size — both hold in every well-formed state and
are checked by `decide` in the witness. -/
theorem C5_amended (s : AllocState) (n : Nat)
    (hterm : ∀ b, b < BIN_INDICES → (binList s b).isSome)
    (hplace : ∀ b, b < BIN_INDICES → ∀ c ∈ (binList s b).getD [],
      GetIndex (GetSize s.memory c) = b) :
    ((AllocPtr s n).1 = none ↔
      ∀ b, b < BIN_INDICES → ∀ c ∈ (binList s b).getD [],
        GetSize s.memory c < max (RoundUp ((n + userDeltaBytes) % 2^32) % 2^32) minFreeSize) ∧
    ((AllocPtr s n).1 = none → (AllocPtr s n).2 = { s with fails := s.fails + 1 }) ∧
    ((AllocPtr s n).1 ≠ none → (AllocPtr s n).2.fails = s.fails ∧
      (AllocPtr s n).2.allocations = s.allocations + 1) := by
  have hbn : (if RoundUp ((n + userDeltaBytes) % 2^32) % 2^32 < minFreeSize then minFreeSize
      else RoundUp ((n + userDeltaBytes) % 2^32) % 2^32) = max (RoundUp ((n + userDeltaBytes) % 2^32) % 2^32) minFreeSize := by
    split <;> omega
  have hloop := GetFreeOfSizeLoop_spec s (max (RoundUp ((n + userDeltaBytes) % 2^32) % 2^32) minFreeSize)
    BIN_INDICES (GetIndex (max (RoundUp ((n + userDeltaBytes) % 2^32) % 2^32) minFreeSize))
    (fun b hb1 hb2 => hterm b hb2)
  have hgiff : GetFreeOfSize s (max (RoundUp ((n + userDeltaBytes) % 2^32) % 2^32) minFreeSize) = none ↔
      ∀ b, b < BIN_INDICES → ∀ c ∈ (binList s b).getD [],
        GetSize s.memory c < max (RoundUp ((n + userDeltaBytes) % 2^32) % 2^32) minFreeSize := by
    unfold GetFreeOfSize
    rw [hloop.1]
    constructor
    · intro hall b hb2 c hc
      rcases Nat.lt_or_ge b (GetIndex (max (RoundUp ((n + userDeltaBytes) % 2^32) % 2^32) minFreeSize))
        with hblt | hbge
      · by_contra hge
        have h1 : GetIndex (max (RoundUp ((n + userDeltaBytes) % 2^32) % 2^32) minFreeSize)
            ≤ GetIndex (GetSize s.memory c) := GetIndex_mono _ _ (by omega)
        rw [hplace b hb2 c hc] at h1
        omega
      · exact hall b hbge hb2 (by omega) c hc
    · intro hall b hb1 hb2 hb3 c hc
      exact hall b hb2 c hc
  rcases hgf : GetFreeOfSize s (if RoundUp ((n + userDeltaBytes) % 2^32) % 2^32 < minFreeSize then minFreeSize
      else RoundUp ((n + userDeltaBytes) % 2^32) % 2^32) with _ | curFree
  · rw [hbn] at hgf
    have hA := AllocPtr_none s n (by rw [hbn]; exact hgf)
    rw [hA]
    refine ⟨?_, fun h₂ => rfl, fun h₂ => absurd rfl h₂⟩
    exact ⟨fun _ => hgiff.1 hgf, fun _ => rfl⟩
  · rw [hbn] at hgf
    have hA := AllocPtr_some s n curFree (by rw [hbn]; exact hgf)
    rw [hA]
    dsimp only
    have hsome : ¬ ((some (curFree + (GetSize s.memory curFree -
        if minFreeSize + (if RoundUp ((n + userDeltaBytes) % 2^32) % 2^32 < minFreeSize then minFreeSize
          else RoundUp ((n + userDeltaBytes) % 2^32) % 2^32) ≤ GetSize s.memory curFree then
          (if RoundUp ((n + userDeltaBytes) % 2^32) % 2^32 < minFreeSize then minFreeSize
            else RoundUp ((n + userDeltaBytes) % 2^32) % 2^32) else GetSize s.memory curFree)
        + userDeltaBytes) : Option Nat) = none) := by simp
    refine ⟨?_, ?_, ?_⟩
    · constructor
      · intro h; simp at h
      · intro hall
        exfalso
        have := hgiff.2 hall
        rw [hgf] at this
        simp at this
    · intro h; simp at h
    · intro h₂
      have hABU : ∀ (t : AllocState) (pos : Bool) (k : Nat),
          (AllocationBytesUsed t pos k).fails = t.fails ∧
          (AllocationBytesUsed t pos k).allocations = t.allocations := by
        intro t pos k
        unfold AllocationBytesUsed
        split <;> exact ⟨rfl, rfl⟩
      split <;> split <;>
        first
        | (rw [(AddToFreeList_fields _ _).2.2.2.2.2.2.2.2,
              (AddToFreeList_fields _ _).2.2.2.2.2.2.1,
              (WHF_fails _ _ _ _).1, (WHF_fails _ _ _ _).2]
           dsimp only
           rw [(hABU _ _ _).1, (hABU _ _ _).2,
              (WHF_fails _ _ _ _).1, (WHF_fails _ _ _ _).2,
              (RemoveFromFreeList_fields _ _).2.2.2.2.2.2.2.2,
              (RemoveFromFreeList_fields _ _).2.2.2.2.2.2.1]
           exact ⟨rfl, rfl⟩)
        | (rw [(hABU _ _ _).1, (hABU _ _ _).2,
              (WHF_fails _ _ _ _).1, (WHF_fails _ _ _ _).2,
              (RemoveFromFreeList_fields _ _).2.2.2.2.2.2.2.2,
              (RemoveFromFreeList_fields _ _).2.2.2.2.2.2.1]
           exact ⟨rfl, rfl⟩)

/-- Witness for `C5_amended`: the fresh 32-byte pool with `n = 40`
(so `need = 44 > 32` exceeds every chunk and the allocation fails). -/
theorem C5_amended_witness :
    ((∀ b, b < BIN_INDICES → (binList (AllocatorInit 32) b).isSome) ∧
     (∀ b, b < BIN_INDICES → ∀ c ∈ (binList (AllocatorInit 32) b).getD [],
        GetIndex (GetSize (AllocatorInit 32).memory c) = b)) ∧
    (((AllocPtr (AllocatorInit 32) 40).1 = none ↔
      ∀ b, b < BIN_INDICES → ∀ c ∈ (binList (AllocatorInit 32) b).getD [],
        GetSize (AllocatorInit 32).memory c
          < max (RoundUp ((40 + userDeltaBytes) % 2^32) % 2^32) minFreeSize) ∧
    ((AllocPtr (AllocatorInit 32) 40).1 = none →
      (AllocPtr (AllocatorInit 32) 40).2
        = { AllocatorInit 32 with fails := (AllocatorInit 32).fails + 1 }) ∧
    ((AllocPtr (AllocatorInit 32) 40).1 ≠ none →
      (AllocPtr (AllocatorInit 32) 40).2.fails = (AllocatorInit 32).fails ∧
      (AllocPtr (AllocatorInit 32) 40).2.allocations = (AllocatorInit 32).allocations + 1)) :=
  ⟨⟨by decide, by decide⟩, C5_amended (AllocatorInit 32) 40 (by decide) (by decide)⟩

/-! ### Claim C2: compacting twice -/

set_option maxHeartbeats 4000000 in
/-- C2 counterexample: on the reachable state obtained by `AllocRef(5)` on
a fresh 32-byte collector, the first `Compact` leaves
`(bytesMoved, swaps, collections) = (16, 1, 1)` and the second `Compact`
leaves `(32, 2, 2)`: the second call increments `swaps` and `bytesMoved`
(by `usedBlocks` and `usedMem`), so it does *not* preserve all statistics
except `collections`. -/
theorem C2_counterexample :
    ((Compact ((AllocRef (GCInit 32) 5).2)).bind Compact).map
      (fun g => (g.bytesMoved, g.swaps, g.collections)) = some (32, 2, 2) ∧
    (Compact ((AllocRef (GCInit 32) 5).2)).map
      (fun g => (g.bytesMoved, g.swaps, g.collections)) = some (16, 1, 1) ∧
    ((Compact ((AllocRef (GCInit 32) 5).2)).bind Compact).map (fun g => (g.memory, g.refs))
      = (Compact ((AllocRef (GCInit 32) 5).2)).map (fun g => (g.memory, g.refs)) := by
  decide


/-! ### Free-list surgery: traversal structure and splice/unlink lemmas -/

theorem binListFrom_mono (m : List Nat) (start : Nat) :
    ∀ (fuel cur : Nat) (lb : List Nat), binListFrom m start fuel cur = some lb →
    ∀ fuel₂, fuel ≤ fuel₂ → binListFrom m start fuel₂ cur = some lb := by
  intro fuel
  induction fuel with
  | zero => intro cur lb h; simp [binListFrom] at h
  | succ fuel ih =>
    intro cur lb h fuel₂ hle
    obtain ⟨f₃, rfl⟩ : ∃ f₃, fuel₂ = f₃ + 1 := ⟨fuel₂ - 1, by omega⟩
    unfold binListFrom at h ⊢
    dsimp only at h ⊢
    by_cases hnx : nextOffset m cur = start
    · rw [if_pos hnx] at h ⊢; exact h
    · rw [if_neg hnx] at h ⊢
      obtain ⟨lb', hrec, hl⟩ : ∃ a, binListFrom m start fuel (nextOffset m cur) = some a ∧
          cur :: a = lb := by simpa using h
      rw [ih _ lb' hrec f₃ (by omega)]
      simpa using hl

theorem binListFrom_head (m : List Nat) (start fuel cur : Nat) (lb : List Nat)
    (h : binListFrom m start fuel cur = some lb) : lb.head? = some cur := by
  cases fuel with
  | zero => simp [binListFrom] at h
  | succ fuel =>
    unfold binListFrom at h
    dsimp only at h
    by_cases hnx : nextOffset m cur = start
    · rw [if_pos hnx] at h
      simp only [Option.some.injEq] at h
      simp [← h]
    · rw [if_neg hnx] at h
      obtain ⟨lb', hrec, hl⟩ : ∃ a, binListFrom m start fuel (nextOffset m cur) = some a ∧
          cur :: a = lb := by simpa using h
      simp [← hl]

theorem binListFrom_ne_nil (m : List Nat) (start fuel cur : Nat) (lb : List Nat)
    (h : binListFrom m start fuel cur = some lb) : lb ≠ [] := by
  have := binListFrom_head m start fuel cur lb h
  intro hnil
  rw [hnil] at this
  simp at this

/-- Structure of a terminating bin traversal: consecutive `nextOffset`
links, the last link closes back to `start`, and no element after the
head equals `start`. -/
theorem binListFrom_struct (m : List Nat) (start : Nat) :
    ∀ (fuel cur : Nat) (lb : List Nat), binListFrom m start fuel cur = some lb →
    List.Chain' (fun x y => nextOffset m x = y) lb ∧
    (∀ x, lb.getLast? = some x → nextOffset m x = start) ∧
    (∀ x ∈ lb.tail, x ≠ start) ∧
    lb.length ≤ fuel := by
  intro fuel
  induction fuel with
  | zero => intro cur lb h; simp [binListFrom] at h
  | succ fuel ih =>
    intro cur lb h
    unfold binListFrom at h
    dsimp only at h
    by_cases hnx : nextOffset m cur = start
    · rw [if_pos hnx] at h
      simp only [Option.some.injEq] at h
      subst h
      refine ⟨by simp, ?_, by simp, by simp⟩
      intro x hx
      obtain rfl : cur = x := by simpa using hx
      exact hnx
    · rw [if_neg hnx] at h
      obtain ⟨lb', hrec, hl⟩ : ∃ a, binListFrom m start fuel (nextOffset m cur) = some a ∧
          cur :: a = lb := by simpa using h
      subst hl
      obtain ⟨ih1, ih2, ih3, ih4⟩ := ih _ lb' hrec
      have hhead := binListFrom_head m start fuel (nextOffset m cur) lb' hrec
      refine ⟨?_, ?_, ?_, by simpa using ih4⟩
      · rw [List.chain'_cons']
        refine ⟨?_, ih1⟩
        intro y hy
        rw [hhead] at hy
        have : nextOffset m cur = y := by simpa using hy
        exact this
      · intro x hx
        have hcc : (cur :: lb').getLast? = lb'.getLast? := by
          rcases hl' : lb' with _ | ⟨y, ys⟩
          · exact absurd hl' (binListFrom_ne_nil m start fuel _ lb' hrec)
          · exact List.getLast?_cons_cons ..
        rw [hcc] at hx
        exact ih2 x hx
      · intro x hx
        simp only [List.tail_cons] at hx
        rcases hl' : lb' with _ | ⟨y, ys⟩
        · rw [hl'] at hx; simp at hx
        · rw [hl'] at hx
          rcases List.mem_cons.1 hx with rfl | hx'
          · rw [hl'] at hhead
            intro habs
            rw [habs] at hhead
            have : nextOffset m cur = start := by
              have h5 : (start :: ys).head? = some (nextOffset m cur) := hhead
              simpa using h5.symm
            exact hnx this
          · exact ih3 x (by simp [hl', hx'])

/-- A bin traversal only reads the `nextOffset` fields of its elements. -/
theorem binListFrom_congr (m m' : List Nat) (start : Nat) :
    ∀ (fuel cur : Nat) (lb : List Nat), binListFrom m start fuel cur = some lb →
    (∀ x ∈ lb, nextOffset m' x = nextOffset m x) →
    binListFrom m' start fuel cur = some lb := by
  intro fuel
  induction fuel with
  | zero => intro cur lb h hag; simp [binListFrom] at h
  | succ fuel ih =>
    intro cur lb h hag
    unfold binListFrom at h ⊢
    dsimp only at h ⊢
    by_cases hnx : nextOffset m cur = start
    · rw [if_pos hnx] at h
      simp only [Option.some.injEq] at h
      subst h
      rw [if_pos (by rw [hag cur (by simp)]; exact hnx)]
    · rw [if_neg hnx] at h
      obtain ⟨lb', hrec, hl⟩ : ∃ a, binListFrom m start fuel (nextOffset m cur) = some a ∧
          cur :: a = lb := by simpa using h
      subst hl
      have hcur : nextOffset m' cur = nextOffset m cur := hag cur (by simp)
      rw [if_neg (by rw [hcur]; exact hnx)]
      rw [hcur, ih _ lb' hrec (fun x hx => hag x (by simp [hx]))]
      rfl

/-- Rebuild a bin traversal from its link structure. -/
theorem binListFrom_build (m : List Nat) (start : Nat) :
    ∀ (lb : List Nat) (cur : Nat), lb.head? = some cur →
    List.Chain' (fun x y => nextOffset m x = y) lb →
    (∀ x, lb.getLast? = some x → nextOffset m x = start) →
    (∀ x ∈ lb.tail, x ≠ start) →
    ∀ fuel, lb.length ≤ fuel →
    binListFrom m start fuel cur = some lb := by
  intro lb
  induction lb with
  | nil => intro cur h; simp at h
  | cons x rest ih =>
    intro cur hh hchain hlast htail fuel hfuel
    obtain rfl : x = cur := by simpa using hh
    obtain ⟨f, rfl⟩ : ∃ f, fuel = f + 1 := ⟨fuel - 1, by simp at hfuel; omega⟩
    unfold binListFrom
    dsimp only
    rcases hr : rest with _ | ⟨r, rs⟩
    · rw [if_pos (hlast x (by simp [hr]))]
    · subst hr
      have hch : nextOffset m x = r ∧
          List.Chain' (fun a b => nextOffset m a = b) (r :: rs) := by
        simpa using hchain
      have hrne : r ≠ start := htail r (by simp)
      rw [if_neg (by rw [hch.1]; exact hrne)]
      rw [hch.1]
      rw [ih r (by simp) hch.2
        (by
          intro y hy
          refine hlast y ?_
          rw [List.getLast?_cons_cons]
          exact hy)
        (by
          intro y hy
          refine htail y ?_
          simp only [List.tail_cons]
          exact List.mem_cons_of_mem _ (by simpa using hy))
        f (by simp only [List.length_cons] at hfuel ⊢; omega)]
      simp

/-- Pointwise congruence for `Chain'`, restricted to pairs whose second
component lies in the tail. -/
theorem chain'_congr_mem {α : Type} {R S : α → α → Prop} :
    ∀ (l : List α), (∀ x ∈ l, ∀ y ∈ l.tail, R x y → S x y) → List.Chain' R l → List.Chain' S l := by
  intro l
  induction l with
  | nil => intro _ _; simp
  | cons x rest ih =>
    intro hrs hch
    rcases rest with _ | ⟨y, ys⟩
    · simp
    · obtain ⟨h1, h2⟩ := List.chain'_cons.1 hch
      refine List.chain'_cons.2 ⟨hrs x (by simp) y (by simp) h1, ?_⟩
      exact ih (fun a ha b hb => hrs a (by simp [ha]) b (by
        simp only [List.tail_cons] at hb ⊢
        exact List.mem_cons_of_mem _ hb)) h2

/-- A duplicate-free list of naturals below `n` has at most `n` elements. -/
theorem nodup_lt_length_le (lb : List Nat) (n : Nat) (hnd : lb.Nodup)
    (hlt : ∀ x ∈ lb, x < n) : lb.length ≤ n := by
  classical
  have hsub : lb.toFinset ⊆ Finset.range n := by
    intro x hx
    simp only [Finset.mem_range]
    exact hlt x (by simpa using hx)
  have := Finset.card_le_card hsub
  rwa [List.toFinset_card_of_nodup hnd, Finset.card_range] at this

/-- `AddToFreeList` into a nonempty bin, as explicit writes. -/
theorem AddToFreeList_linked (s : AllocState) (c : Nat)
    (h : ¬ s.bins.getD (GetIndex (GetSize s.memory c)) 0 = InvalidSize) :
    (AddToFreeList s c).bins = s.bins ∧
    (AddToFreeList s c).memory =
      write32
        (write32
          (write32 (write32 s.memory (c+8) (s.bins.getD (GetIndex (GetSize s.memory c)) 0))
            (c+4)
            (read32 (write32 s.memory (c+8) (s.bins.getD (GetIndex (GetSize s.memory c)) 0))
              (s.bins.getD (GetIndex (GetSize s.memory c)) 0 + 4)))
          (read32 s.memory (s.bins.getD (GetIndex (GetSize s.memory c)) 0 + 4) + 8) c)
        (s.bins.getD (GetIndex (GetSize s.memory c)) 0 + 4) c := by
  unfold AddToFreeList
  dsimp only
  rw [if_neg (by simpa using h)]
  exact ⟨rfl, rfl⟩

/-- Effect of `AddToFreeList` on a nonempty bin: the new chunk is spliced
in right after the bin head, the back links stay consistent, and only the
link fields of `c`, the head and the head's successor are written. -/
theorem AddToFreeList_splice (s : AllocState) (c b : Nat) (lb : List Nat)
    (hb : GetIndex (GetSize s.memory c) = b)
    (hne : ¬ s.bins.getD b 0 = InvalidSize)
    (hlb : binList s b = some lb)
    (hbytes : ∀ v ∈ s.memory, v < 256)
    (hlen32 : s.memory.length < 2^32)
    (hsepc : ∀ x ∈ lb, x + 16 ≤ c ∨ c + 16 ≤ x)
    (hbound : ∀ x ∈ lb, x + 16 ≤ s.memory.length)
    (hcbound : c + 16 ≤ s.memory.length)
    (hnd : lb.Nodup)
    (hpair : lb.Pairwise (fun x y => x + 16 ≤ y ∨ y + 16 ≤ x))
    (hprev : List.Chain' (fun x y => prevOffset s.memory y = x) (lb ++ lb.take 1)) :
    (AddToFreeList s c).bins = s.bins ∧
    (∀ i, (i < c + 4 ∨ c + 12 ≤ i) →
      (i < s.bins.getD b 0 + 4 ∨ s.bins.getD b 0 + 8 ≤ i) →
      (i < nextOffset s.memory (s.bins.getD b 0) + 8 ∨
        nextOffset s.memory (s.bins.getD b 0) + 12 ≤ i) →
      getByte (AddToFreeList s c).memory i = getByte s.memory i) ∧
    (AddToFreeList s c).memory.length = s.memory.length ∧
    binList (AddToFreeList s c) b = some (s.bins.getD b 0 :: c :: lb.tail) ∧
    List.Chain' (fun x y => prevOffset (AddToFreeList s c).memory y = x)
      ((s.bins.getD b 0 :: c :: lb.tail) ++ [s.bins.getD b 0]) := by
  have hb' : ¬ s.bins.getD (GetIndex (GetSize s.memory c)) 0 = InvalidSize := by
    rw [hb]; exact hne
  obtain ⟨hbins, hmem⟩ := AddToFreeList_linked s c hb'
  rw [hb] at hmem
  set h0 := s.bins.getD b 0 with hh0
  set m := s.memory with hm
  -- the traversal of bin b starts at h0 and visits lb
  have hlbF : binListFrom m h0 (m.length + 1) h0 = some lb := by
    unfold binList at hlb
    rw [if_neg hne] at hlb
    exact hlb
  have hhead : lb.head? = some h0 := binListFrom_head _ _ _ _ _ hlbF
  have hlb_ne : lb ≠ [] := binListFrom_ne_nil _ _ _ _ _ hlbF
  obtain ⟨hchain, hlast, htail_ne, hlen_le⟩ := binListFrom_struct m h0 _ _ _ hlbF
  have hh0mem : h0 ∈ lb := by
    rcases lb with _ | ⟨y, ys⟩
    · exact absurd rfl hlb_ne
    · obtain rfl : y = h0 := by simpa using hhead
      simp
  -- n0, the head's successor on the cycle, is a member of lb
  have hn0mem : nextOffset m h0 ∈ lb := by
    rcases hlbc : lb with _ | ⟨y, ys⟩
    · exact absurd hlbc hlb_ne
    · obtain rfl : y = h0 := by rw [hlbc] at hhead; simpa using hhead
      rcases hys : ys with _ | ⟨z, zs⟩
      · have : nextOffset m h0 = h0 := by
          have := hlast h0 (by simp [hlbc, hys])
          exact this
        simp [this]
      · have : nextOffset m h0 = z := by
          rw [hlbc, hys] at hchain
          exact (List.chain'_cons.1 hchain).1
        simp [this]
  set n0 := nextOffset m h0 with hn0
  -- bounds
  have hclt : c < 2^32 := by omega
  have hh0b : h0 + 16 ≤ m.length := hbound h0 hh0mem
  have hn0b : n0 + 16 ≤ m.length := hbound n0 hn0mem
  have hn0lt : n0 < 2^32 := read32_lt m (h0+4) hbytes
  have hsep_h0c : h0 + 16 ≤ c ∨ c + 16 ≤ h0 := hsepc h0 hh0mem
  have hsep_n0c : n0 + 16 ≤ c ∨ c + 16 ≤ n0 := hsepc n0 hn0mem
  -- the four written words, value facts
  have hv1 : read32 (write32 m (c+8) h0) (h0 + 4) = nextOffset m h0 := by
    exact read32_write32_of_disjoint _ _ _ _ (by rcases hsep_h0c with h | h <;> omega)
  rw [hv1] at hmem
  rw [show read32 m (h0 + 4) = nextOffset m h0 from rfl] at hmem
  rw [← hn0] at hmem
  have hsymm : Symmetric (fun x y : Nat => x + 16 ≤ y ∨ y + 16 ≤ x) :=
    fun x y h => Or.symm h
  -- link-field values in the new memory
  have hx_h0 : nextOffset (AddToFreeList s c).memory h0 = c := by
    rw [hmem]
    unfold nextOffset
    rw [read32_write32_self _ _ _ (by rw [length_write32, length_write32, length_write32]; omega)]
    omega
  have hx_c : nextOffset (AddToFreeList s c).memory c = n0 := by
    rw [hmem]
    unfold nextOffset
    rw [read32_write32_of_disjoint _ _ _ _ (by rcases hsep_h0c with h | h <;> omega),
        read32_write32_of_disjoint _ _ _ _ (by rcases hsep_n0c with h | h <;> omega),
        read32_write32_self _ _ _ (by rw [length_write32]; omega)]
    omega
  have hx_other : ∀ x ∈ lb, x ≠ h0 → nextOffset (AddToFreeList s c).memory x = nextOffset m x := by
    intro x hx hxne
    have hxb : x + 16 ≤ m.length := hbound x hx
    have hxc : x + 16 ≤ c ∨ c + 16 ≤ x := hsepc x hx
    have hxh0 : x + 16 ≤ h0 ∨ h0 + 16 ≤ x :=
      List.Pairwise.forall hsymm hpair hx hh0mem hxne
    have hxn0 : x = n0 ∨ x + 16 ≤ n0 ∨ n0 + 16 ≤ x := by
      by_cases hxn : x = n0
      · exact Or.inl hxn
      · exact Or.inr (List.Pairwise.forall hsymm hpair hx hn0mem hxn)
    rw [hmem]
    unfold nextOffset
    rw [read32_write32_of_disjoint _ _ _ _ (by rcases hxh0 with h | h <;> omega),
        read32_write32_of_disjoint _ _ _ _ (by rcases hxn0 with rfl | h | h <;> omega),
        read32_write32_of_disjoint _ _ _ _ (by rcases hxc with h | h <;> omega),
        read32_write32_of_disjoint _ _ _ _ (by rcases hxc with h | h <;> omega)]
  have hp_c : prevOffset (AddToFreeList s c).memory c = h0 := by
    rw [hmem]
    unfold prevOffset
    rw [read32_write32_of_disjoint _ _ _ _ (by rcases hsep_h0c with h | h <;> omega),
        read32_write32_of_disjoint _ _ _ _ (by rcases hsep_n0c with h | h <;> omega),
        read32_write32_of_disjoint _ _ _ _ (by omega),
        read32_write32_self _ _ _ (by omega)]
    omega
  have hp_n0 : prevOffset (AddToFreeList s c).memory n0 = c := by
    have hn0h0 : n0 = h0 ∨ n0 + 16 ≤ h0 ∨ h0 + 16 ≤ n0 := by
      by_cases h : n0 = h0
      · exact Or.inl h
      · exact Or.inr (List.Pairwise.forall hsymm hpair hn0mem hh0mem h)
    rw [hmem]
    unfold prevOffset
    rw [read32_write32_of_disjoint _ _ _ _ (by rcases hn0h0 with h | h | h <;> omega),
        read32_write32_self _ _ _ (by rw [length_write32, length_write32]; omega)]
    omega
  have hp_other : ∀ x ∈ lb, x ≠ n0 → prevOffset (AddToFreeList s c).memory x = prevOffset m x := by
    intro x hx hxne
    have hxb : x + 16 ≤ m.length := hbound x hx
    have hxc : x + 16 ≤ c ∨ c + 16 ≤ x := hsepc x hx
    have hxn0 : x + 16 ≤ n0 ∨ n0 + 16 ≤ x :=
      List.Pairwise.forall hsymm hpair hx hn0mem hxne
    have hxh0 : x = h0 ∨ x + 16 ≤ h0 ∨ h0 + 16 ≤ x := by
      by_cases hxh : x = h0
      · exact Or.inl hxh
      · exact Or.inr (List.Pairwise.forall hsymm hpair hx hh0mem hxh)
    rw [hmem]
    unfold prevOffset
    rw [read32_write32_of_disjoint _ _ _ _ (by rcases hxh0 with rfl | h | h <;> omega),
        read32_write32_of_disjoint _ _ _ _ (by rcases hxn0 with h | h <;> omega),
        read32_write32_of_disjoint _ _ _ _ (by rcases hxc with h | h <;> omega),
        read32_write32_of_disjoint _ _ _ _ (by rcases hxc with h | h <;> omega)]
  have hlenB : (AddToFreeList s c).memory.length = m.length := by
    rw [hmem]; simp [length_write32]
  have hlb_len : lb.length ≤ m.length :=
    nodup_lt_length_le lb m.length hnd (fun x hx => by have := hbound x hx; omega)
  have hch0 : ¬ c = h0 := by rcases hsep_h0c with h | h <;> omega
  have hh0tail : h0 ∉ lb.tail := by
    rcases hlbc : lb with _ | ⟨y, ys⟩
    · simp
    · obtain rfl : y = h0 := by rw [hlbc] at hhead; simpa using hhead
      rw [hlbc] at hnd
      simpa using (List.nodup_cons.1 hnd).1
  refine ⟨hbins, ?_, ?_, ?_, ?_⟩
  · intro i hic hih0 hin0
    rw [hmem]
    rw [getByte_write32_of_ne _ _ _ _ (by omega),
        getByte_write32_of_ne _ _ _ _ (by omega),
        getByte_write32_of_ne _ _ _ _ (by omega),
        getByte_write32_of_ne _ _ _ _ (by omega)]
  · exact hlenB
  · unfold binList
    rw [hbins, if_neg hne, hlenB]
    rw [← hh0]
    refine binListFrom_build _ _ _ _ (by simp) ?_ ?_ ?_ _ ?_
    · -- next-links chain of the new list
      rcases hlbc : lb with _ | ⟨y, ys⟩
      · exact absurd hlbc hlb_ne
      · obtain rfl : y = h0 := by rw [hlbc] at hhead; simpa using hhead
        rcases hys : ys with _ | ⟨t1, ts⟩
        · simp only [hlbc, hys, List.tail_cons]
          exact List.chain'_cons.2 ⟨hx_h0, by simp⟩
        · have hn0t1 : n0 = t1 := by
            rw [hlbc, hys] at hchain
            rw [hn0]
            exact (List.chain'_cons.1 hchain).1
          simp only [hlbc, hys, List.tail_cons]
          refine List.chain'_cons.2 ⟨hx_h0, List.chain'_cons.2 ⟨by rw [hx_c, hn0t1], ?_⟩⟩
          have holdch : List.Chain' (fun x y => nextOffset m x = y) (t1 :: ts) := by
            rw [hlbc, hys] at hchain
            exact (List.chain'_cons.1 hchain).2
          refine chain'_congr_mem _ ?_ holdch
          intro x hx y hy hxy
          rw [hx_other x (by rw [hlbc, hys]; exact List.mem_cons_of_mem _ hx) ?hne]
          · exact hxy
          case hne =>
            intro habs
            subst habs
            exact hh0tail (by simp [hlbc, hys]; simpa using hx)
    · -- the last link closes to h0
      intro x hx
      rcases hlbc : lb with _ | ⟨y, ys⟩
      · exact absurd hlbc hlb_ne
      · obtain rfl : y = h0 := by rw [hlbc] at hhead; simpa using hhead
        rcases hys : ys with _ | ⟨t1, ts⟩
        · have hcx : c = x := by
            rw [hlbc, hys] at hx
            simpa using hx
          subst hcx
          rw [hx_c, hn0]
          exact hlast h0 (by simp [hlbc, hys])
        · have hxl : (t1 :: ts).getLast? = some x := by
            rw [hlbc, hys] at hx
            simpa [List.getLast?_cons_cons] using hx
          have hxmem : x ∈ t1 :: ts := by
            rcases List.mem_getLast?_eq_getLast hxl with ⟨hh, hx2⟩
            rw [hx2]
            exact List.getLast_mem hh
          rw [hx_other x (by rw [hlbc, hys]; exact List.mem_cons_of_mem _ hxmem) ?hne2]
          case hne2 =>
            intro habs
            subst habs
            exact hh0tail (by simp [hlbc, hys]; simpa using hxmem)
          refine hlast x ?_
          rw [hlbc, hys, List.getLast?_cons_cons]
          exact hxl
    · -- no element after the head equals h0
      intro x hx
      simp only [List.tail_cons] at hx
      rcases List.mem_cons.1 hx with rfl | hx'
      · exact hch0
      · exact htail_ne x hx'
    · -- fuel
      simp only [List.length_cons]
      have : lb.tail.length + 1 = lb.length := by
        rcases hlbc : lb with _ | _
        · exact absurd hlbc hlb_ne
        · simp
      omega
  · -- the prevOffset back links of the new cycle
    rcases hlbc : lb with _ | ⟨y, ys⟩
    · exact absurd hlbc hlb_ne
    · obtain rfl : y = h0 := by rw [hlbc] at hhead; simpa using hhead
      rcases hys : ys with _ | ⟨t1, ts⟩
      · have hn0h0 : n0 = h0 := by
          have := hlast h0 (by simp [hlbc, hys])
          rw [hn0]
          simpa using this
        simp only [hlbc, hys, List.tail_cons]
        refine List.chain'_cons.2 ⟨hp_c, List.chain'_cons.2 ⟨?_, by simp⟩⟩
        rw [← hn0h0]
        exact hp_n0
      · have hn0t1 : n0 = t1 := by
          rw [hlbc, hys] at hchain
          rw [hn0]
          exact (List.chain'_cons.1 hchain).1
        simp only [hlbc, hys, List.tail_cons]
        refine List.chain'_cons.2 ⟨hp_c, List.chain'_cons.2 ⟨by rw [← hn0t1]; exact hp_n0, ?_⟩⟩
        have holdprev : List.Chain' (fun x y => prevOffset m y = x) (t1 :: (ts ++ [h0])) := by
          rw [hlbc, hys] at hprev
          have h2 : prevOffset m t1 = h0 ∧
              List.Chain' (fun x y => prevOffset m y = x) (t1 :: (ts ++ [h0])) := by
            simpa using hprev
          exact h2.2
        refine chain'_congr_mem _ ?_ holdprev
        intro x hx y hy hxy
        have hymem : y ∈ ts ∨ y = h0 := by
          simp only [List.tail_cons] at hy
          rcases List.mem_append.1 hy with h1 | h1
          · exact Or.inl h1
          · exact Or.inr (by simpa using h1)
        have hylb : y ∈ lb := by
          rcases hymem with h1 | rfl
          · rw [hlbc, hys]; exact List.mem_cons_of_mem _ (List.mem_cons_of_mem _ h1)
          · rw [hlbc]; exact List.mem_cons_self _ _
        have hyne : y ≠ n0 := by
          rw [hn0t1]
          rcases hymem with h1 | rfl
          · intro habs
            subst habs
            rw [hlbc, hys] at hnd
            have := (List.nodup_cons.1 ((List.nodup_cons.1 hnd).2)).1
            exact this h1
          · intro habs
            rw [habs] at hh0tail
            exact hh0tail (by simp [hlbc, hys])
        rw [hp_other y hylb hyne]
        exact hxy

/-- Writing back the byte already present is a no-op. -/
theorem setByte_getByte_self : ∀ (m : List Nat) (i : Nat), setByte m i (getByte m i) = m := by
  intro m
  induction m with
  | nil => intro i; simp [setByte, getByte]
  | cons a t ih =>
    intro i
    cases i with
    | zero => simp [setByte, getByte]
    | succ j =>
      simp only [setByte, getByte, List.set_cons_succ, List.getD_cons_succ, List.cons.injEq,
        true_and]
      exact ih j

/-- Writing back the word already present is a no-op (bytes in range). -/
theorem write32_read32_roundtrip (m : List Nat) (i : Nat) (hb : ∀ x ∈ m, x < 256) :
    write32 m i (read32 m i) = m := by
  have h0 := getByte_lt m i hb
  have h1 := getByte_lt m (i+1) hb
  have h2 := getByte_lt m (i+2) hb
  have h3 := getByte_lt m (i+3) hb
  unfold write32 read32
  have e0 : (getByte m i + 256 * getByte m (i+1) + 256^2 * getByte m (i+2) +
      256^3 * getByte m (i+3)) % 256 = getByte m i := by omega
  have e1 : (getByte m i + 256 * getByte m (i+1) + 256^2 * getByte m (i+2) +
      256^3 * getByte m (i+3)) / 256 % 256 = getByte m (i+1) := by omega
  have e2 : (getByte m i + 256 * getByte m (i+1) + 256^2 * getByte m (i+2) +
      256^3 * getByte m (i+3)) / 256^2 % 256 = getByte m (i+2) := by omega
  have e3 : (getByte m i + 256 * getByte m (i+1) + 256^2 * getByte m (i+2) +
      256^3 * getByte m (i+3)) / 256^3 % 256 = getByte m (i+3) := by omega
  rw [e0, e1, e2, e3, setByte_getByte_self, setByte_getByte_self, setByte_getByte_self,
    setByte_getByte_self]

/-- Pointwise congruence for `Chain'`, restricted to pairs whose first
component is not the last element. -/
theorem chain'_congr_mem2 {α : Type} {R S : α → α → Prop} :
    ∀ (l : List α), (∀ x ∈ l.dropLast, ∀ y ∈ l.tail, R x y → S x y) →
    List.Chain' R l → List.Chain' S l := by
  intro l
  induction l with
  | nil => intro _ _; simp
  | cons x rest ih =>
    intro hrs hch
    rcases rest with _ | ⟨y, ys⟩
    · simp
    · obtain ⟨h1, h2⟩ := List.chain'_cons.1 hch
      refine List.chain'_cons.2 ⟨hrs x (by simp) y (by simp) h1, ?_⟩
      refine ih (fun a ha b hb => hrs a ?_ b ?_) h2
      · rw [List.dropLast_cons_of_ne_nil (by simp)]
        exact List.mem_cons_of_mem _ ha
      · simp only [List.tail_cons] at hb ⊢
        exact List.mem_cons_of_mem _ hb

/-- In a duplicate-free list the last element does not occur earlier. -/
theorem nodup_getLast_not_mem_dropLast {α : Type} (l : List α) (a : α) (hnd : l.Nodup)
    (hl : l.getLast? = some a) : a ∉ l.dropLast := by
  have hne : l ≠ [] := by intro h; rw [h] at hl; simp at hl
  have hsplit : l.dropLast ++ [l.getLast hne] = l := List.dropLast_append_getLast hne
  have hga : l.getLast hne = a := by
    have := List.getLast?_eq_getLast l hne
    rw [hl] at this
    exact (Option.some.injEq _ _ ▸ this).symm
  intro hmem
  rw [← hsplit] at hnd
  have := List.Nodup.of_append_right hnd
  have hdisj := List.disjoint_of_nodup_append hnd
  exact hdisj hmem (by rw [hga]; simp)

/-- `RemoveFromFreeList` when the chunk is the bin head and not alone:
raw form of the two writes. -/
theorem RemoveFromFreeList_linked (s : AllocState) (c : Nat)
    (hne : ¬ nextOffset s.memory c = c)
    (hhead : s.bins.getD (GetIndex (GetSize s.memory c)) 0 = c) :
    (RemoveFromFreeList s c).bins =
      s.bins.set (GetIndex (GetSize s.memory c)) (nextOffset s.memory c) ∧
    (RemoveFromFreeList s c).memory =
      write32 (write32 s.memory (nextOffset s.memory c + 8) (prevOffset s.memory c))
        (read32 (write32 s.memory (nextOffset s.memory c + 8) (prevOffset s.memory c)) (c+8) + 4)
        (read32 (write32 s.memory (nextOffset s.memory c + 8) (prevOffset s.memory c)) (c+4)) := by
  unfold RemoveFromFreeList
  dsimp only
  rw [if_pos (by simpa using hhead), if_neg (by simpa using hne)]
  exact ⟨rfl, rfl⟩

/-- `RemoveFromFreeList` when the chunk is not the bin head: raw form. -/
theorem RemoveFromFreeList_linked_mid (s : AllocState) (c : Nat)
    (hnh : ¬ s.bins.getD (GetIndex (GetSize s.memory c)) 0 = c) :
    (RemoveFromFreeList s c).bins = s.bins ∧
    (RemoveFromFreeList s c).memory =
      write32 (write32 s.memory (nextOffset s.memory c + 8) (prevOffset s.memory c))
        (read32 (write32 s.memory (nextOffset s.memory c + 8) (prevOffset s.memory c)) (c+8) + 4)
        (read32 (write32 s.memory (nextOffset s.memory c + 8) (prevOffset s.memory c)) (c+4)) := by
  unfold RemoveFromFreeList
  dsimp only
  rw [if_neg (by simpa using hnh)]
  exact ⟨rfl, rfl⟩

/-- `RemoveFromFreeList` of the only chunk of its bin: the bin empties and
the two writes put back the values already there. -/
theorem RemoveFromFreeList_singleton (s : AllocState) (c : Nat)
    (hself : nextOffset s.memory c = c)
    (hpself : prevOffset s.memory c = c)
    (hhead : s.bins.getD (GetIndex (GetSize s.memory c)) 0 = c)
    (hbytes : ∀ x ∈ s.memory, x < 256) :
    (RemoveFromFreeList s c).bins =
      s.bins.set (GetIndex (GetSize s.memory c)) InvalidSize ∧
    (RemoveFromFreeList s c).memory = s.memory := by
  unfold RemoveFromFreeList
  dsimp only
  rw [if_pos (by simpa using hhead), if_pos (by simpa using hself)]
  refine ⟨rfl, ?_⟩
  show write32
      (write32 s.memory (read32 s.memory (c+4) + 8) (read32 s.memory (c+8)))
      (read32 (write32 s.memory (read32 s.memory (c+4) + 8) (read32 s.memory (c+8))) (c+8) + 4)
      (read32 (write32 s.memory (read32 s.memory (c+4) + 8) (read32 s.memory (c+8))) (c+4)) =
    s.memory
  have h1 : read32 s.memory (c+4) = c := hself
  have h2 : read32 s.memory (c+8) = c := hpself
  rw [h1, write32_read32_roundtrip s.memory (c+8) hbytes, h2,
    write32_read32_roundtrip s.memory (c+4) hbytes]

theorem getD_set_self (l : List Nat) (i a d : Nat) (h : i < l.length) :
    (l.set i a).getD i d = a := by
  rw [List.getD_eq_getElem?_getD, List.getElem?_set_self h]
  rfl

/-- Effect of `RemoveFromFreeList` on the head of a bin holding at least
two chunks: the bin head moves to the next chunk, the cycle is re-closed
around the removed head, and only two link fields are written. -/
theorem RemoveFromFreeList_head (s : AllocState) (c b : Nat) (v : List Nat)
    (hb : GetIndex (GetSize s.memory c) = b)
    (hblen : b < s.bins.length)
    (hlb : binList s b = some (c :: v))
    (hvne : v ≠ [])
    (hbytes : ∀ x ∈ s.memory, x < 256)
    (hlen32 : s.memory.length < 2^32)
    (hbound : ∀ x ∈ c :: v, x + 16 ≤ s.memory.length)
    (hnd : (c :: v).Nodup)
    (hpair : (c :: v).Pairwise (fun x y => x + 16 ≤ y ∨ y + 16 ≤ x))
    (hprev : List.Chain' (fun x y => prevOffset s.memory y = x) ((c :: v) ++ [c])) :
    (RemoveFromFreeList s c).bins = s.bins.set b (nextOffset s.memory c) ∧
    (∀ i, (i < nextOffset s.memory c + 8 ∨ nextOffset s.memory c + 12 ≤ i) →
      (i < prevOffset s.memory c + 4 ∨ prevOffset s.memory c + 8 ≤ i) →
      getByte (RemoveFromFreeList s c).memory i = getByte s.memory i) ∧
    (RemoveFromFreeList s c).memory.length = s.memory.length ∧
    binList (RemoveFromFreeList s c) b = some v ∧
    List.Chain' (fun x y => prevOffset (RemoveFromFreeList s c).memory y = x)
      (v ++ v.take 1) := by
  obtain ⟨n1, v', rfl⟩ : ∃ n1 v', v = n1 :: v' := by
    rcases v with _ | ⟨n1, v'⟩
    · exact absurd rfl hvne
    · exact ⟨n1, v', rfl⟩
  set m := s.memory with hm
  have hlbne : ¬ s.bins.getD b 0 = InvalidSize := by
    intro h
    unfold binList at hlb
    rw [if_pos h] at hlb
    simp at hlb
  have hlbF : binListFrom m (s.bins.getD b 0) (m.length+1) (s.bins.getD b 0) =
      some (c :: n1 :: v') := by
    unfold binList at hlb
    rw [if_neg hlbne] at hlb
    exact hlb
  have hstart : s.bins.getD b 0 = c := by
    have h := binListFrom_head _ _ _ _ _ hlbF
    simpa using h.symm
  rw [hstart] at hlbF
  obtain ⟨hchain, hlast0, htail_ne, hlen_le⟩ := binListFrom_struct m c _ _ _ hlbF
  have hnxt : nextOffset m c = n1 := (List.chain'_cons.1 hchain).1
  have hprvne : (n1 :: v') ≠ [] := by simp
  have hprvmem0 : (n1 :: v').getLast hprvne ∈ n1 :: v' := List.getLast_mem _
  have hgl : (n1 :: v').getLast? = some ((n1 :: v').getLast hprvne) :=
    List.getLast?_eq_getLast _ hprvne
  have hprv : prevOffset m c = (n1 :: v').getLast hprvne := by
    obtain ⟨h1, h2, hj⟩ := List.chain'_append.1 hprev
    refine hj _ ?_ c (by simp)
    rw [List.getLast?_cons_cons]
    exact hgl
  set prv := (n1 :: v').getLast hprvne with hprvdef
  have hcnotin : c ∉ n1 :: v' := (List.nodup_cons.1 hnd).1
  have hnd' : (n1 :: v').Nodup := (List.nodup_cons.1 hnd).2
  have hsymm : Symmetric (fun x y : Nat => x + 16 ≤ y ∨ y + 16 ≤ x) :=
    fun x y h => Or.symm h
  have hcb : c + 16 ≤ m.length := hbound c (by simp)
  have hn1b : n1 + 16 ≤ m.length := hbound n1 (by simp)
  have hprvb : prv + 16 ≤ m.length := hbound prv (List.mem_cons_of_mem _ hprvmem0)
  have hsep_cn1 : c + 16 ≤ n1 ∨ n1 + 16 ≤ c := by
    refine List.Pairwise.forall hsymm hpair (by simp) (by simp) ?_
    intro h
    exact hcnotin (h ▸ List.mem_cons_self n1 v')
  have hsep_cprv : c + 16 ≤ prv ∨ prv + 16 ≤ c := by
    refine List.Pairwise.forall hsymm hpair (by simp)
      (List.mem_cons_of_mem _ hprvmem0) ?_
    intro h
    exact hcnotin (h ▸ hprvmem0)
  have hsep_prvn1 : prv = n1 ∨ (prv + 16 ≤ n1 ∨ n1 + 16 ≤ prv) := by
    by_cases h : prv = n1
    · exact Or.inl h
    · exact Or.inr (List.Pairwise.forall hsymm hpair
        (List.mem_cons_of_mem _ hprvmem0) (by simp) h)
  have hnec : ¬ nextOffset m c = c := by
    rw [hnxt]
    rcases hsep_cn1 with h | h <;> omega
  have hhead_cond : s.bins.getD (GetIndex (GetSize m c)) 0 = c := by rw [hb]; exact hstart
  obtain ⟨hbins, hmemRaw⟩ := RemoveFromFreeList_linked s c hnec hhead_cond
  rw [hb] at hbins
  rw [hnxt] at hmemRaw
  have hr1 : read32 (write32 m (n1 + 8) (prevOffset m c)) (c+8) = prv := by
    rw [read32_write32_of_disjoint _ _ _ _ (by rcases hsep_cn1 with h | h <;> omega)]
    exact hprv
  have hr2 : read32 (write32 m (n1 + 8) (prevOffset m c)) (c+4) = n1 := by
    rw [read32_write32_of_disjoint _ _ _ _ (by rcases hsep_cn1 with h | h <;> omega)]
    exact hnxt
  rw [hr1, hr2, hprv] at hmemRaw
  have hmem : (RemoveFromFreeList s c).memory =
      write32 (write32 m (n1 + 8) prv) (prv + 4) n1 := hmemRaw
  have hn1lt : n1 < 2^32 := by omega
  have hprvlt : prv < 2^32 := by omega
  have hv_next_prv : nextOffset (RemoveFromFreeList s c).memory prv = n1 := by
    rw [hmem]
    unfold nextOffset
    rw [read32_write32_self _ _ _ (by rw [length_write32]; omega)]
    omega
  have hv_next_other : ∀ x ∈ c :: n1 :: v', x ≠ prv →
      nextOffset (RemoveFromFreeList s c).memory x = nextOffset m x := by
    intro x hx hxne
    have hxb : x + 16 ≤ m.length := hbound x hx
    have hxprv : x + 16 ≤ prv ∨ prv + 16 ≤ x := by
      refine List.Pairwise.forall hsymm hpair hx (List.mem_cons_of_mem _ hprvmem0) hxne
    have hxn1 : x = n1 ∨ (x + 16 ≤ n1 ∨ n1 + 16 ≤ x) := by
      by_cases h : x = n1
      · exact Or.inl h
      · exact Or.inr (List.Pairwise.forall hsymm hpair hx (by simp) h)
    rw [hmem]
    unfold nextOffset
    rw [read32_write32_of_disjoint _ _ _ _ (by rcases hxprv with h | h <;> omega),
        read32_write32_of_disjoint _ _ _ _ (by rcases hxn1 with rfl | h | h <;> omega)]
  have hv_prev_n1 : prevOffset (RemoveFromFreeList s c).memory n1 = prv := by
    rw [hmem]
    unfold prevOffset
    rw [read32_write32_of_disjoint _ _ _ _
        (by rcases hsep_prvn1 with h | h | h <;> omega),
      read32_write32_self _ _ _ (by omega)]
    omega
  have hv_prev_other : ∀ x ∈ c :: n1 :: v', x ≠ n1 →
      prevOffset (RemoveFromFreeList s c).memory x = prevOffset m x := by
    intro x hx hxne
    have hxb : x + 16 ≤ m.length := hbound x hx
    have hxn1 : x + 16 ≤ n1 ∨ n1 + 16 ≤ x :=
      List.Pairwise.forall hsymm hpair hx (by simp) hxne
    have hxprv : x = prv ∨ (x + 16 ≤ prv ∨ prv + 16 ≤ x) := by
      by_cases h : x = prv
      · exact Or.inl h
      · exact Or.inr (List.Pairwise.forall hsymm hpair hx
          (List.mem_cons_of_mem _ hprvmem0) h)
    rw [hmem]
    unfold prevOffset
    rw [read32_write32_of_disjoint _ _ _ _ (by rcases hxprv with rfl | h | h <;> omega),
        read32_write32_of_disjoint _ _ _ _ (by rcases hxn1 with h | h <;> omega)]
  have hlenB : (RemoveFromFreeList s c).memory.length = m.length := by
    rw [hmem]
    simp [length_write32]
  have hprv_not_dl : prv ∉ (n1 :: v').dropLast :=
    nodup_getLast_not_mem_dropLast _ _ hnd' hgl
  refine ⟨hbins, ?_, hlenB, ?_, ?_⟩
  · intro i hi1 hi2
    rw [hnxt] at hi1
    rw [hprv] at hi2
    rw [hmem]
    rw [getByte_write32_of_ne _ _ _ _ (by omega),
        getByte_write32_of_ne _ _ _ _ (by omega)]
  · unfold binList
    have hget : (RemoveFromFreeList s c).bins.getD b 0 = n1 := by
      rw [hbins, hnxt]
      exact getD_set_self _ _ _ _ hblen
    rw [hget]
    have hn1ne : ¬ n1 = InvalidSize := by unfold InvalidSize; omega
    rw [if_neg hn1ne, hlenB]
    refine binListFrom_build _ _ _ _ (by simp) ?_ ?_ ?_ _ ?_
    · have hchain' : List.Chain' (fun x y => nextOffset m x = y) (n1 :: v') :=
        (List.chain'_cons.1 hchain).2
      refine chain'_congr_mem2 _ ?_ hchain'
      intro x hx y hy hxy
      rw [hv_next_other x (List.mem_cons_of_mem _ (List.dropLast_subset _ hx))
        (fun h => hprv_not_dl (h ▸ hx))]
      exact hxy
    · intro x hx
      obtain rfl : prv = x := by rw [hgl] at hx; simpa using hx
      exact hv_next_prv
    · intro x hx
      simp only [List.tail_cons] at hx
      intro habs
      subst habs
      exact (List.nodup_cons.1 hnd').1 hx
    · have : (c :: n1 :: v').length ≤ m.length + 1 := hlen_le
      simp only [List.length_cons] at this ⊢
      omega
  · refine List.chain'_append.2 ⟨?_, by simp, ?_⟩
    · have hprev2 : List.Chain' (fun x y => prevOffset m y = x) (n1 :: v') := by
        have h1 := (List.chain'_append.1 hprev).1
        exact (List.chain'_cons.1 h1).2
      refine chain'_congr_mem _ ?_ hprev2
      intro x hx y hy hxy
      simp only [List.tail_cons] at hy
      rw [hv_prev_other y (List.mem_cons_of_mem _ (List.mem_cons_of_mem _ hy))
        (fun h => (List.nodup_cons.1 hnd').1 (h ▸ hy))]
      exact hxy
    · intro x hx y hy
      simp only [List.take_succ_cons, List.take_zero] at hy
      obtain rfl : n1 = y := by simpa using hy
      obtain rfl : prv = x := by rw [hgl] at hx; simpa using hx
      exact hv_prev_n1

/-- Effect of `RemoveFromFreeList` on a non-head chunk of a bin: the bin
head stays, the cycle is re-closed around the removed chunk, and only two
link fields are written. -/
theorem RemoveFromFreeList_mid (s : AllocState) (c b u0 : Nat) (u v : List Nat)
    (hb : GetIndex (GetSize s.memory c) = b)
    (hlb : binList s b = some (u0 :: u ++ c :: v))
    (hbytes : ∀ x ∈ s.memory, x < 256)
    (hlen32 : s.memory.length < 2^32)
    (hbound : ∀ x ∈ u0 :: u ++ c :: v, x + 16 ≤ s.memory.length)
    (hnd : (u0 :: u ++ c :: v).Nodup)
    (hpair : (u0 :: u ++ c :: v).Pairwise (fun x y => x + 16 ≤ y ∨ y + 16 ≤ x))
    (hprev : List.Chain' (fun x y => prevOffset s.memory y = x)
      ((u0 :: u ++ c :: v) ++ [u0])) :
    (RemoveFromFreeList s c).bins = s.bins ∧
    (∀ i, (i < nextOffset s.memory c + 8 ∨ nextOffset s.memory c + 12 ≤ i) →
      (i < prevOffset s.memory c + 4 ∨ prevOffset s.memory c + 8 ≤ i) →
      getByte (RemoveFromFreeList s c).memory i = getByte s.memory i) ∧
    (RemoveFromFreeList s c).memory.length = s.memory.length ∧
    binList (RemoveFromFreeList s c) b = some (u0 :: u ++ v) ∧
    List.Chain' (fun x y => prevOffset (RemoveFromFreeList s c).memory y = x)
      ((u0 :: u ++ v) ++ [u0]) := by
  set m := s.memory with hm
  have hlbne : ¬ s.bins.getD b 0 = InvalidSize := by
    intro h
    unfold binList at hlb
    rw [if_pos h] at hlb
    simp at hlb
  have hlbF : binListFrom m (s.bins.getD b 0) (m.length+1) (s.bins.getD b 0) =
      some (u0 :: u ++ c :: v) := by
    unfold binList at hlb
    rw [if_neg hlbne] at hlb
    exact hlb
  have hstart : s.bins.getD b 0 = u0 := by
    have h := binListFrom_head _ _ _ _ _ hlbF
    simpa using h.symm
  rw [hstart] at hlbF
  obtain ⟨hchain, hlast0, htail_ne, hlen_le⟩ := binListFrom_struct m u0 _ _ _ hlbF
  -- nodup bookkeeping
  have hnd2 : ((u0 :: u) ++ (c :: v)).Nodup := by simpa using hnd
  obtain ⟨hndU, hndCV, hdisjU⟩ := List.nodup_append.1 hnd2
  have hcnotU : c ∉ u0 :: u := fun h => hdisjU h (by simp)
  have hcnotV : c ∉ v := (List.nodup_cons.1 hndCV).1
  have hndV : v.Nodup := (List.nodup_cons.1 hndCV).2
  -- the closed next-cycle
  have hcyc : List.Chain' (fun x y => nextOffset m x = y)
      ((u0 :: u ++ c :: v) ++ [u0]) := by
    refine List.chain'_append.2 ⟨hchain, by simp, ?_⟩
    intro x hx y hy
    obtain rfl : u0 = y := by simpa using hy
    exact hlast0 x hx
  have hcycA : List.Chain' (fun x y => nextOffset m x = y)
      ((u0 :: u) ++ (c :: (v ++ [u0]))) := by
    have : (u0 :: u ++ c :: v) ++ [u0] = (u0 :: u) ++ (c :: (v ++ [u0])) := by
      simp [List.append_assoc]
    rwa [this] at hcyc
  have hprevA : List.Chain' (fun x y => prevOffset m y = x)
      ((u0 :: u) ++ (c :: (v ++ [u0]))) := by
    have : (u0 :: u ++ c :: v) ++ [u0] = (u0 :: u) ++ (c :: (v ++ [u0])) := by
      simp [List.append_assoc]
    rwa [this] at hprev
  -- the removed chunk's two neighbours on the cycle
  have hWne : (v ++ [u0]) ≠ [] := by simp
  set nxt := (v ++ [u0]).head hWne with hnxtdef
  set prv := (u0 :: u).getLast (by simp) with hprvdef
  have hheadW : (v ++ [u0]).head? = some nxt := List.head?_eq_head _
  have hglU : (u0 :: u).getLast? = some prv := List.getLast?_eq_getLast _ (by simp)
  clear_value nxt prv
  clear hnxtdef hprvdef
  have hnxt : nextOffset m c = nxt := by
    have h1 : List.Chain' (fun x y => nextOffset m x = y) (c :: (v ++ [u0])) :=
      (List.chain'_append.1 hcycA).2.1
    have h2 := (List.chain'_cons'.1 h1).1
    exact h2 nxt (Option.mem_def.2 hheadW)
  have hprv : prevOffset m c = prv := by
    have hj := (List.chain'_append.1 hprevA).2.2
    exact hj prv (Option.mem_def.2 hglU) c (by simp)
  -- memberships and bounds
  have hprvmem : prv ∈ u0 :: u := by
    rcases List.mem_getLast?_eq_getLast hglU with ⟨hh, hx2⟩
    rw [hx2]
    exact List.getLast_mem hh
  have hnxtmemW : nxt ∈ v ++ [u0] := List.mem_of_mem_head? (Option.mem_def.2 hheadW)
  have hnxtmem : nxt ∈ u0 :: u ++ c :: v := by
    rcases List.mem_append.1 hnxtmemW with h | h
    · exact List.mem_cons_of_mem _ (List.mem_append_right _ (List.mem_cons_of_mem _ h))
    · have hnu : nxt = u0 := by simpa using h
      rw [hnu]
      exact List.mem_cons_self _ _
  have hprvmem' : prv ∈ u0 :: u ++ c :: v := by
    rcases List.mem_cons.1 hprvmem with h | h
    · rw [h]; exact List.mem_cons_self _ _
    · exact List.mem_cons_of_mem _ (List.mem_append_left _ h)
  have hcmem : c ∈ u0 :: u ++ c :: v :=
    List.mem_cons_of_mem _ (List.mem_append_right _ (List.mem_cons_self _ _))
  have hsymm : Symmetric (fun x y : Nat => x + 16 ≤ y ∨ y + 16 ≤ x) :=
    fun x y h => Or.symm h
  have hcb : c + 16 ≤ m.length := hbound c hcmem
  have hnxtb : nxt + 16 ≤ m.length := hbound nxt hnxtmem
  have hprvb : prv + 16 ≤ m.length := hbound prv hprvmem'
  have hcnenxt : c ≠ nxt := by
    intro h
    rcases List.mem_append.1 hnxtmemW with h2 | h2
    · exact hcnotV (by rw [h]; exact h2)
    · have hnu : nxt = u0 := by simpa using h2
      exact hcnotU (by rw [h, hnu]; exact List.mem_cons_self _ _)
  have hcneprv : c ≠ prv := fun h => hcnotU (by rw [h]; exact hprvmem)
  have hsep_cnxt : c + 16 ≤ nxt ∨ nxt + 16 ≤ c :=
    List.Pairwise.forall hsymm hpair hcmem hnxtmem hcnenxt
  have hsep_cprv : c + 16 ≤ prv ∨ prv + 16 ≤ c :=
    List.Pairwise.forall hsymm hpair hcmem hprvmem' hcneprv
  have hsep_prvnxt : prv = nxt ∨ (prv + 16 ≤ nxt ∨ nxt + 16 ≤ prv) := by
    by_cases h : prv = nxt
    · exact Or.inl h
    · exact Or.inr (List.Pairwise.forall hsymm hpair hprvmem' hnxtmem h)
  -- the two raw writes
  have hnothead : ¬ s.bins.getD (GetIndex (GetSize m c)) 0 = c := by
    rw [hb, hstart]
    intro h
    exact hcnotU (by rw [← h]; exact List.mem_cons_self _ _)
  obtain ⟨hbins, hmemRaw⟩ := RemoveFromFreeList_linked_mid s c hnothead
  rw [hnxt] at hmemRaw
  have hr1 : read32 (write32 m (nxt + 8) (prevOffset m c)) (c+8) = prv := by
    rw [read32_write32_of_disjoint _ _ _ _ (by rcases hsep_cnxt with h | h <;> omega)]
    exact hprv
  have hr2 : read32 (write32 m (nxt + 8) (prevOffset m c)) (c+4) = nxt := by
    rw [read32_write32_of_disjoint _ _ _ _ (by rcases hsep_cnxt with h | h <;> omega)]
    exact hnxt
  rw [hr1, hr2, hprv] at hmemRaw
  have hmem : (RemoveFromFreeList s c).memory =
      write32 (write32 m (nxt + 8) prv) (prv + 4) nxt := hmemRaw
  have hnxtlt : nxt < 2^32 := by omega
  have hprvlt : prv < 2^32 := by omega
  -- field values after the writes
  have hv_next_prv : nextOffset (RemoveFromFreeList s c).memory prv = nxt := by
    rw [hmem]
    unfold nextOffset
    rw [read32_write32_self _ _ _ (by rw [length_write32]; omega)]
    omega
  have hv_next_other : ∀ x ∈ u0 :: u ++ c :: v, x ≠ prv →
      nextOffset (RemoveFromFreeList s c).memory x = nextOffset m x := by
    intro x hx hxne
    have hxb : x + 16 ≤ m.length := hbound x hx
    have hxprv : x + 16 ≤ prv ∨ prv + 16 ≤ x :=
      List.Pairwise.forall hsymm hpair hx hprvmem' hxne
    have hxnxt : x = nxt ∨ (x + 16 ≤ nxt ∨ nxt + 16 ≤ x) := by
      by_cases h : x = nxt
      · exact Or.inl h
      · exact Or.inr (List.Pairwise.forall hsymm hpair hx hnxtmem h)
    rw [hmem]
    unfold nextOffset
    rw [read32_write32_of_disjoint _ _ _ _ (by rcases hxprv with h | h <;> omega),
        read32_write32_of_disjoint _ _ _ _ (by rcases hxnxt with h | h | h <;> omega)]
  have hv_prev_nxt : prevOffset (RemoveFromFreeList s c).memory nxt = prv := by
    rw [hmem]
    unfold prevOffset
    rw [read32_write32_of_disjoint _ _ _ _
        (by rcases hsep_prvnxt with h | h | h <;> omega),
      read32_write32_self _ _ _ (by omega)]
    omega
  have hv_prev_other : ∀ x ∈ u0 :: u ++ c :: v, x ≠ nxt →
      prevOffset (RemoveFromFreeList s c).memory x = prevOffset m x := by
    intro x hx hxne
    have hxb : x + 16 ≤ m.length := hbound x hx
    have hxnxt : x + 16 ≤ nxt ∨ nxt + 16 ≤ x :=
      List.Pairwise.forall hsymm hpair hx hnxtmem hxne
    have hxprv : x = prv ∨ (x + 16 ≤ prv ∨ prv + 16 ≤ x) := by
      by_cases h : x = prv
      · exact Or.inl h
      · exact Or.inr (List.Pairwise.forall hsymm hpair hx hprvmem' h)
    rw [hmem]
    unfold prevOffset
    rw [read32_write32_of_disjoint _ _ _ _ (by rcases hxprv with h | h | h <;> omega),
        read32_write32_of_disjoint _ _ _ _ (by rcases hxnxt with h | h <;> omega)]
  have hlenB : (RemoveFromFreeList s c).memory.length = m.length := by
    rw [hmem]
    simp [length_write32]
  have hprv_not_dlU : prv ∉ (u0 :: u).dropLast :=
    nodup_getLast_not_mem_dropLast _ _ hndU hglU
  refine ⟨hbins, ?_, hlenB, ?_, ?_⟩
  · intro i hi1 hi2
    rw [hnxt] at hi1
    rw [hprv] at hi2
    rw [hmem]
    rw [getByte_write32_of_ne _ _ _ _ (by omega),
        getByte_write32_of_ne _ _ _ _ (by omega)]
  · unfold binList
    have hget : (RemoveFromFreeList s c).bins.getD b 0 = u0 := by rw [hbins]; exact hstart
    rw [hget]
    have hu0ne : ¬ u0 = InvalidSize := by
      have := hbound u0 (by simp)
      unfold InvalidSize
      omega
    rw [if_neg hu0ne, hlenB]
    have hgoal : (u0 :: u ++ v) = (u0 :: u) ++ v := by simp
    refine binListFrom_build _ _ _ _ (by simp) ?_ ?_ ?_ _ ?_
    · -- next chain on the shortened list
      rw [hgoal]
      refine List.chain'_append.2 ⟨?_, ?_, ?_⟩
      · have hchainU : List.Chain' (fun x y => nextOffset m x = y) (u0 :: u) :=
          (List.chain'_append.1 hcycA).1
        refine chain'_congr_mem2 _ ?_ hchainU
        intro x hx y hy hxy
        rw [hv_next_other x (by
            rcases List.mem_cons.1 (List.dropLast_subset _ hx) with h | h
            · rw [h]; exact List.mem_cons_self _ _
            · exact List.mem_cons_of_mem _ (List.mem_append_left _ h))
          (fun h => hprv_not_dlU (h ▸ hx))]
        exact hxy
      · have hchainCV : List.Chain' (fun x y => nextOffset m x = y) (c :: v) :=
          (List.chain'_append.1 hchain).2.1
        have hchainV : List.Chain' (fun x y => nextOffset m x = y) v :=
          (List.chain'_cons'.1 hchainCV).2
        refine chain'_congr_mem _ ?_ hchainV
        intro x hx y hy hxy
        rw [hv_next_other x
          (List.mem_cons_of_mem _ (List.mem_append_right _ (List.mem_cons_of_mem _ hx)))
          (fun h => hdisjU (show x ∈ u0 :: u by rw [h]; exact hprvmem)
            (List.mem_cons_of_mem _ hx))]
        exact hxy
      · -- junction: the predecessor now links to the removed chunk's successor
        intro x hx y hy
        obtain rfl : prv = x := by rw [hglU] at hx; simpa using hx
        have hynxt : y = nxt := by
          have h2 : (v ++ [u0]).head? = some y := by
            have hy' : v.head? = some y := by simpa using hy
            cases v with
            | nil => simp at hy'
            | cons a t => simpa using hy'
          rw [hheadW] at h2
          simpa using h2.symm
        rw [hynxt]
        exact hv_next_prv
    · -- the last element links back to the head
      intro x hx
      cases v with
      | nil =>
        have hnu : nxt = u0 := by simpa using hheadW.symm
        have hxprv : x = prv := by
          rw [show (u0 :: u ++ ([] : List Nat)) = u0 :: u by simp] at hx
          rw [hglU] at hx
          simpa using hx.symm
        rw [hxprv, hv_next_prv, hnu]
      | cons y1 ys =>
        have hxlast : (y1 :: ys).getLast? = some x := by
          have hsome := List.getLast?_eq_getLast (y1 :: ys) (by simp)
          rw [show (u0 :: u ++ y1 :: ys) = (u0 :: u) ++ (y1 :: ys) by simp,
            List.getLast?_append, hsome] at hx
          rw [hsome]
          simpa using hx
        have hxmemV : x ∈ y1 :: ys := by
          rcases List.mem_getLast?_eq_getLast hxlast with ⟨hh, hx2⟩
          rw [hx2]
          exact List.getLast_mem hh
        have hxne_prv : x ≠ prv := fun h =>
          hdisjU (show x ∈ u0 :: u by rw [h]; exact hprvmem)
            (List.mem_cons_of_mem _ hxmemV)
        rw [hv_next_other x
          (List.mem_cons_of_mem _ (List.mem_append_right _ (List.mem_cons_of_mem _ hxmemV)))
          hxne_prv]
        refine hlast0 x ?_
        rw [show (u0 :: u ++ c :: y1 :: ys) = (u0 :: u ++ [c]) ++ (y1 :: ys) by simp,
          List.getLast?_append, hxlast]
        rfl
    · -- no later element equals the head
      intro x hx
      simp only [List.tail_cons] at hx
      have hu0nd := List.nodup_cons.1 hnd
      intro habs
      refine hu0nd.1 ?_
      rw [← habs]
      rcases List.mem_append.1 hx with h | h
      · exact List.mem_append_left _ h
      · exact List.mem_append_right _ (List.mem_cons_of_mem _ h)
    · have : (u0 :: u ++ c :: v).length ≤ m.length + 1 := hlen_le
      simp only [List.length_cons, List.length_append] at this ⊢
      omega
  · -- the prev cycle of the shortened list
    have hgoal : (u0 :: u ++ v) ++ [u0] = (u0 :: u) ++ (v ++ [u0]) := by
      simp [List.append_assoc]
    rw [hgoal]
    refine List.chain'_append.2 ⟨?_, ?_, ?_⟩
    · have hprevU : List.Chain' (fun x y => prevOffset m y = x) (u0 :: u) :=
        (List.chain'_append.1 hprevA).1
      refine chain'_congr_mem _ ?_ hprevU
      intro x hx y hy hxy
      simp only [List.tail_cons] at hy
      have hymem : y ∈ u0 :: u ++ c :: v :=
        List.mem_cons_of_mem _ (List.mem_append_left _ hy)
      have hyne : y ≠ nxt := by
        intro h
        rcases List.mem_append.1 hnxtmemW with h2 | h2
        · exact hdisjU (List.mem_cons_of_mem _ hy)
            (by rw [h]; exact List.mem_cons_of_mem _ h2)
        · have hnu : nxt = u0 := by simpa using h2
          exact (List.nodup_cons.1 hndU).1 (by rw [← hnu, ← h]; exact hy)
      rw [hv_prev_other y hymem hyne]
      exact hxy
    · have hprevCW : List.Chain' (fun x y => prevOffset m y = x) (c :: (v ++ [u0])) :=
        (List.chain'_append.1 hprevA).2.1
      have hprevW : List.Chain' (fun x y => prevOffset m y = x) (v ++ [u0]) :=
        (List.chain'_cons'.1 hprevCW).2
      refine chain'_congr_mem _ ?_ hprevW
      intro x hx y hy hxy
      have hndW : (v ++ [u0]).Nodup := by
        rw [List.nodup_append]
        refine ⟨hndV, by simp, ?_⟩
        intro a ha hb
        have hau : a = u0 := by simpa using hb
        refine (List.nodup_cons.1 hnd).1 ?_
        rw [← hau]
        exact List.mem_append_right _ (List.mem_cons_of_mem _ ha)
      have hyne : y ≠ nxt := by
        have hhead_not_tail : nxt ∉ (v ++ [u0]).tail := by
          have hsplit : nxt :: (v ++ [u0]).tail = v ++ [u0] :=
            List.cons_head?_tail (Option.mem_def.2 hheadW)
          intro habs
          rw [← hsplit] at hndW
          exact (List.nodup_cons.1 hndW).1 habs
        intro h
        exact hhead_not_tail (by rw [← h]; exact hy)
      have hymem : y ∈ u0 :: u ++ c :: v := by
        rcases List.mem_append.1 (List.tail_subset _ hy) with h | h
        · exact List.mem_cons_of_mem _ (List.mem_append_right _ (List.mem_cons_of_mem _ h))
        · have hyu : y = u0 := by simpa using h
          rw [hyu]
          exact List.mem_cons_self _ _
      rw [hv_prev_other y hymem hyne]
      exact hxy
    · intro x hx y hy
      obtain rfl : prv = x := by rw [hglU] at hx; simpa using hx
      have hynxt : y = nxt := by
        rw [hheadW] at hy
        simpa using hy.symm
      rw [hynxt]
      exact hv_prev_nxt


/-- The chunk walk's offsets are strictly increasing by whole chunk areas. -/
theorem walk_pairwise : ∀ (l : List (Nat × Nat)),
    List.Chain' (fun p q : Nat × Nat => p.1 + p.2 = q.1) l →
    l.Pairwise (fun p q : Nat × Nat => p.1 + p.2 ≤ q.1) := by
  intro l
  induction l with
  | nil => intro _; simp
  | cons a t ih =>
    intro hch
    rcases t with _ | ⟨b, t'⟩
    · simp
    · obtain ⟨hab, hrest⟩ := List.chain'_cons.1 hch
      have hpw := ih hrest
      rw [List.pairwise_cons]
      refine ⟨?_, hpw⟩
      intro x hx
      rcases List.mem_cons.1 hx with rfl | hx'
      · omega
      · have := (List.pairwise_cons.1 hpw).1 x hx'
        omega

/-- Distinct chunks of the walk are at least a whole chunk area apart. -/
theorem walk_sep (l : List (Nat × Nat))
    (hpw : l.Pairwise (fun p q : Nat × Nat => p.1 + p.2 ≤ q.1))
    (hsz : ∀ p ∈ l, 16 ≤ p.2) :
    ∀ p ∈ l, ∀ q ∈ l, p ≠ q →
      (p.1 + p.2 ≤ q.1 ∧ p.1 + 16 ≤ q.1) ∨ (q.1 + q.2 ≤ p.1 ∧ q.1 + 16 ≤ p.1) := by
  have hsymm : Symmetric (fun p q : Nat × Nat =>
      (p.1 + p.2 ≤ q.1 ∧ p.1 + 16 ≤ q.1) ∨ (q.1 + q.2 ≤ p.1 ∧ q.1 + 16 ≤ p.1)) :=
    fun p q h => Or.symm h
  intro p hp q hq hne
  refine List.Pairwise.forall hsymm ?_ hp hq hne
  refine List.Pairwise.imp_of_mem ?_ hpw
  intro a b ha hb hab
  left
  exact ⟨hab, by have := hsz a ha; omega⟩

/-- A duplicate-free list of free-chunk offsets of the walk is pairwise
16-separated. -/
theorem bin_pairwise_sep (l : List (Nat × Nat)) (lb : List Nat)
    (hsep : ∀ p ∈ l, ∀ q ∈ l, p ≠ q →
      (p.1 + p.2 ≤ q.1 ∧ p.1 + 16 ≤ q.1) ∨ (q.1 + q.2 ≤ p.1 ∧ q.1 + 16 ≤ p.1))
    (hmem : ∀ c ∈ lb, ∃ sz, (c, sz) ∈ l)
    (hnd : lb.Nodup) :
    lb.Pairwise (fun x y => x + 16 ≤ y ∨ y + 16 ≤ x) := by
  induction lb with
  | nil => simp
  | cons a t ih =>
    rw [List.pairwise_cons]
    obtain ⟨hna, hndt⟩ := List.nodup_cons.1 hnd
    refine ⟨?_, ih (fun c hc => hmem c (List.mem_cons_of_mem _ hc)) hndt⟩
    intro y hy
    obtain ⟨sa, hsa⟩ := hmem a (List.mem_cons_self _ _)
    obtain ⟨sy, hsy⟩ := hmem y (List.mem_cons_of_mem _ hy)
    have hane : a ≠ y := fun h => hna (h ▸ hy)
    have hpne : (a, sa) ≠ (y, sy) := fun h => hane (congrArg Prod.fst h)
    rcases hsep (a, sa) hsa (y, sy) hsy hpne with ⟨h1, h2⟩ | ⟨h1, h2⟩
    · left; exact h2
    · right; exact h2

/-- In a terminating circular bin traversal, every element's `nextOffset`
is again an element. -/
theorem cycle_next_mem (m : List Nat) (lb : List Nat) (h0 : Nat)
    (hhead : lb.head? = some h0)
    (hchain : List.Chain' (fun x y => nextOffset m x = y) lb)
    (hlast : ∀ x, lb.getLast? = some x → nextOffset m x = h0) :
    ∀ x ∈ lb, nextOffset m x ∈ lb := by
  intro x hx
  obtain ⟨u, v, rfl⟩ := List.append_of_mem hx
  have hh0mem : h0 ∈ u ++ x :: v := by
    rcases u with _ | ⟨a, u'⟩
    · obtain rfl : x = h0 := by simpa using hhead
      simp
    · obtain rfl : a = h0 := by simpa using hhead
      simp
  rcases v with _ | ⟨y1, ys⟩
  · have hgl : (u ++ [x]).getLast? = some x := by
      rw [List.getLast?_append, List.getLast?_singleton]
      rfl
    rw [hlast x hgl]
    exact hh0mem
  · have hch2 : List.Chain' (fun a b => nextOffset m a = b) (x :: y1 :: ys) :=
      (List.chain'_append.1 hchain).2.1
    rw [(List.chain'_cons.1 hch2).1]
    exact List.mem_append_right _ (List.mem_cons_of_mem _ (List.mem_cons_self _ _))

/-- In a closed back-link cycle, every element's `prevOffset` is again an
element. -/
theorem cycle_prev_mem (m : List Nat) (lb : List Nat) (h0 : Nat)
    (hhead : lb.head? = some h0)
    (hprev : List.Chain' (fun x y => prevOffset m y = x) (lb ++ lb.take 1)) :
    ∀ y ∈ lb, prevOffset m y ∈ lb := by
  intro y hy
  obtain ⟨t, rfl⟩ : ∃ t, lb = h0 :: t := by
    rcases lb with _ | ⟨a, t⟩
    · simp at hhead
    · have ha : a = h0 := by simpa using hhead
      exact ⟨t, by rw [ha]⟩
  rcases List.mem_cons.1 hy with rfl | hyt
  · -- y is the head: its predecessor is the closing junction, the last element
    have hj := (List.chain'_append.1 hprev).2.2
    have hgl : (y :: t).getLast? = some ((y :: t).getLast (by simp)) :=
      List.getLast?_eq_getLast _ (by simp)
    have := hj _ (Option.mem_def.2 hgl) y (by simp)
    rw [this]
    exact List.getLast_mem _
  · obtain ⟨u, v, rfl⟩ := List.append_of_mem hyt
    have hre : (h0 :: (u ++ y :: v)) ++ (h0 :: (u ++ y :: v)).take 1 =
        (h0 :: u) ++ (y :: (v ++ [h0])) := by
      simp [List.append_assoc]
    rw [hre] at hprev
    have hj := (List.chain'_append.1 hprev).2.2
    have hgl : (h0 :: u).getLast? = some ((h0 :: u).getLast (by simp)) :=
      List.getLast?_eq_getLast _ (by simp)
    have := hj _ (Option.mem_def.2 hgl) y (by simp)
    rw [this]
    have := List.getLast_mem (l := h0 :: u) (by simp)
    rcases List.mem_cons.1 this with h | h
    · rw [h]; exact List.mem_cons_self _ _
    · exact List.mem_cons_of_mem _ (List.mem_append_left _ h)

/-- `read32` only depends on the four bytes it reads. -/
theorem read32_congr (m m' : List Nat) (i : Nat)
    (h : ∀ j, i ≤ j → j < i + 4 → getByte m' j = getByte m j) :
    read32 m' i = read32 m i := by
  unfold read32
  rw [h i (by omega) (by omega), h (i+1) (by omega) (by omega),
    h (i+2) (by omega) (by omega), h (i+3) (by omega) (by omega)]

/-- Every chunk of the walk is followed by another chunk of the walk or
runs to the end of the pool. -/
theorem walk_next_cover (L : Nat) : ∀ (l : List (Nat × Nat)),
    List.Chain' (fun p q : Nat × Nat => p.1 + p.2 = q.1) l →
    (∀ p, l.getLast? = some p → L ≤ p.1 + p.2) →
    ∀ p ∈ l, (∃ q ∈ l, q.1 = p.1 + p.2) ∨ L ≤ p.1 + p.2 := by
  intro l
  induction l with
  | nil => intro _ _ p hp; simp at hp
  | cons a t ih =>
    intro hch hlast p hp
    rcases List.mem_cons.1 hp with rfl | hpt
    · rcases t with _ | ⟨b, t'⟩
      · right
        exact hlast p (by simp)
      · left
        refine ⟨b, by simp, ?_⟩
        exact ((List.chain'_cons.1 hch).1).symm
    · rcases t with _ | ⟨b, t'⟩
      · simp at hpt
      · have hch' := (List.chain'_cons.1 hch).2
        have hlast' : ∀ q, (b :: t').getLast? = some q → L ≤ q.1 + q.2 := by
          intro q hq
          exact hlast q (by rw [List.getLast?_cons_cons]; exact hq)
        rcases ih hch' hlast' p hpt with ⟨q, hq, hqe⟩ | h
        · exact Or.inl ⟨q, List.mem_cons_of_mem _ hq, hqe⟩
        · exact Or.inr h

/-- Elements of `l ++ l.take 1` are elements of `l`. -/
theorem mem_append_take1 {α : Type} (l : List α) (x : α) (h : x ∈ l ++ l.take 1) : x ∈ l := by
  rcases List.mem_append.1 h with h | h
  · exact h
  · exact List.mem_of_mem_take h

theorem getD_set_ne (l : List Nat) (i j a d : Nat) (h : i ≠ j) :
    (l.set i a).getD j d = l.getD j d := by
  rw [List.getD_eq_getElem?_getD, List.getD_eq_getElem?_getD, List.getElem?_set_ne h]

/-- `IsSelfUsed` agrees on two states that agree on the walk's headers. -/
theorem IsSelfUsed_frame (s s1 : AllocState) (l : List (Nat × Nat))
    (hlen : s1.memory.length = s.memory.length)
    (hfp : s1.finalPrevIsUsed = s.finalPrevIsUsed)
    (hsz : ∀ p ∈ l, GetSize s1.memory p.1 = GetSize s.memory p.1)
    (hbit : ∀ p ∈ l, IsPrevUsed s1.memory p.1 = IsPrevUsed s.memory p.1)
    (hsz0 : ∀ p ∈ l, p.2 = GetSize s.memory p.1)
    (hcover : ∀ p ∈ l, (∃ q ∈ l, q.1 = p.1 + p.2) ∨ s.memory.length ≤ p.1 + p.2) :
    ∀ p ∈ l, IsSelfUsed s1 p.1 = IsSelfUsed s p.1 := by
  intro p hp
  unfold IsSelfUsed NextChunk
  dsimp only
  rw [hsz p hp, hlen]
  by_cases hend : s.memory.length ≤ p.1 + GetSize s.memory p.1
  · rw [if_pos hend]
    exact hfp
  · rw [if_neg hend]
    rcases hcover p hp with ⟨q, hq, hqe⟩ | h
    · have : p.1 + GetSize s.memory p.1 = q.1 := by rw [← hsz0 p hp]; omega
      rw [this]
      exact hbit q hq
    · exfalso
      rw [← hsz0 p hp] at hend
      omega

/-- A bin traversal is unchanged when the head and the members' link
fields are unchanged. -/
theorem binList_congr (s s1 : AllocState) (b : Nat) (lb : List Nat)
    (hlb : binList s b = some lb)
    (hhead : s1.bins.getD b 0 = s.bins.getD b 0)
    (hlen : s1.memory.length = s.memory.length)
    (hnx : ∀ x ∈ lb, nextOffset s1.memory x = nextOffset s.memory x) :
    binList s1 b = some lb := by
  unfold binList at hlb ⊢
  rw [hhead, hlen]
  by_cases h : s.bins.getD b 0 = InvalidSize
  · rw [if_pos h] at hlb ⊢
    exact hlb
  · rw [if_neg h] at hlb ⊢
    exact binListFrom_congr _ _ _ _ _ _ hlb hnx

/-- A closed back-link cycle is unchanged when the members' `prevOffset`
fields are unchanged. -/
theorem prevchain_congr (m m1 : List Nat) (lb : List Nat)
    (hpv : ∀ x ∈ lb, prevOffset m1 x = prevOffset m x)
    (hch : List.Chain' (fun x y => prevOffset m y = x) (lb ++ lb.take 1)) :
    List.Chain' (fun x y => prevOffset m1 y = x) (lb ++ lb.take 1) := by
  refine chain'_congr_mem _ ?_ hch
  intro x hx y hy hxy
  rw [hpv y (mem_append_take1 _ _ (List.tail_subset _ hy))]
  exact hxy

/-- A frame that only writes into free-chunk link areas preserves every
walk chunk's header (size word and `prevUsed` bit). -/
theorem frame_header (s s1 : AllocState) (l : List (Nat × Nat))
    (hfr : ∀ i, (∀ q ∈ freeChunks s l, ¬(q.1 + 4 ≤ i ∧ i < q.1 + 12)) →
      getByte s1.memory i = getByte s.memory i)
    (hsep : ∀ p ∈ l, ∀ q ∈ l, p ≠ q →
      (p.1 + p.2 ≤ q.1 ∧ p.1 + 16 ≤ q.1) ∨ (q.1 + q.2 ≤ p.1 ∧ q.1 + 16 ≤ p.1))
    (hsz : ∀ p ∈ l, 16 ≤ p.2) :
    ∀ p ∈ l, GetSize s1.memory p.1 = GetSize s.memory p.1 ∧
      IsPrevUsed s1.memory p.1 = IsPrevUsed s.memory p.1 := by
  intro p hp
  have hr : read32 s1.memory p.1 = read32 s.memory p.1 := by
    refine read32_congr _ _ _ ?_
    intro j hj1 hj2
    refine hfr j ?_
    intro q hq
    have hql : q ∈ l := List.mem_of_mem_filter hq
    by_cases hqp : q = p
    · subst hqp
      omega
    · rcases hsep q hql p hp hqp with ⟨h1, h2⟩ | ⟨h1, h2⟩
      · have := hsz q hql
        omega
      · omega
  constructor
  · unfold GetSize
    rw [hr]
  · unfold IsPrevUsed
    rw [hr]

/-- A frame that only writes into free-chunk link areas preserves every
chunk's footer word. -/
theorem frame_footer (s s1 : AllocState) (l : List (Nat × Nat))
    (hfr : ∀ i, (∀ q ∈ freeChunks s l, ¬(q.1 + 4 ≤ i ∧ i < q.1 + 12)) →
      getByte s1.memory i = getByte s.memory i)
    (hsep : ∀ p ∈ l, ∀ q ∈ l, p ≠ q →
      (p.1 + p.2 ≤ q.1 ∧ p.1 + 16 ≤ q.1) ∨ (q.1 + q.2 ≤ p.1 ∧ q.1 + 16 ≤ p.1))
    (hsz : ∀ p ∈ l, 16 ≤ p.2) :
    ∀ p ∈ l, read32 s1.memory (p.1 + p.2 - 4) = read32 s.memory (p.1 + p.2 - 4) := by
  intro p hp
  have h16 := hsz p hp
  refine read32_congr _ _ _ ?_
  intro j hj1 hj2
  refine hfr j ?_
  intro q hq
  have hql : q ∈ l := List.mem_of_mem_filter hq
  by_cases hqp : q = p
  · subst hqp
    omega
  · rcases hsep q hql p hp hqp with ⟨h1, h2⟩ | ⟨h1, h2⟩
    · have := hsz q hql
      omega
    · omega

/-- The last chunk of a walk ends at the start plus the total size. -/
theorem walk_last_eq_sum : ∀ (l : List (Nat × Nat)) (c : Nat),
    l.head?.map Prod.fst = some c →
    List.Chain' (fun p q : Nat × Nat => p.1 + p.2 = q.1) l →
    ∀ p, l.getLast? = some p → p.1 + p.2 = c + sumSizes l := by
  intro l
  induction l with
  | nil => intro c hc; simp at hc
  | cons a t ih =>
    intro c hc hch p hp
    obtain rfl : a.1 = c := by simpa using hc
    rcases t with _ | ⟨b, t'⟩
    · obtain rfl : a = p := by simpa using hp
      unfold sumSizes
      simp
    · obtain ⟨hab, hch'⟩ := List.chain'_cons.1 hch
      have hp' : (b :: t').getLast? = some p := by
        rw [List.getLast?_cons_cons] at hp
        exact hp
      have := ih b.1 (by simp) hch' p hp'
      unfold sumSizes at this ⊢
      simp only [List.map_cons, List.sum_cons] at this ⊢
      omega

/-- Every chunk of an ordered walk ends no later than the last chunk. -/
theorem walk_le_last : ∀ (l : List (Nat × Nat)),
    l.Pairwise (fun p q : Nat × Nat => p.1 + p.2 ≤ q.1) →
    ∀ p ∈ l, ∀ q, l.getLast? = some q → p.1 + p.2 ≤ q.1 + q.2 := by
  intro l
  induction l with
  | nil => intro _ p hp; simp at hp
  | cons a t ih =>
    intro hpw p hp q hq
    rcases t with _ | ⟨b, t'⟩
    · obtain rfl : p = a := by simpa using hp
      obtain rfl : p = q := by simpa using hq
      omega
    · have hq' : (b :: t').getLast? = some q := by
        rw [List.getLast?_cons_cons] at hq
        exact hq
      have hqmem : q ∈ b :: t' := by
        rcases List.mem_getLast?_eq_getLast hq' with ⟨hh, hx2⟩
        rw [hx2]
        exact List.getLast_mem hh
      rcases List.mem_cons.1 hp with rfl | hpt
      · have := (List.pairwise_cons.1 hpw).1 q hqmem
        omega
      · exact ih (List.pairwise_cons.1 hpw).2 p hpt q hq'

/-- The chunk walk reads only the memory. -/
theorem chunks_eq_of_memory_eq (s s1 : AllocState) (h : s1.memory = s.memory) :
    chunks s1 = chunks s := by
  have hfrom : ∀ (fuel c : Nat), chunksFrom s1 fuel c = chunksFrom s fuel c := by
    intro fuel
    induction fuel with
    | zero => intro c; rfl
    | succ fuel ih =>
      intro c
      unfold chunksFrom NextChunk
      rw [h]
      simp only [ih]
  unfold chunks
  rw [h, hfrom]

/-- `IsSelfUsed` reads only the memory and the final-prev flag. -/
theorem IsSelfUsed_eq_of (s s1 : AllocState) (h : s1.memory = s.memory)
    (h2 : s1.finalPrevIsUsed = s.finalPrevIsUsed) (x : Nat) :
    IsSelfUsed s1 x = IsSelfUsed s x := by
  unfold IsSelfUsed NextChunk
  rw [h, h2]

theorem binListD_eq (s : AllocState) (b : Nat) (lb : List Nat) (h : binList s b = some lb) :
    binListD s b = lb := by
  unfold binListD
  rw [h]
  rfl

set_option maxHeartbeats 1000000 in
/-- Shared continuation for `RemoveFree_step`: given the raw effect of
`RemoveFromFreeList` on bin `b` (new list `lb'`, two-word frame, head map),
re-establish the walk, statuses and the bins invariant with `c` excepted. -/
theorem RemoveFree_step_cont (s : AllocState) (c : Nat) (ex : List Nat)
    (l : List (Nat × Nat)) (b : Nat) (lb lb' : List Nat)
    (hl : chunks s = some l)
    (hlen16 : 16 ≤ s.memory.length)
    (hlen32 : s.memory.length < 2^32)
    (hblen : s.bins.length = BIN_INDICES)
    (hsum : sumSizes l = s.memory.length)
    (hsz : ∀ p ∈ l, 16 ≤ p.2)
    (hbx : BinsWFx s l ex)
    (hcex : c ∉ ex)
    (hb : GetIndex (GetSize s.memory c) = b)
    (hlb : binList s b = some lb)
    (hcbin : c ∈ lb)
    (hlenB : (RemoveFromFreeList s c).memory.length = s.memory.length)
    (hbinheads : ∀ b', b' ≠ b →
      (RemoveFromFreeList s c).bins.getD b' 0 = s.bins.getD b' 0)
    (hframe : ∀ i, (i < nextOffset s.memory c + 8 ∨ nextOffset s.memory c + 12 ≤ i) →
      (i < prevOffset s.memory c + 4 ∨ prevOffset s.memory c + 8 ≤ i) →
      getByte (RemoveFromFreeList s c).memory i = getByte s.memory i)
    (hbin' : binList (RemoveFromFreeList s c) b = some lb')
    (hprev' : List.Chain' (fun x y => prevOffset (RemoveFromFreeList s c).memory y = x)
      (lb' ++ lb'.take 1))
    (hsub : ∀ x ∈ lb', x ∈ lb)
    (hcnot : c ∉ lb')
    (hnd' : lb'.Nodup)
    (hcomplete : ∀ x ∈ lb, x ≠ c → x ∈ lb') :
    (∀ i, (∀ q ∈ freeChunks s l, ¬(q.1 + 4 ≤ i ∧ i < q.1 + 12)) →
      getByte (RemoveFromFreeList s c).memory i = getByte s.memory i) ∧
    chunks (RemoveFromFreeList s c) = some l ∧
    (∀ p ∈ l, IsSelfUsed (RemoveFromFreeList s c) p.1 = IsSelfUsed s p.1) ∧
    BinsWFx (RemoveFromFreeList s c) l (c :: ex) := by
  -- walk structure
  obtain ⟨hmemf, hch, hlastw, hlenle⟩ := chunksFrom_struct s _ 0 l (by omega) hl
  have hpw := walk_pairwise l hch
  have hsepw := walk_sep l hpw hsz
  have hne : l ≠ [] := by
    intro h
    rw [h] at hsum
    unfold sumSizes at hsum
    simp at hsum
    omega
  have hbound : ∀ p ∈ l, p.1 + p.2 ≤ s.memory.length := by
    intro p hp
    have hgl := List.getLast?_eq_getLast l hne
    have hq2 := walk_last_eq_sum l 0 (by
      have hh := chunksFrom_head s _ 0 l hl
      rw [hh]
      rfl) hch _ hgl
    have hle := walk_le_last l hpw p hp _ hgl
    omega
  obtain ⟨hB1, hB2, hB3, hB4, hB5⟩ := hbx
  have hblt : b < BIN_INDICES := by
    rw [← hb]
    unfold BIN_INDICES
    exact GetIndex_lt _
  have hlbD : binListD s b = lb := binListD_eq s b lb hlb
  have hmemb : ∀ x ∈ lb, (x, GetSize s.memory x) ∈ l ∧ IsSelfUsed s x = false ∧
      GetIndex (GetSize s.memory x) = b ∧ x ∉ ex := by
    intro x hx
    exact hB3 b hblt x (by rw [hlbD]; exact hx)
  have hboundb : ∀ x ∈ lb, x + 16 ≤ s.memory.length := by
    intro x hx
    have h1 := hbound _ (hmemb x hx).1
    have h2 := hsz _ (hmemb x hx).1
    simp only at h1 h2
    omega
  -- link targets of c are free chunks
  have hprevb : List.Chain' (fun x y => prevOffset s.memory y = x) (lb ++ lb.take 1) := by
    have := hB4 b hblt
    rwa [hlbD] at this
  have hInv : ¬ s.bins.getD b 0 = InvalidSize := by
    intro h
    unfold binList at hlb
    rw [if_pos h] at hlb
    obtain rfl : lb = [] := by simpa using hlb.symm
    simp at hcbin
  have hlbF : binListFrom s.memory (s.bins.getD b 0) (s.memory.length + 1) (s.bins.getD b 0) = some lb := by
    unfold binList at hlb
    rwa [if_neg hInv] at hlb
  have hheadb : lb.head? = some (s.bins.getD b 0) := binListFrom_head _ _ _ _ _ hlbF
  obtain ⟨hchainb, hlastb, htailb, hlenb⟩ := binListFrom_struct s.memory _ _ _ _ hlbF
  have hnxmem : nextOffset s.memory c ∈ lb := cycle_next_mem s.memory lb _ hheadb hchainb hlastb c hcbin
  have hpvmem : prevOffset s.memory c ∈ lb := cycle_prev_mem s.memory lb _ hheadb hprevb c hcbin
  have hnxfree : (nextOffset s.memory c, GetSize s.memory (nextOffset s.memory c)) ∈ freeChunks s l := by
    refine List.mem_filter.2 ⟨(hmemb _ hnxmem).1, ?_⟩
    simp [(hmemb _ hnxmem).2.1]
  have hpvfree : (prevOffset s.memory c, GetSize s.memory (prevOffset s.memory c)) ∈ freeChunks s l := by
    refine List.mem_filter.2 ⟨(hmemb _ hpvmem).1, ?_⟩
    simp [(hmemb _ hpvmem).2.1]
  -- the uniform frame: only free-chunk link areas are written
  have huf : ∀ i, (∀ q ∈ freeChunks s l, ¬(q.1 + 4 ≤ i ∧ i < q.1 + 12)) →
      getByte (RemoveFromFreeList s c).memory i = getByte s.memory i := by
    intro i hi
    have h1 := hi _ hnxfree
    have h2 := hi _ hpvfree
    simp only at h1 h2
    exact hframe i (by omega) (by omega)
  have hdr := frame_header s (RemoveFromFreeList s c) l huf hsepw hsz
  have hfp : (RemoveFromFreeList s c).finalPrevIsUsed = s.finalPrevIsUsed :=
    (RemoveFromFreeList_fields s c).1
  have hchunks' : chunks (RemoveFromFreeList s c) = some l := by
    unfold chunks
    rw [hlenB]
    exact chunksFrom_congr s _ hlenB _ 0 l hl (fun p hp => (hdr p hp).1)
  have hcover := walk_next_cover s.memory.length l hch hlastw
  have hisu : ∀ p ∈ l, IsSelfUsed (RemoveFromFreeList s c) p.1 = IsSelfUsed s p.1 :=
    IsSelfUsed_frame s _ l hlenB hfp (fun p hp => (hdr p hp).1)
      (fun p hp => (hdr p hp).2) (fun p hp => (hmemf p hp).1) hcover
  -- bins other than b are untouched
  have hother : ∀ b', b' < BIN_INDICES → b' ≠ b →
      ∀ lb₂, binList s b' = some lb₂ →
      binList (RemoveFromFreeList s c) b' = some lb₂ ∧
      (∀ x ∈ lb₂, nextOffset (RemoveFromFreeList s c).memory x = nextOffset s.memory x ∧
        prevOffset (RemoveFromFreeList s c).memory x = prevOffset s.memory x) := by
    intro b' hb'lt hbne lb₂ hlb₂
    have hfields : ∀ x ∈ lb₂, nextOffset (RemoveFromFreeList s c).memory x = nextOffset s.memory x ∧
        prevOffset (RemoveFromFreeList s c).memory x = prevOffset s.memory x := by
      intro x hx
      obtain ⟨hx1, hx2, hx3, hx4⟩ := hB3 b' hb'lt x (by rw [binListD_eq s b' lb₂ hlb₂]; exact hx)
      have hxnx : x ≠ nextOffset s.memory c := by
        intro h
        refine hbne ?_
        rw [← hx3, h]
        exact (hmemb _ hnxmem).2.2.1
      have hxpv : x ≠ prevOffset s.memory c := by
        intro h
        refine hbne ?_
        rw [← hx3, h]
        exact (hmemb _ hpvmem).2.2.1
      have hsepnx : x + 16 ≤ nextOffset s.memory c ∨ nextOffset s.memory c + 16 ≤ x := by
        have := hsepw _ hx1 _ (hmemb _ hnxmem).1 (by
          intro hcontra
          exact hxnx (congrArg Prod.fst hcontra))
        rcases this with ⟨h1, h2⟩ | ⟨h1, h2⟩
        · left; exact h2
        · right; exact h2
      have hseppv : x + 16 ≤ prevOffset s.memory c ∨ prevOffset s.memory c + 16 ≤ x := by
        have := hsepw _ hx1 _ (hmemb _ hpvmem).1 (by
          intro hcontra
          exact hxpv (congrArg Prod.fst hcontra))
        rcases this with ⟨h1, h2⟩ | ⟨h1, h2⟩
        · left; exact h2
        · right; exact h2
      constructor
      · unfold nextOffset
        refine read32_congr _ _ _ ?_
        intro j hj1 hj2
        exact hframe j (by omega) (by omega)
      · unfold prevOffset
        refine read32_congr _ _ _ ?_
        intro j hj1 hj2
        exact hframe j (by omega) (by omega)
    refine ⟨?_, hfields⟩
    exact binList_congr s _ b' lb₂ hlb₂ (hbinheads b' hbne) hlenB
      (fun x hx => (hfields x hx).1)
  refine ⟨huf, hchunks', hisu, ?_, ?_, ?_, ?_, ?_⟩
  · -- every bin terminates
    intro b' hb'
    by_cases hbe : b' = b
    · subst hbe
      rw [hbin']
      rfl
    · obtain ⟨lb₂, hlb₂⟩ := Option.isSome_iff_exists.1 (hB1 b' hb')
      rw [(hother b' hb' hbe lb₂ hlb₂).1]
      rfl
  · -- nodup
    intro b' hb'
    by_cases hbe : b' = b
    · subst hbe
      rw [binListD_eq _ _ _ hbin']
      exact hnd'
    · obtain ⟨lb₂, hlb₂⟩ := Option.isSome_iff_exists.1 (hB1 b' hb')
      rw [binListD_eq _ _ _ (hother b' hb' hbe lb₂ hlb₂).1]
      have := hB2 b' hb'
      rwa [binListD_eq s b' lb₂ hlb₂] at this
  · -- membership facts
    intro b' hb' x hx
    by_cases hbe : b' = b
    · subst hbe
      rw [binListD_eq _ _ _ hbin'] at hx
      have hxlb := hsub x hx
      obtain ⟨h1, h2, h3, h4⟩ := hmemb x hxlb
      have hgs : GetSize (RemoveFromFreeList s c).memory x = GetSize s.memory x :=
        (hdr (x, GetSize s.memory x) h1).1
      refine ⟨?_, ?_, ?_, ?_⟩
      · rw [hgs]; exact h1
      · rw [hisu (x, GetSize s.memory x) h1]; exact h2
      · rw [hgs]; exact h3
      · intro hmem'
        rcases List.mem_cons.1 hmem' with hxc | hxex
        · rw [hxc] at hx
          exact hcnot hx
        · exact h4 hxex
    · obtain ⟨lb₂, hlb₂⟩ := Option.isSome_iff_exists.1 (hB1 b' hb')
      rw [binListD_eq _ _ _ (hother b' hb' hbe lb₂ hlb₂).1] at hx
      obtain ⟨h1, h2, h3, h4⟩ := hB3 b' hb' x (by rw [binListD_eq s b' lb₂ hlb₂]; exact hx)
      have hgs : GetSize (RemoveFromFreeList s c).memory x = GetSize s.memory x :=
        (hdr (x, GetSize s.memory x) h1).1
      refine ⟨?_, ?_, ?_, ?_⟩
      · rw [hgs]; exact h1
      · rw [hisu (x, GetSize s.memory x) h1]; exact h2
      · rw [hgs]; exact h3
      · intro hmem'
        rcases List.mem_cons.1 hmem' with hxc | hxex
        · rw [hxc] at h3
          rw [hb] at h3
          exact hbe h3.symm
        · exact h4 hxex
  · -- back-link cycles
    intro b' hb'
    by_cases hbe : b' = b
    · subst hbe
      rw [binListD_eq _ _ _ hbin']
      exact hprev'
    · obtain ⟨lb₂, hlb₂⟩ := Option.isSome_iff_exists.1 (hB1 b' hb')
      rw [binListD_eq _ _ _ (hother b' hb' hbe lb₂ hlb₂).1]
      refine prevchain_congr s.memory _ _ ?_ ?_
      · exact fun x hx => ((hother b' hb' hbe lb₂ hlb₂).2 x hx).2
      · have := hB4 b' hb'
        rwa [binListD_eq s b' lb₂ hlb₂] at this
  · -- coverage
    intro p hp
    rw [show freeChunks (RemoveFromFreeList s c) l = freeChunks s l from
      List.filter_congr (fun p hp => by rw [hisu p hp])] at hp
    rcases hB5 p hp with h | h
    · exact Or.inl (List.mem_cons_of_mem _ h)
    · by_cases hbe : GetIndex p.2 = b
      · rw [hbe, hlbD] at h
        by_cases hpc : p.1 = c
        · left
          rw [hpc]
          exact List.mem_cons_self _ _
        · right
          rw [hbe, binListD_eq _ _ _ hbin']
          exact hcomplete p.1 h hpc
      · right
        have hblt' : GetIndex p.2 < BIN_INDICES := by
          unfold BIN_INDICES
          exact GetIndex_lt _
        obtain ⟨lb₂, hlb₂⟩ := Option.isSome_iff_exists.1 (hB1 _ hblt')
        rw [binListD_eq _ _ _ (hother _ hblt' hbe lb₂ hlb₂).1]
        rwa [binListD_eq s _ lb₂ hlb₂] at h

set_option maxHeartbeats 1000000 in
/-- Unlinking a free chunk from its bin: the walk, the statusesering and all
other bins are untouched; the chunk becomes an excepted free chunk. -/
theorem RemoveFree_step (s : AllocState) (c : Nat) (ex : List Nat) (l : List (Nat × Nat))
    (hl : chunks s = some l)
    (hlen16 : 16 ≤ s.memory.length)
    (hlen32 : s.memory.length < 2^32)
    (hbytes : ∀ x ∈ s.memory, x < 256)
    (hblen : s.bins.length = BIN_INDICES)
    (hsum : sumSizes l = s.memory.length)
    (hsz : ∀ p ∈ l, 16 ≤ p.2)
    (hbx : BinsWFx s l ex)
    (hcfree : IsSelfUsed s c = false)
    (hcmem : (c, GetSize s.memory c) ∈ l)
    (hcex : c ∉ ex) :
    (RemoveFromFreeList s c).memory.length = s.memory.length ∧
    (∀ i, (∀ q ∈ freeChunks s l, ¬(q.1 + 4 ≤ i ∧ i < q.1 + 12)) →
      getByte (RemoveFromFreeList s c).memory i = getByte s.memory i) ∧
    chunks (RemoveFromFreeList s c) = some l ∧
    (∀ p ∈ l, IsSelfUsed (RemoveFromFreeList s c) p.1 = IsSelfUsed s p.1) ∧
    BinsWFx (RemoveFromFreeList s c) l (c :: ex) := by
  obtain ⟨hmemf, hch, hlastw, hlenle⟩ := chunksFrom_struct s _ 0 l (by omega) hl
  have hpw := walk_pairwise l hch
  have hsepw := walk_sep l hpw hsz
  have hne : l ≠ [] := by
    intro h
    rw [h] at hsum
    unfold sumSizes at hsum
    simp at hsum
    omega
  have hbound : ∀ p ∈ l, p.1 + p.2 ≤ s.memory.length := by
    intro p hp
    have hgl := List.getLast?_eq_getLast l hne
    have hq2 := walk_last_eq_sum l 0 (by
      have hh := chunksFrom_head s _ 0 l hl
      rw [hh]
      rfl) hch _ hgl
    have hle := walk_le_last l hpw p hp _ hgl
    omega
  obtain ⟨hB1, hB2, hB3, hB4, hB5⟩ := hbx
  have hblt : GetIndex (GetSize s.memory c) < BIN_INDICES := by
    unfold BIN_INDICES
    exact GetIndex_lt _
  have hcfreeL : (c, GetSize s.memory c) ∈ freeChunks s l := by
    unfold freeChunks
    refine List.mem_filter.2 ⟨hcmem, ?_⟩
    simp [hcfree]
  have hcbin0 : c ∈ binListD s (GetIndex (GetSize s.memory c)) := by
    rcases hB5 _ hcfreeL with h | h
    · exact absurd h hcex
    · exact h
  obtain ⟨lb, hlb⟩ := Option.isSome_iff_exists.1 (hB1 _ hblt)
  have hlbD : binListD s (GetIndex (GetSize s.memory c)) = lb := binListD_eq s _ lb hlb
  have hcbin : c ∈ lb := by rwa [hlbD] at hcbin0
  have hndb : lb.Nodup := by
    have := hB2 _ hblt
    rwa [hlbD] at this
  have hmemb : ∀ x ∈ lb, (x, GetSize s.memory x) ∈ l ∧ IsSelfUsed s x = false ∧
      GetIndex (GetSize s.memory x) = GetIndex (GetSize s.memory c) ∧ x ∉ ex := by
    intro x hx
    exact hB3 _ hblt x (by rw [hlbD]; exact hx)
  have hpairb : lb.Pairwise (fun x y => x + 16 ≤ y ∨ y + 16 ≤ x) :=
    bin_pairwise_sep l lb hsepw (fun x hx => ⟨_, (hmemb x hx).1⟩) hndb
  have hboundb : ∀ x ∈ lb, x + 16 ≤ s.memory.length := by
    intro x hx
    have h1 := hbound _ (hmemb x hx).1
    have h2 := hsz _ (hmemb x hx).1
    simp only at h1 h2
    omega
  have hprevb : List.Chain' (fun x y => prevOffset s.memory y = x) (lb ++ lb.take 1) := by
    have := hB4 _ hblt
    rwa [hlbD] at this
  have hInv : ¬ s.bins.getD (GetIndex (GetSize s.memory c)) 0 = InvalidSize := by
    intro h
    unfold binList at hlb
    rw [if_pos h] at hlb
    obtain rfl : lb = [] := by simpa using hlb.symm
    simp at hcbin
  have hlbF : binListFrom s.memory (s.bins.getD (GetIndex (GetSize s.memory c)) 0)
      (s.memory.length + 1) (s.bins.getD (GetIndex (GetSize s.memory c)) 0) = some lb := by
    unfold binList at hlb
    rwa [if_neg hInv] at hlb
  have hheadb : lb.head? = some (s.bins.getD (GetIndex (GetSize s.memory c)) 0) :=
    binListFrom_head _ _ _ _ _ hlbF
  obtain ⟨hchainb, hlastb, htailb, hlenb⟩ := binListFrom_struct s.memory _ _ _ _ hlbF
  have hbxx : BinsWFx s l ex := ⟨hB1, hB2, hB3, hB4, hB5⟩
  by_cases hch0 : s.bins.getD (GetIndex (GetSize s.memory c)) 0 = c
  · -- the chunk is the bin head
    obtain ⟨v, rfl⟩ : ∃ v, lb = c :: v := by
      rcases lb with _ | ⟨a, v⟩
      · simp at hcbin
      · have ha : a = s.bins.getD (GetIndex (GetSize s.memory c)) 0 := by simpa using hheadb
        exact ⟨v, by rw [ha, hch0]⟩
    rcases v with _ | ⟨v1, vs⟩
    · -- singleton bin
      have hself : nextOffset s.memory c = c := by
        have := hlastb c (by simp)
        rwa [hch0] at this
      have hpself : prevOffset s.memory c = c := by
        have h2 : (([c] : List Nat) ++ [c].take 1) = [c, c] := by simp
        rw [h2] at hprevb
        exact (List.chain'_cons.1 hprevb).1
      obtain ⟨hbins, hmemeq⟩ := RemoveFromFreeList_singleton s c hself hpself hch0 hbytes
      have hbb : binList (RemoveFromFreeList s c) (GetIndex (GetSize s.memory c)) = some [] := by
        unfold binList
        rw [hbins, getD_set_self _ _ _ _ (by rw [hblen]; exact hblt), if_pos rfl]
      refine ⟨by rw [hmemeq], ?_⟩
      refine RemoveFree_step_cont s c ex l _ (c :: []) [] hl hlen16 hlen32 hblen hsum hsz
        hbxx hcex rfl hlb hcbin (by rw [hmemeq]) ?_ ?_ hbb (by simp) ?_ ?_ ?_ ?_
      · intro b' hbne
        rw [hbins]
        exact getD_set_ne _ _ _ _ _ (fun h => hbne h.symm)
      · intro i _ _
        rw [hmemeq]
      · intro x hx
        simp at hx
      · simp
      · exact List.nodup_nil
      · intro x hx hxc
        rcases List.mem_cons.1 hx with h | h
        · exact absurd h hxc
        · simp at h
    · -- head of a bin with at least two chunks
      have hprevb' : List.Chain' (fun x y => prevOffset s.memory y = x)
          ((c :: v1 :: vs) ++ [c]) := by
        have h2 : ((c :: v1 :: vs) ++ (c :: v1 :: vs).take 1) = (c :: v1 :: vs) ++ [c] := by
          simp
        rwa [h2] at hprevb
      obtain ⟨hbins, hframe, hlen, hbin', hprev'⟩ :=
        RemoveFromFreeList_head s c (GetIndex (GetSize s.memory c)) (v1 :: vs) rfl
          (by rw [hblen]; exact hblt) hlb (by simp) hbytes hlen32 hboundb hndb hpairb hprevb'
      refine ⟨hlen, ?_⟩
      refine RemoveFree_step_cont s c ex l _ (c :: v1 :: vs) (v1 :: vs) hl hlen16 hlen32 hblen
        hsum hsz hbxx hcex rfl hlb hcbin hlen ?_ hframe hbin' ?_ ?_ ?_ ?_ ?_
      · intro b' hbne
        rw [hbins]
        exact getD_set_ne _ _ _ _ _ (fun h => hbne h.symm)
      · have h2 : ((v1 :: vs) ++ (v1 :: vs).take 1) = (v1 :: vs) ++ [v1] := by simp
        rw [h2]
        have h3 : ((v1 :: vs) ++ ((v1 :: vs).take 1)) = (v1 :: vs) ++ [v1] := by simp
        rw [← h3]
        exact hprev'
      · intro x hx
        exact List.mem_cons_of_mem _ hx
      · exact (List.nodup_cons.1 hndb).1
      · exact (List.nodup_cons.1 hndb).2
      · intro x hx hxc
        rcases List.mem_cons.1 hx with h | h
        · exact absurd h hxc
        · exact h
  · -- the chunk sits in the middle of its bin list
    obtain ⟨t, rfl⟩ : ∃ t, lb = s.bins.getD (GetIndex (GetSize s.memory c)) 0 :: t := by
      rcases lb with _ | ⟨a, t⟩
      · simp at hcbin
      · have ha : a = s.bins.getD (GetIndex (GetSize s.memory c)) 0 := by simpa using hheadb
        exact ⟨t, by rw [ha]⟩
    have hct : c ∈ t := by
      rcases List.mem_cons.1 hcbin with h | h
      · exact absurd h.symm hch0
      · exact h
    obtain ⟨u, v, rfl⟩ := List.append_of_mem hct
    have hprevb' : List.Chain' (fun x y => prevOffset s.memory y = x)
        ((s.bins.getD (GetIndex (GetSize s.memory c)) 0 :: (u ++ c :: v)) ++
          [s.bins.getD (GetIndex (GetSize s.memory c)) 0]) := by
      have h2 : ((s.bins.getD (GetIndex (GetSize s.memory c)) 0 :: (u ++ c :: v)) ++
          (s.bins.getD (GetIndex (GetSize s.memory c)) 0 :: (u ++ c :: v)).take 1) =
          (s.bins.getD (GetIndex (GetSize s.memory c)) 0 :: (u ++ c :: v)) ++
          [s.bins.getD (GetIndex (GetSize s.memory c)) 0] := by simp
      rwa [h2] at hprevb
    obtain ⟨hbins, hframe, hlen, hbin', hprev'⟩ :=
      RemoveFromFreeList_mid s c (GetIndex (GetSize s.memory c))
        (s.bins.getD (GetIndex (GetSize s.memory c)) 0) u v rfl hlb hbytes hlen32
        hboundb hndb hpairb hprevb'
    -- nodup decompositions of the bin list
    have hnd2 : ((s.bins.getD (GetIndex (GetSize s.memory c)) 0 :: u) ++ (c :: v)).Nodup := by
      simpa using hndb
    obtain ⟨hndU, hndCV, hdisjU⟩ := List.nodup_append.1 hnd2
    refine ⟨hlen, ?_⟩
    refine RemoveFree_step_cont s c ex l _
      (s.bins.getD (GetIndex (GetSize s.memory c)) 0 :: (u ++ c :: v))
      (s.bins.getD (GetIndex (GetSize s.memory c)) 0 :: (u ++ v)) hl hlen16 hlen32 hblen
      hsum hsz hbxx hcex rfl hlb hcbin hlen ?_ hframe ?_ ?_ ?_ ?_ ?_ ?_
    · intro b' hbne
      rw [hbins]
    · exact hbin'
    · have h2 : ((s.bins.getD (GetIndex (GetSize s.memory c)) 0 :: (u ++ v)) ++
          (s.bins.getD (GetIndex (GetSize s.memory c)) 0 :: (u ++ v)).take 1) =
          (s.bins.getD (GetIndex (GetSize s.memory c)) 0 :: (u ++ v)) ++
          [s.bins.getD (GetIndex (GetSize s.memory c)) 0] := by simp
      rw [h2]
      exact hprev'
    · intro x hx
      rcases List.mem_cons.1 hx with h | h
      · rw [h]; exact List.mem_cons_self _ _
      · rcases List.mem_append.1 h with h2 | h2
        · exact List.mem_cons_of_mem _ (List.mem_append_left _ h2)
        · exact List.mem_cons_of_mem _ (List.mem_append_right _ (List.mem_cons_of_mem _ h2))
    · intro hx
      rcases List.mem_cons.1 hx with h | h
      · exact hch0 h.symm
      · rcases List.mem_append.1 h with h2 | h2
        · exact hdisjU (List.mem_cons_of_mem _ h2) (List.mem_cons_self _ _)
        · exact (List.nodup_cons.1 hndCV).1 h2
    · rw [show (s.bins.getD (GetIndex (GetSize s.memory c)) 0 :: (u ++ v)) =
        (s.bins.getD (GetIndex (GetSize s.memory c)) 0 :: u) ++ v by simp]
      rw [List.nodup_append]
      refine ⟨hndU, (List.nodup_cons.1 hndCV).2, ?_⟩
      intro a ha hav
      exact hdisjU ha (List.mem_cons_of_mem _ hav)
    · intro x hx hxc
      rcases List.mem_cons.1 hx with h | h
      · rw [h]; exact List.mem_cons_self _ _
      · rcases List.mem_append.1 h with h2 | h2
        · exact List.mem_cons_of_mem _ (List.mem_append_left _ h2)
        · rcases List.mem_cons.1 h2 with h3 | h3
          · exact absurd h3 hxc
          · exact List.mem_cons_of_mem _ (List.mem_append_right _ h3)

set_option maxHeartbeats 1000000 in
/-- Shared continuation for `AddFree_step`: given the raw effect of
`AddToFreeList` on bin `b`, re-establish the walk, the statuses and the
bins invariant with `c` no longer excepted. -/
theorem AddFree_step_cont (s : AllocState) (c : Nat) (ex : List Nat)
    (l : List (Nat × Nat)) (b h0v n0v : Nat) (lb lb' : List Nat)
    (hl : chunks s = some l)
    (hlen16 : 16 ≤ s.memory.length)
    (hlen32 : s.memory.length < 2^32)
    (hblen : s.bins.length = BIN_INDICES)
    (hsum : sumSizes l = s.memory.length)
    (hsz : ∀ p ∈ l, 16 ≤ p.2)
    (hbx : BinsWFx s l (c :: ex))
    (hcex : c ∉ ex)
    (hcfree : IsSelfUsed s c = false)
    (hcmem : (c, GetSize s.memory c) ∈ l)
    (hb : GetIndex (GetSize s.memory c) = b)
    (hlb : binList s b = some lb)
    (hlenB : (AddToFreeList s c).memory.length = s.memory.length)
    (hbinheads : ∀ b', b' ≠ b → (AddToFreeList s c).bins.getD b' 0 = s.bins.getD b' 0)
    (hh0free : (h0v, GetSize s.memory h0v) ∈ freeChunks s l)
    (hn0free : (n0v, GetSize s.memory n0v) ∈ freeChunks s l)
    (hh0bin : h0v ∈ lb ∨ h0v = c)
    (hn0bin : n0v ∈ lb ∨ n0v = c)
    (hframe : ∀ i, (i < c + 4 ∨ c + 12 ≤ i) → (i < h0v + 4 ∨ h0v + 8 ≤ i) →
      (i < n0v + 8 ∨ n0v + 12 ≤ i) →
      getByte (AddToFreeList s c).memory i = getByte s.memory i)
    (hbin' : binList (AddToFreeList s c) b = some lb')
    (hprev' : List.Chain' (fun x y => prevOffset (AddToFreeList s c).memory y = x)
      (lb' ++ lb'.take 1))
    (hold_sub : ∀ x ∈ lb, x ∈ lb')
    (hsub' : ∀ x ∈ lb', x = c ∨ x ∈ lb)
    (hcin : c ∈ lb')
    (hnd' : lb'.Nodup) :
    (∀ i, (∀ q ∈ freeChunks s l, ¬(q.1 + 4 ≤ i ∧ i < q.1 + 12)) →
      getByte (AddToFreeList s c).memory i = getByte s.memory i) ∧
    chunks (AddToFreeList s c) = some l ∧
    (∀ p ∈ l, IsSelfUsed (AddToFreeList s c) p.1 = IsSelfUsed s p.1) ∧
    BinsWFx (AddToFreeList s c) l ex := by
  obtain ⟨hmemf, hch, hlastw, hlenle⟩ := chunksFrom_struct s _ 0 l (by omega) hl
  have hpw := walk_pairwise l hch
  have hsepw := walk_sep l hpw hsz
  obtain ⟨hB1, hB2, hB3, hB4, hB5⟩ := hbx
  have hblt : b < BIN_INDICES := by
    rw [← hb]
    unfold BIN_INDICES
    exact GetIndex_lt _
  have hlbD : binListD s b = lb := binListD_eq s b lb hlb
  have hmemb : ∀ x ∈ lb, (x, GetSize s.memory x) ∈ l ∧ IsSelfUsed s x = false ∧
      GetIndex (GetSize s.memory x) = b ∧ x ∉ c :: ex := by
    intro x hx
    exact hB3 b hblt x (by rw [hlbD]; exact hx)
  have hcfreeL : (c, GetSize s.memory c) ∈ freeChunks s l := by
    refine List.mem_filter.2 ⟨hcmem, ?_⟩
    simp [hcfree]
  -- the uniform frame
  have huf : ∀ i, (∀ q ∈ freeChunks s l, ¬(q.1 + 4 ≤ i ∧ i < q.1 + 12)) →
      getByte (AddToFreeList s c).memory i = getByte s.memory i := by
    intro i hi
    have h1 := hi _ hcfreeL
    have h2 := hi _ hh0free
    have h3 := hi _ hn0free
    simp only at h1 h2 h3
    exact hframe i (by omega) (by omega) (by omega)
  have hdr := frame_header s (AddToFreeList s c) l huf hsepw hsz
  have hfp : (AddToFreeList s c).finalPrevIsUsed = s.finalPrevIsUsed :=
    (AddToFreeList_fields s c).1
  have hchunks' : chunks (AddToFreeList s c) = some l := by
    unfold chunks
    rw [hlenB]
    exact chunksFrom_congr s _ hlenB _ 0 l hl (fun p hp => (hdr p hp).1)
  have hcover := walk_next_cover s.memory.length l hch hlastw
  have hisu : ∀ p ∈ l, IsSelfUsed (AddToFreeList s c) p.1 = IsSelfUsed s p.1 :=
    IsSelfUsed_frame s _ l hlenB hfp (fun p hp => (hdr p hp).1)
      (fun p hp => (hdr p hp).2) (fun p hp => (hmemf p hp).1) hcover
  -- bins other than b are untouched
  have hother : ∀ b', b' < BIN_INDICES → b' ≠ b →
      ∀ lb₂, binList s b' = some lb₂ →
      binList (AddToFreeList s c) b' = some lb₂ ∧
      (∀ x ∈ lb₂, nextOffset (AddToFreeList s c).memory x = nextOffset s.memory x ∧
        prevOffset (AddToFreeList s c).memory x = prevOffset s.memory x) := by
    intro b' hb'lt hbne lb₂ hlb₂
    have hfields : ∀ x ∈ lb₂,
        nextOffset (AddToFreeList s c).memory x = nextOffset s.memory x ∧
        prevOffset (AddToFreeList s c).memory x = prevOffset s.memory x := by
      intro x hx
      obtain ⟨hx1, hx2, hx3, hx4⟩ := hB3 b' hb'lt x (by rw [binListD_eq s b' lb₂ hlb₂]; exact hx)
      have hxc : x ≠ c := by
        intro h
        exact hx4 (by rw [h]; exact List.mem_cons_self _ _)
      have hxh0 : x ≠ h0v := by
        intro h
        rcases hh0bin with hh | hh
        · exact hbne (by rw [← hx3, h]; exact (hmemb _ hh).2.2.1)
        · exact hxc (by rw [h, hh])
      have hxn0 : x ≠ n0v := by
        intro h
        rcases hn0bin with hh | hh
        · exact hbne (by rw [← hx3, h]; exact (hmemb _ hh).2.2.1)
        · exact hxc (by rw [h, hh])
      have hsepc2 : x + 16 ≤ c ∨ c + 16 ≤ x := by
        have := hsepw _ hx1 _ hcmem (fun hcontra => hxc (congrArg Prod.fst hcontra))
        rcases this with ⟨h1, h2⟩ | ⟨h1, h2⟩
        · left; exact h2
        · right; exact h2
      have hseph0 : x + 16 ≤ h0v ∨ h0v + 16 ≤ x := by
        have := hsepw _ hx1 _ (List.mem_of_mem_filter hh0free)
          (fun hcontra => hxh0 (congrArg Prod.fst hcontra))
        rcases this with ⟨h1, h2⟩ | ⟨h1, h2⟩
        · left; exact h2
        · right; exact h2
      have hsepn0 : x + 16 ≤ n0v ∨ n0v + 16 ≤ x := by
        have := hsepw _ hx1 _ (List.mem_of_mem_filter hn0free)
          (fun hcontra => hxn0 (congrArg Prod.fst hcontra))
        rcases this with ⟨h1, h2⟩ | ⟨h1, h2⟩
        · left; exact h2
        · right; exact h2
      constructor
      · unfold nextOffset
        refine read32_congr _ _ _ ?_
        intro j hj1 hj2
        exact hframe j (by omega) (by omega) (by omega)
      · unfold prevOffset
        refine read32_congr _ _ _ ?_
        intro j hj1 hj2
        exact hframe j (by omega) (by omega) (by omega)
    refine ⟨?_, hfields⟩
    exact binList_congr s _ b' lb₂ hlb₂ (hbinheads b' hbne) hlenB
      (fun x hx => (hfields x hx).1)
  refine ⟨huf, hchunks', hisu, ?_, ?_, ?_, ?_, ?_⟩
  · intro b' hb'
    by_cases hbe : b' = b
    · subst hbe
      rw [hbin']
      rfl
    · obtain ⟨lb₂, hlb₂⟩ := Option.isSome_iff_exists.1 (hB1 b' hb')
      rw [(hother b' hb' hbe lb₂ hlb₂).1]
      rfl
  · intro b' hb'
    by_cases hbe : b' = b
    · subst hbe
      rw [binListD_eq _ _ _ hbin']
      exact hnd'
    · obtain ⟨lb₂, hlb₂⟩ := Option.isSome_iff_exists.1 (hB1 b' hb')
      rw [binListD_eq _ _ _ (hother b' hb' hbe lb₂ hlb₂).1]
      have := hB2 b' hb'
      rwa [binListD_eq s b' lb₂ hlb₂] at this
  · intro b' hb' x hx
    by_cases hbe : b' = b
    · subst hbe
      rw [binListD_eq _ _ _ hbin'] at hx
      rcases hsub' x hx with hxc | hxlb
      · have hgs : GetSize (AddToFreeList s c).memory x = GetSize s.memory x := by
          rw [hxc]
          exact (hdr (c, GetSize s.memory c) hcmem).1
        refine ⟨?_, ?_, ?_, ?_⟩
        · rw [hgs, hxc]; exact hcmem
        · rw [hxc, hisu (c, GetSize s.memory c) hcmem]; exact hcfree
        · rw [hgs, hxc]; exact hb
        · rw [hxc]; exact hcex
      · obtain ⟨h1, h2, h3, h4⟩ := hmemb x hxlb
        have hgs : GetSize (AddToFreeList s c).memory x = GetSize s.memory x :=
          (hdr (x, GetSize s.memory x) h1).1
        refine ⟨?_, ?_, ?_, ?_⟩
        · rw [hgs]; exact h1
        · rw [hisu (x, GetSize s.memory x) h1]; exact h2
        · rw [hgs]; exact h3
        · intro hxex
          exact h4 (List.mem_cons_of_mem _ hxex)
    · obtain ⟨lb₂, hlb₂⟩ := Option.isSome_iff_exists.1 (hB1 b' hb')
      rw [binListD_eq _ _ _ (hother b' hb' hbe lb₂ hlb₂).1] at hx
      obtain ⟨h1, h2, h3, h4⟩ := hB3 b' hb' x (by rw [binListD_eq s b' lb₂ hlb₂]; exact hx)
      have hgs : GetSize (AddToFreeList s c).memory x = GetSize s.memory x :=
        (hdr (x, GetSize s.memory x) h1).1
      refine ⟨?_, ?_, ?_, ?_⟩
      · rw [hgs]; exact h1
      · rw [hisu (x, GetSize s.memory x) h1]; exact h2
      · rw [hgs]; exact h3
      · intro hxex
        exact h4 (List.mem_cons_of_mem _ hxex)
  · intro b' hb'
    by_cases hbe : b' = b
    · subst hbe
      rw [binListD_eq _ _ _ hbin']
      exact hprev'
    · obtain ⟨lb₂, hlb₂⟩ := Option.isSome_iff_exists.1 (hB1 b' hb')
      rw [binListD_eq _ _ _ (hother b' hb' hbe lb₂ hlb₂).1]
      refine prevchain_congr s.memory _ _ ?_ ?_
      · exact fun x hx => ((hother b' hb' hbe lb₂ hlb₂).2 x hx).2
      · have := hB4 b' hb'
        rwa [binListD_eq s b' lb₂ hlb₂] at this
  · intro p hp
    rw [show freeChunks (AddToFreeList s c) l = freeChunks s l from
      List.filter_congr (fun p hp => by rw [hisu p hp])] at hp
    rcases hB5 p hp with h | h
    · rcases List.mem_cons.1 h with hpc | hpex
      · right
        have hbp : GetIndex p.2 = b := by
          have hp2 : p.2 = GetSize s.memory p.1 := (hmemf p (List.mem_of_mem_filter hp)).1
          rw [hp2, hpc]
          exact hb
        rw [hbp, binListD_eq _ _ _ hbin', hpc]
        exact hcin
      · exact Or.inl hpex
    · right
      by_cases hbe : GetIndex p.2 = b
      · rw [hbe, hlbD] at h
        rw [hbe, binListD_eq _ _ _ hbin']
        exact hold_sub p.1 h
      · have hblt' : GetIndex p.2 < BIN_INDICES := by
          unfold BIN_INDICES
          exact GetIndex_lt _
        obtain ⟨lb₂, hlb₂⟩ := Option.isSome_iff_exists.1 (hB1 _ hblt')
        rw [binListD_eq _ _ _ (hother _ hblt' hbe lb₂ hlb₂).1]
        rwa [binListD_eq s _ lb₂ hlb₂] at h

theorem binListFrom_self (m : List Nat) (start fuel : Nat)
    (h : nextOffset m start = start) :
    binListFrom m start (fuel+1) start = some [start] := by
  unfold binListFrom
  dsimp only
  rw [if_pos h]

set_option maxHeartbeats 1000000 in
/-- Linking an excepted free chunk into its bin: the walk, the statuses and
all other bins are untouched; the chunk stops being excepted. -/
theorem AddFree_step (s : AllocState) (c : Nat) (ex : List Nat) (l : List (Nat × Nat))
    (hl : chunks s = some l)
    (hlen16 : 16 ≤ s.memory.length)
    (hlen32 : s.memory.length < 2^32)
    (hbytes : ∀ x ∈ s.memory, x < 256)
    (hblen : s.bins.length = BIN_INDICES)
    (hsum : sumSizes l = s.memory.length)
    (hsz : ∀ p ∈ l, 16 ≤ p.2)
    (hbx : BinsWFx s l (c :: ex))
    (hcex : c ∉ ex)
    (hcfree : IsSelfUsed s c = false)
    (hcmem : (c, GetSize s.memory c) ∈ l) :
    (AddToFreeList s c).memory.length = s.memory.length ∧
    (∀ i, (∀ q ∈ freeChunks s l, ¬(q.1 + 4 ≤ i ∧ i < q.1 + 12)) →
      getByte (AddToFreeList s c).memory i = getByte s.memory i) ∧
    chunks (AddToFreeList s c) = some l ∧
    (∀ p ∈ l, IsSelfUsed (AddToFreeList s c) p.1 = IsSelfUsed s p.1) ∧
    BinsWFx (AddToFreeList s c) l ex := by
  obtain ⟨hmemf, hch, hlastw, hlenle⟩ := chunksFrom_struct s _ 0 l (by omega) hl
  have hpw := walk_pairwise l hch
  have hsepw := walk_sep l hpw hsz
  have hne : l ≠ [] := by
    intro h
    rw [h] at hsum
    unfold sumSizes at hsum
    simp at hsum
    omega
  have hbound : ∀ p ∈ l, p.1 + p.2 ≤ s.memory.length := by
    intro p hp
    have hgl := List.getLast?_eq_getLast l hne
    have hq2 := walk_last_eq_sum l 0 (by
      have hh := chunksFrom_head s _ 0 l hl
      rw [hh]
      rfl) hch _ hgl
    have hle := walk_le_last l hpw p hp _ hgl
    omega
  have hcsz : 16 ≤ GetSize s.memory c := hsz _ hcmem
  have hcbound : c + 16 ≤ s.memory.length := by
    have h1 := hbound _ hcmem
    simp only at h1
    omega
  obtain ⟨hB1, hB2, hB3, hB4, hB5⟩ := hbx
  have hbxx : BinsWFx s l (c :: ex) := ⟨hB1, hB2, hB3, hB4, hB5⟩
  have hblt : GetIndex (GetSize s.memory c) < BIN_INDICES := by
    unfold BIN_INDICES
    exact GetIndex_lt _
  have hcfreeL : (c, GetSize s.memory c) ∈ freeChunks s l := by
    refine List.mem_filter.2 ⟨hcmem, ?_⟩
    simp [hcfree]
  by_cases hInv : s.bins.getD (GetIndex (GetSize s.memory c)) 0 = InvalidSize
  · -- empty bin: the chunk becomes a one-element cycle
    have hempty : binList s (GetIndex (GetSize s.memory c)) = some [] := by
      unfold binList
      rw [if_pos hInv]
    have heq := AddToFreeList_single s c hInv
    have hlenB : (AddToFreeList s c).memory.length = s.memory.length := by
      rw [heq]
      simp [length_write32]
    have hframe3 : ∀ i, (i < c + 4 ∨ c + 12 ≤ i) → (i < c + 4 ∨ c + 8 ≤ i) →
        (i < c + 8 ∨ c + 12 ≤ i) →
        getByte (AddToFreeList s c).memory i = getByte s.memory i := by
      intro i h1 _ _
      rw [heq]
      show getByte (write32 (write32 s.memory (c+4) c) (c+8) c) i = getByte s.memory i
      rw [getByte_write32_of_ne _ _ _ _ (by omega),
          getByte_write32_of_ne _ _ _ _ (by omega)]
    have hclt : c < 2^32 := by omega
    have hnext : nextOffset (AddToFreeList s c).memory c = c := by
      rw [heq]
      show nextOffset (write32 (write32 s.memory (c+4) c) (c+8) c) c = c
      unfold nextOffset
      rw [read32_write32_of_disjoint _ _ _ _ (by omega),
          read32_write32_self _ _ _ (by omega)]
      omega
    have hprevv : prevOffset (AddToFreeList s c).memory c = c := by
      rw [heq]
      show prevOffset (write32 (write32 s.memory (c+4) c) (c+8) c) c = c
      unfold prevOffset
      rw [read32_write32_self _ _ _ (by rw [length_write32]; omega)]
      omega
    have hbin' : binList (AddToFreeList s c) (GetIndex (GetSize s.memory c)) = some [c] := by
      unfold binList
      have hget : (AddToFreeList s c).bins.getD (GetIndex (GetSize s.memory c)) 0 = c := by
        rw [heq]
        exact getD_set_self _ _ _ _ (by rw [hblen]; exact hblt)
      rw [hget, if_neg (by unfold InvalidSize; omega), hlenB]
      exact binListFrom_self _ _ _ hnext
    refine ⟨hlenB, ?_⟩
    refine AddFree_step_cont s c ex l _ c c [] [c] hl hlen16 hlen32 hblen hsum hsz hbxx
      hcex hcfree hcmem rfl hempty hlenB ?_ hcfreeL hcfreeL (Or.inr rfl) (Or.inr rfl)
      hframe3 hbin' ?_ ?_ ?_ (by simp) ?_
    · intro b' hbne
      rw [heq]
      exact getD_set_ne _ _ _ _ _ (fun h => hbne h.symm)
    · have h2 : (([c] : List Nat) ++ [c].take 1) = [c, c] := by simp
      rw [h2]
      exact List.chain'_cons.2 ⟨hprevv, by simp⟩
    · intro x hx
      simp at hx
    · intro x hx
      left
      simpa using hx
    · exact List.nodup_singleton c
  · -- nonempty bin: splice in after the head
    obtain ⟨lb, hlb⟩ := Option.isSome_iff_exists.1 (hB1 _ hblt)
    have hlbD : binListD s (GetIndex (GetSize s.memory c)) = lb := binListD_eq s _ lb hlb
    have hndb : lb.Nodup := by
      have := hB2 _ hblt
      rwa [hlbD] at this
    have hmemb : ∀ x ∈ lb, (x, GetSize s.memory x) ∈ l ∧ IsSelfUsed s x = false ∧
        GetIndex (GetSize s.memory x) = GetIndex (GetSize s.memory c) ∧ x ∉ c :: ex := by
      intro x hx
      exact hB3 _ hblt x (by rw [hlbD]; exact hx)
    have hcnotlb : c ∉ lb := by
      intro h
      exact (hmemb c h).2.2.2 (List.mem_cons_self _ _)
    have hpairb : lb.Pairwise (fun x y => x + 16 ≤ y ∨ y + 16 ≤ x) :=
      bin_pairwise_sep l lb hsepw (fun x hx => ⟨_, (hmemb x hx).1⟩) hndb
    have hboundb : ∀ x ∈ lb, x + 16 ≤ s.memory.length := by
      intro x hx
      have h1 := hbound _ (hmemb x hx).1
      have h2 := hsz _ (hmemb x hx).1
      simp only at h1 h2
      omega
    have hsepc : ∀ x ∈ lb, x + 16 ≤ c ∨ c + 16 ≤ x := by
      intro x hx
      have hxc : x ≠ c := fun h => hcnotlb (h ▸ hx)
      have := hsepw _ (hmemb x hx).1 _ hcmem (fun hcontra => hxc (congrArg Prod.fst hcontra))
      rcases this with ⟨h1, h2⟩ | ⟨h1, h2⟩
      · left; exact h2
      · right; exact h2
    have hprevb : List.Chain' (fun x y => prevOffset s.memory y = x) (lb ++ lb.take 1) := by
      have := hB4 _ hblt
      rwa [hlbD] at this
    obtain ⟨hbins, hframe, hlenB, hbin', hprev'⟩ :=
      AddToFreeList_splice s c (GetIndex (GetSize s.memory c)) lb rfl hInv hlb hbytes
        hlen32 hsepc hboundb hcbound hndb hpairb hprevb
    -- traversal facts for the bin head and its successor
    have hlbF : binListFrom s.memory (s.bins.getD (GetIndex (GetSize s.memory c)) 0)
        (s.memory.length + 1) (s.bins.getD (GetIndex (GetSize s.memory c)) 0) = some lb := by
      unfold binList at hlb
      rwa [if_neg hInv] at hlb
    have hheadb : lb.head? = some (s.bins.getD (GetIndex (GetSize s.memory c)) 0) :=
      binListFrom_head _ _ _ _ _ hlbF
    obtain ⟨hchainb, hlastb, htailb, hlenb⟩ := binListFrom_struct s.memory _ _ _ _ hlbF
    obtain ⟨t, hlbshape⟩ : ∃ t, lb = s.bins.getD (GetIndex (GetSize s.memory c)) 0 :: t := by
      rcases hlbc : lb with _ | ⟨a, t⟩
      · exact absurd hlbc (binListFrom_ne_nil _ _ _ _ _ hlbF)
      · rw [hlbc] at hheadb
        have ha : a = s.bins.getD (GetIndex (GetSize s.memory c)) 0 := by simpa using hheadb
        exact ⟨t, by rw [ha]⟩
    have hh0mem : s.bins.getD (GetIndex (GetSize s.memory c)) 0 ∈ lb := by
      rw [hlbshape]
      exact List.mem_cons_self _ _
    have hn0mem : nextOffset s.memory (s.bins.getD (GetIndex (GetSize s.memory c)) 0) ∈ lb :=
      cycle_next_mem s.memory lb _ hheadb hchainb hlastb _ hh0mem
    have hh0free : (s.bins.getD (GetIndex (GetSize s.memory c)) 0,
        GetSize s.memory (s.bins.getD (GetIndex (GetSize s.memory c)) 0)) ∈ freeChunks s l := by
      refine List.mem_filter.2 ⟨(hmemb _ hh0mem).1, ?_⟩
      show (!IsSelfUsed s (s.bins.getD (GetIndex (GetSize s.memory c)) 0)) = true
      rw [(hmemb _ hh0mem).2.1]
      rfl
    have hn0free : (nextOffset s.memory (s.bins.getD (GetIndex (GetSize s.memory c)) 0),
        GetSize s.memory (nextOffset s.memory (s.bins.getD (GetIndex (GetSize s.memory c)) 0)))
        ∈ freeChunks s l := by
      refine List.mem_filter.2 ⟨(hmemb _ hn0mem).1, ?_⟩
      show (!IsSelfUsed s
        (nextOffset s.memory (s.bins.getD (GetIndex (GetSize s.memory c)) 0))) = true
      rw [(hmemb _ hn0mem).2.1]
      rfl
    refine ⟨hlenB, ?_⟩
    refine AddFree_step_cont s c ex l _ _ _ lb
      (s.bins.getD (GetIndex (GetSize s.memory c)) 0 :: c :: lb.tail)
      hl hlen16 hlen32 hblen hsum hsz hbxx hcex hcfree hcmem rfl hlb hlenB ?_
      hh0free hn0free (Or.inl hh0mem) (Or.inl hn0mem) hframe hbin' ?_ ?_ ?_ ?_ ?_
    · intro b' hbne
      rw [hbins]
    · have h2 : ((s.bins.getD (GetIndex (GetSize s.memory c)) 0 :: c :: lb.tail) ++
          (s.bins.getD (GetIndex (GetSize s.memory c)) 0 :: c :: lb.tail).take 1) =
          (s.bins.getD (GetIndex (GetSize s.memory c)) 0 :: c :: lb.tail) ++
          [s.bins.getD (GetIndex (GetSize s.memory c)) 0] := by simp
      rw [h2]
      exact hprev'
    · intro x hx
      rw [hlbshape] at hx
      rcases List.mem_cons.1 hx with h | h
      · rw [h]; exact List.mem_cons_self _ _
      · refine List.mem_cons_of_mem _ (List.mem_cons_of_mem _ ?_)
        rw [hlbshape]
        exact h
    · intro x hx
      rcases List.mem_cons.1 hx with h | h
      · right; rw [h]; exact hh0mem
      · rcases List.mem_cons.1 h with h2 | h2
        · left; exact h2
        · right; exact List.tail_subset _ h2
    · exact List.mem_cons_of_mem _ (List.mem_cons_self _ _)
    · rw [List.nodup_cons, List.nodup_cons]
      refine ⟨?_, ?_, ?_⟩
      · intro hmem'
        rcases List.mem_cons.1 hmem' with h | h
        · exact hcnotlb (h.symm ▸ hh0mem)
        · rw [hlbshape] at hndb h
          exact (List.nodup_cons.1 hndb).1 (by simpa using h)
      · intro hmem'
        exact hcnotlb (List.tail_subset _ hmem')
      · rw [hlbshape] at hndb
        rw [hlbshape]
        exact (List.nodup_cons.1 hndb).2

end TinyGC
